import Mathlib

/-!
# A verification model of the falcon `CompiledRouter` (src/falcon/routing/compiled.py)

This file shallowly embeds the routing core: the URI-template field scanner
(`_FIELD_PATTERN`), segment-node construction (`CompiledRouterNode.__init__`),
template validation (`CompiledRouter._validate_template_segment`), tree insertion
(`CompiledRouter.add_route`), the matcher compiler (`CompiledRouter._generate_ast`
and the `_Cx*` construct classes), and an interpreter for the generated decision
program (the semantics of the Python source emitted by the `src` methods).

Strings are modelled as `List Char`.  Resources and method maps are abstract
`Nat` handles.  Converters are modelled as functions `Value → Value` where
`Value.vNone` plays the role of Python `None` (both as the rejection result of
`convert` and as a value).
-/

namespace Falcon

/-- Runtime values flowing through the matcher: captured path fragments,
remaining-path lists, converter outputs, and Python `None`. -/
inductive Value where
  | vNone : Value
  | vStr : List Char → Value
  | vList : List (List Char) → Value
  | vNat : Nat → Value
  deriving DecidableEq, Repr

/-- The groups of one `_FIELD_PATTERN` match: `fname`, the optional `cname`
(present iff the `cname_sep` group matched; the stored text excludes the colon)
and the optional `argstr`. -/
structure FieldMatch where
  fname : List Char
  cname : Option (List Char)
  argstr : Option (List Char)
  deriving DecidableEq, Repr, Inhabited

/-- `List.span`-style split: longest prefix satisfying `p`, and the rest. -/
def spanP (p : Char → Bool) : List Char → List Char × List Char
  | [] => ([], [])
  | c :: cs =>
    if p c then
      let (a, b) := spanP p cs
      (c :: a, b)
    else ([], c :: cs)

/-- Attempt to match the interior of `_FIELD_PATTERN` (the part after `{`):
`((?P<fname>[^}:]*)((?P<cname_sep>:(?P<cname>[^}(]*))(\((?P<argstr>[^}]*)\))?)?)}`.
Returns the groups and the input remaining after the closing `}`.  The
deterministic case analysis reproduces the backtracking behaviour of the
regex: the only giving-back point is the greedy `argstr`, which must be
followed by `)` and then immediately by `}`. -/
def scanField (s : List Char) : Option (FieldMatch × List Char) :=
  let p1 := spanP (fun c => c ≠ '}' && c ≠ ':') s
  match p1.2 with
  | [] => none
  | c1 :: r1 =>
    if c1 = '}' then some ({ fname := p1.1, cname := none, argstr := none }, r1)
    else
      -- c1 = ':' (the span stops only at '}' or ':')
      let p2 := spanP (fun c => c ≠ '}' && c ≠ '(') r1
      match p2.2 with
      | [] => none
      | c2 :: r2 =>
        if c2 = '}' then
          some ({ fname := p1.1, cname := some p2.1, argstr := none }, r2)
        else if c2 = '(' then
          let p3 := spanP (fun c => c ≠ '}') r2
          match p3.2 with
          | [] => none
          | _ :: r3 =>
            -- the span stops only at '}'
            match p3.1.getLast? with
            | some cl =>
              if cl = ')' then
                some ({ fname := p1.1, cname := some p2.1,
                        argstr := some p3.1.dropLast }, r3)
              else none
            | none => none
        else none

/-- One scan step result: the pieces of a string as alternating (gap, field)
pairs followed by the trailing gap, as produced by `_FIELD_PATTERN.finditer`
scanning left to right over non-overlapping matches. -/
def consGap (c : Char) : List (List Char × FieldMatch) × List Char →
    List (List Char × FieldMatch) × List Char
  | ([], t) => ([], c :: t)
  | ((g, m) :: ps, t) => ((c :: g, m) :: ps, t)

/-- Fuelled scanner core; fuel `s.length` always suffices because every step
consumes at least one character. -/
def fieldSplitAux : Nat → List Char → List (List Char × FieldMatch) × List Char
  | 0, s => ([], s)
  | _ + 1, [] => ([], [])
  | fuel + 1, c :: rest =>
    if c = '{' then
      match scanField rest with
      | some (fm, rest2) =>
        let (ps, t) := fieldSplitAux fuel rest2
        (([], fm) :: ps, t)
      | none => consGap c (fieldSplitAux fuel rest)
    else consGap c (fieldSplitAux fuel rest)

/-- Decompose a segment into `_FIELD_PATTERN` matches and the literal text
around them (`finditer` semantics). -/
def fieldSplit (s : List Char) : List (List Char × FieldMatch) × List Char :=
  fieldSplitAux s.length s

/-- The list of field matches of a string (`_FIELD_PATTERN.finditer`). -/
def fieldMatches (s : List Char) : List FieldMatch :=
  (fieldSplit s).1.map Prod.snd

/-- `_FIELD_PATTERN.sub(repl, s)` for a match-dependent replacement. -/
def fieldSub (repl : FieldMatch → List Char) (s : List Char) : List Char :=
  let (ps, t) := fieldSplit s
  (ps.flatMap fun gm => gm.1 ++ repl gm.2) ++ t

/-- Characters escaped by `re.sub(r'[\.\(\)\[\]\?\$\*\+\^\|]', r'\\\g<0>', ...)`
in `CompiledRouterNode.__init__`. -/
def escapedMeta : List Char := ['.', '(', ')', '[', ']', '?', '$', '*', '+', '^', '|']

/-- The escaping substitution applied to a complex segment before building its
pattern. -/
def escapeSeg (s : List Char) : List Char :=
  s.flatMap fun c => if c ∈ escapedMeta then ['\\', c] else [c]

/-- The replacement template `(?P<\2>.+)` (group 2 is `fname`). -/
def groupRepl (m : FieldMatch) : List Char :=
  ('(' :: '?' :: 'P' :: '<' :: m.fname) ++ ('>' :: '.' :: '+' :: ')' :: [])

/-- `pattern_text` for a complex segment: escape the metacharacters, replace
each field expression by a named group over `.+`, and anchor both ends. -/
def patternText (raw : List Char) : List Char :=
  '^' :: fieldSub groupRepl (escapeSeg raw) ++ ['$']

/-- Shape signature used for complex-sibling conflict detection:
`_FIELD_PATTERN.sub('v', segment)`. -/
def shapeSig (s : List Char) : List Char :=
  fieldSub (fun _ => ['v']) s

/-- A segment node of the routing tree (`CompiledRouterNode`).  The fields,
in constructor order: `raw_segment`, `method_map`, `resource`, `uri_template`,
`is_var`, `is_complex`, `num_fields`, `var_name`, `var_pattern` (the regex
source text built by `patternText`), `var_converter_map`, `children`. -/
inductive RNode where
  | mk (raw_segment : List Char) (method_map : Option Nat) (resource : Option Nat)
      (uri_template : Option (List Char)) (is_var : Bool) (is_complex : Bool)
      (num_fields : Nat) (var_name : Option (List Char))
      (var_pattern : Option (List Char))
      (var_converter_map : List (List Char × List Char × Option (List Char)))
      (children : List RNode) : RNode
  deriving Repr, Inhabited

def RNode.raw_segment : RNode → List Char
  | .mk r _ _ _ _ _ _ _ _ _ _ => r

def RNode.method_map : RNode → Option Nat
  | .mk _ m _ _ _ _ _ _ _ _ _ => m

def RNode.resource : RNode → Option Nat
  | .mk _ _ r _ _ _ _ _ _ _ _ => r

def RNode.uri_template : RNode → Option (List Char)
  | .mk _ _ _ t _ _ _ _ _ _ _ => t

def RNode.is_var : RNode → Bool
  | .mk _ _ _ _ v _ _ _ _ _ _ => v

def RNode.is_complex : RNode → Bool
  | .mk _ _ _ _ _ c _ _ _ _ _ => c

def RNode.num_fields : RNode → Nat
  | .mk _ _ _ _ _ _ n _ _ _ _ => n

def RNode.var_name : RNode → Option (List Char)
  | .mk _ _ _ _ _ _ _ v _ _ _ => v

def RNode.var_pattern : RNode → Option (List Char)
  | .mk _ _ _ _ _ _ _ _ p _ _ => p

def RNode.var_converter_map : RNode → List (List Char × List Char × Option (List Char))
  | .mk _ _ _ _ _ _ _ _ _ v _ => v

def RNode.children : RNode → List RNode
  | .mk _ _ _ _ _ _ _ _ _ _ c => c

/-- Replace a node's children (models in-place mutation of `node.children`). -/
def RNode.withChildren : RNode → List RNode → RNode
  | .mk a b c d e f g h i j _, ch => .mk a b c d e f g h i j ch

/-- Write the terminal slot of a node (models the overriding assignment of
`method_map`, `resource` and `uri_template` in `add_route.insert`). -/
def RNode.bindTerminal : RNode → Nat → Nat → List Char → RNode
  | .mk a _ _ _ e f g h i j ch, mm, res, tmpl =>
    .mk a (some mm) (some res) (some tmpl) e f g h i j ch

/-- `CompiledRouterNode.__init__` for a fresh (childless, unbound) node. -/
def mkRNode (raw : List Char) : RNode :=
  let ms := fieldMatches raw
  if ms = [] then .mk raw none none none false false 0 none none [] []
  else
    let vcm := ms.filterMap fun m =>
      match m.cname with
      | some cn => if cn ≠ [] then some (m.fname, cn, m.argstr) else none
      | none => none
    -- `matches[0].span() == (0, len(raw_segment))` ⟺ the single match spans all
    if fieldSplit raw = ([([], ms.headI)], []) then
      .mk raw none none none true false ms.length (some ms.headI.fname) none vcm []
    else
      .mk raw none none none true true ms.length none (some (patternText raw)) vcm []

/-- `CompiledRouterNode.matches`. -/
def RNode.matchesSeg (n : RNode) (segment : List Char) : Bool :=
  segment = n.raw_segment

/-- `CompiledRouterNode.conflicts_with`. -/
def RNode.conflictsWith (n : RNode) (segment : List Char) : Bool :=
  let other := mkRNode segment
  if n.is_var then
    if n.is_complex then
      if other.is_complex then shapeSig n.raw_segment = shapeSig segment
      else false
    else other.is_var && !other.is_complex
  else false

/-! ## Converters, validation and registration -/

/-- A registered converter class: its `CONSUME_MULTIPLE_SEGMENTS` flag and its
constructor, which receives the optional raw `argstr` and either yields a
`convert` function or fails (models the constructor raising). -/
structure ConvClass where
  multi : Bool
  instantiate : Option (List Char) → Option (Value → Value)

/-- The router's converter registry (`self._converter_map`). -/
def ConvMap : Type := List (List Char × ConvClass)

/-- First-match association-list lookup. -/
def lookupA {α β : Type} [DecidableEq α] (l : List (α × β)) (k : α) : Option β :=
  match l with
  | [] => none
  | (k2, v) :: tl => if k2 = k then some v else lookupA tl k

/-- Characters matched by `\\s` in a CPython `str` pattern: the ASCII class
together with the Unicode whitespace code points. -/
def pySpace (c : Char) : Bool :=
  c.toNat ∈ ([0x20, 0x9, 0xa, 0xd, 0xb, 0xc, 0x1c, 0x1d, 0x1e, 0x1f,
    0x85, 0xa0, 0x1680, 0x2000, 0x2001, 0x2002, 0x2003, 0x2004, 0x2005,
    0x2006, 0x2007, 0x2008, 0x2009, 0x200a, 0x2028, 0x2029, 0x202f,
    0x205f, 0x3000] : List Nat)

/-- `keyword.kwlist` of CPython 3. -/
def pyKeywords : List (List Char) :=
  ["False".data, "None".data, "True".data, "and".data, "as".data, "assert".data,
   "async".data, "await".data, "break".data, "class".data, "continue".data,
   "def".data, "del".data, "elif".data, "else".data, "except".data,
   "finally".data, "for".data, "from".data, "global".data, "if".data,
   "import".data, "in".data, "is".data, "lambda".data, "nonlocal".data,
   "not".data, "or".data, "pass".data, "raise".data, "return".data, "try".data,
   "while".data, "with".data, "yield".data]

def isIdentStart (c : Char) : Bool :=
  ('A' ≤ c && c ≤ 'Z') || ('a' ≤ c && c ≤ 'z') || c = '_'

def isIdentCont (c : Char) : Bool :=
  isIdentStart c || ('0' ≤ c && c ≤ '9')

/-- A nonempty string entirely of the form `[A-Za-z_][A-Za-z0-9_]*`. -/
def isIdentCore : List Char → Bool
  | [] => false
  | c :: cs => isIdentStart c && cs.all isIdentCont

/-- `_IDENTIFIER_PATTERN.match(name)` truthiness: the pattern is
`[A-Za-z_][A-Za-z0-9_]*$` used with `re.match`, and `$` also matches just
before a single trailing newline, so a valid identifier followed by one `'\n'`
passes the check as well. -/
def identPatternOk (n : List Char) : Bool :=
  isIdentCore n || (n.getLast? = some '\n' && isIdentCore n.dropLast)

/-- The per-field validation loop of `_validate_template_segment`, threading
the `used_names` set through the fields of one segment.  `.error ()` models a
raised `UnacceptableRouteError`. -/
def validateFields (cm : ConvMap) :
    List FieldMatch → List (List Char) → Except Unit (List (List Char))
  | [], used => .ok used
  | m :: ms, used =>
    if !identPatternOk m.fname || m.fname ∈ pyKeywords then .error ()
    else if m.fname ∈ used then .error ()
    else
      let used2 := m.fname :: used
      match m.cname with
      | none => validateFields cm ms used2
      | some [] => .error ()      -- `field.group('cname_sep') == ':'`
      | some cn =>
        match lookupA cm cn with
        | none => .error ()       -- unknown converter
        | some cls =>
          match cls.instantiate m.argstr with
          | none => .error ()     -- converter constructor raised
          | some _ => validateFields cm ms used2

/-- `_validate_template_segment` applied over all path segments in order. -/
def validatePath (cm : ConvMap) :
    List (List Char) → List (List Char) → Except Unit (List (List Char))
  | [], used => .ok used
  | seg :: rest, used =>
    match validateFields cm (fieldMatches seg) used with
    | .error e => .error e
    | .ok used2 => validatePath cm rest used2

/-- `find_cmp_converter`: the first `(field, converter)` entry of the node
whose registered converter class consumes multiple segments. -/
def findCmpConverter (cm : ConvMap) (n : RNode) : Option (List Char × List Char) :=
  (n.var_converter_map.filterMap fun fca =>
    match lookupA cm fca.2.1 with
    | some cls => if cls.multi then some (fca.1, fca.2.1) else none
    | none => none).head?

/-- Index of the first node that `matches` the segment (`true`) or, failing
that at each node in turn, `conflicts_with` it (`false`) — the order in which
the `for node in nodes` loop of `insert` reacts. -/
def firstHit (nodes : List RNode) (seg : List Char) : Option (Nat × Bool) :=
  match nodes with
  | [] => none
  | n :: tl =>
    if n.matchesSeg seg then some (0, true)
    else if n.conflictsWith seg then some (0, false)
    else (firstHit tl seg).map fun p => (p.1 + 1, p.2)

/-- `add_route.insert`.  Returns the sibling list after the call together with
an error flag (`true` models a raised `UnacceptableRouteError`); mutations
performed before the raise persist in the returned list, exactly as the
in-place Python mutation does. -/
def insertR (cm : ConvMap) (mm res : Nat) (tmpl : List Char) :
    List Char → List (List Char) → List RNode → List RNode × Bool
  | seg, rest, nodes =>
    match firstHit nodes seg with
    | some (i, true) =>
      let node := nodes.getD i default
      match rest with
      | [] => (nodes.set i (node.bindTerminal mm res tmpl), false)
      | seg2 :: rest2 =>
        if (findCmpConverter cm node).isSome then (nodes, true)
        else
          let (ch, e) := insertR cm mm res tmpl seg2 rest2 node.children
          (nodes.set i (node.withChildren ch), e)
    | some (_, false) => (nodes, true)
    | none =>
      let newNode := mkRNode seg
      if newNode.is_complex && (findCmpConverter cm newNode).isSome then (nodes, true)
      else
        match rest with
        | [] => (nodes ++ [newNode.bindTerminal mm res tmpl], false)
        | seg2 :: rest2 =>
          if (findCmpConverter cm newNode).isSome then (nodes, true)
          else
            let (ch, e) := insertR cm mm res tmpl seg2 rest2 []
            (nodes ++ [newNode.withChildren ch], e)

/-- Python `uri.lstrip('/').split('/')` on character lists. -/
def splitSlash : List Char → List (List Char)
  | [] => [[]]
  | c :: rest =>
    match splitSlash rest with
    | s :: ss => if c = '/' then [] :: s :: ss else (c :: s) :: ss
    | [] => [[c]]

/-- Router state: the tree roots and the converter registry. -/
structure Router where
  roots : List RNode
  converterMap : ConvMap

/-- A fresh router over a given converter registry. -/
def mkRouter (cm : ConvMap) : Router := { roots := [], converterMap := cm }

/-- `CompiledRouter.add_route` (resource and method map abstracted to `Nat`
handles).  Returns the router state after the call and an error flag that
models a raised `UnacceptableRouteError`. -/
def addRoute (r : Router) (uri_template : List Char) (res mm : Nat) : Router × Bool :=
  if (fieldSub (fun _ => "{FIELD}".data) uri_template).any pySpace then (r, true)
  else
    let path := splitSlash (uri_template.dropWhile (· = '/'))
    match validatePath r.converterMap path [] with
    | .error _ => (r, true)
    | .ok _ =>
      match path with
      | [] => (r, true)
      | seg :: rest =>
        let (roots2, e) := insertR r.converterMap mm res uri_template seg rest r.roots
        ({ r with roots := roots2 }, e)

/-! ## The decision-program constructs (`_Cx*` classes)

Each constructor mirrors one construct class; parents carry their appended
children.  `setParamsDict` records which generated local the emitted
`params.update(...)` reads: `dict_match_N` (`fromGroups = false`, created by
`_CxVariableFromPatternMatch`) or `dict_groups_N` (`fromGroups = true`,
created by `_CxVariableFromPatternMatchPrefetched`). -/

inductive Cx where
  | ifPathLen (gt : Bool) (n : Nat) (children : List Cx)
  | ifSegLit (idx : Nat) (lit : List Char) (children : List Cx)
  | ifSegPat (idx : Nat) (patIdx : Nat) (children : List Cx)
  | ifConv (u : Nat) (k : Nat) (children : List Cx)
  | setFragField (name : List Char)
  | setFragPath (idx : Nat)
  | setFragRemaining (idx : Nat)
  | varFromMatch (u : Nat)
  | varFromPrefetched (u : Nat)
  | prefetchGroups
  | retNone
  | retVal (i : Nat)
  | setParamPath (name : List Char) (idx : Nat)
  | setParamVal (name : List Char) (u : Nat)
  | setParamsDict (fromGroups : Bool) (u : Nat)
  deriving Repr, Inhabited

/-- State threaded through `_generate_ast`: `self._return_values`,
`self._patterns` (pattern source texts) and `self._converters`
(instantiated `convert` functions). -/
structure GenState where
  returnValues : List RNode
  patterns : List (List Char)
  convs : List (Value → Value)

/-- Sibling visit order of `_generate_ast`: the stable sort by
`node.is_var + (node.is_var and not node.is_complex)`, i.e. literals, then
complex field nodes, then simple field nodes, each group in insertion order. -/
def sortNodes (nodes : List RNode) : List RNode :=
  nodes.filter (fun n => !n.is_var) ++ nodes.filter (fun n => n.is_var && n.is_complex)
    ++ nodes.filter (fun n => n.is_var && !n.is_complex)

/-- Default converter class used for lookups that cannot fail on validated
input (unknown names reject everything). -/
def defaultConvClass : ConvClass := { multi := false, instantiate := fun _ => none }

/-- Instantiate a converter at generation time
(`self._instantiate_converter`); validated templates always succeed, the
fallback rejects every fragment. -/
def instConv (cm : ConvMap) (cname : List Char) (argstr : Option (List Char)) :
    Value → Value :=
  (((lookupA cm cname).getD defaultConvClass).instantiate argstr).getD fun _ => .vNone

/-- `_generate_conversion_ast`: unroll the converter loop of a complex node
into nested `_CxIfConverterField` constructs.  Returns the wrapping function
(children of the innermost construct are supplied later), the grown state and
the grown parameter stack. -/
def genConversion (cm : ConvMap) :
    List (List Char × List Char × Option (List Char)) → GenState → List Cx →
      (List Cx → List Cx) × GenState × List Cx
  | [], st, stack => (id, st, stack)
  | (f, c, a) :: rest, st, stack =>
    let obj := instConv cm c a
    let k := st.convs.length
    let st2 := { st with convs := st.convs ++ [obj] }
    let u := stack.length + 1
    let stack2 := stack ++ [Cx.setParamVal f u]
    let (w, st3, stack3) := genConversion cm rest st2 stack2
    (fun inner => [Cx.setFragField f, Cx.ifConv u k (w inner)], st3, stack3)

/-- The per-node body of the `for node in nodes` loop of `_generate_ast`,
parameterized by the recursive call used for the node's children
(`self._generate_ast(node.children, ...)`). -/
def genNodeF
    (rec : List RNode → GenState → List Cx → Nat → Bool → List Cx × GenState)
    (cm : ConvMap) (node : RNode) (st : GenState) (stack : List Cx)
    (level : Nat) (fast : Bool) : List Cx × GenState :=
  let (wrap, stack2, st1, consumeMulti) :
      (List Cx → List Cx) × List Cx × GenState × Bool :=
    if node.is_var then
      if node.is_complex then
        let patIdx := st.patterns.length
        let stp := { st with patterns := st.patterns ++ [node.var_pattern.getD []] }
        if node.var_converter_map ≠ [] then
          let (w, st2, stack2) := genConversion cm node.var_converter_map stp stack
          let (extraPre, stack3) :=
            if node.num_fields > node.var_converter_map.length then
              ([Cx.varFromPrefetched (stack2.length + 1)],
               stack2 ++ [Cx.setParamsDict true (stack2.length + 1)])
            else ([], stack2)
          (fun inner =>
            [Cx.ifSegPat level patIdx (Cx.prefetchGroups :: w (extraPre ++ inner))],
           stack3, st2, false)
        else
          let u := stack.length + 1
          (fun inner => [Cx.ifSegPat level patIdx (Cx.varFromMatch u :: inner)],
           stack ++ [Cx.setParamsDict false u], stp, false)
      else
        let fieldName := node.var_name.getD []
        match node.var_converter_map with
        | (_, cname, argstr) :: _ =>
          let cls := (lookupA cm cname).getD defaultConvClass
          let obj := (cls.instantiate argstr).getD fun _ => .vNone
          let k := st.convs.length
          let st2 := { st with convs := st.convs ++ [obj] }
          let frag := if cls.multi then Cx.setFragRemaining level else Cx.setFragPath level
          let u := stack.length + 1
          (fun inner => [frag, Cx.ifConv u k inner],
           stack ++ [Cx.setParamVal fieldName u], st2, cls.multi)
        | [] =>
          (id, stack ++ [Cx.setParamPath fieldName level], st, false)
    else
      (fun inner => [Cx.ifSegLit level node.raw_segment inner], stack, st, false)
  let (retIdx, st2) : Option Nat × GenState :=
    match node.resource with
    | some _ => (some st1.returnValues.length,
                 { st1 with returnValues := st1.returnValues ++ [node] })
    | none => (none, st1)
  let (childCs, st3) := rec node.children st2 stack2 (level + 1) fast
  let tailCs : List Cx :=
    match retIdx with
    | none => if fast then [Cx.retNone] else []
    | some i =>
      if consumeMulti then stack2 ++ [Cx.retVal i]
      else
        Cx.ifPathLen false (level + 1) (stack2 ++ [Cx.retVal i]) ::
          (if fast then [Cx.retNone] else [])
  (wrap (childCs ++ tailCs), st3)

/-- The sibling loop of `_generate_ast` over the sorted node list;
every iteration restarts from a copy of the original parameter stack. -/
def genSeqF
    (rec : List RNode → GenState → List Cx → Nat → Bool → List Cx × GenState)
    (cm : ConvMap) : List RNode → GenState → List Cx → Nat → Bool →
      List Cx × GenState
  | [], st, _, _, _ => ([], st)
  | node :: restN, st, stack, level, fast =>
    let (cs1, st1) := genNodeF rec cm node st stack level fast
    let (cs2, st2) := genSeqF rec cm restN st1 stack level fast
    (cs1 ++ cs2, st2)

/-- `_generate_ast`.  The fuel only bounds tree depth (structural recursion is
blocked by the sibling sort); `sizeOf` of the node list always suffices. -/
def genNodes (cm : ConvMap) : Nat → List RNode → GenState → List Cx → Nat →
    Bool → List Cx × GenState
  | 0, _, st, _, _, _ => ([], st)
  | fuel + 1, nodes, st, stack, level, fast =>
    match nodes with
    | [] => ([], st)
    | _ =>
      let sorted := sortNodes nodes
      let fast2 := if fast && nodes.length > 1 then !(nodes.any RNode.is_var) else fast
      let foundSimple := nodes.any fun n => n.is_var && !n.is_complex
      let (cs, st2) := genSeqF (genNodes cm fuel) cm sorted st stack level fast2
      ([Cx.ifPathLen true level
          (cs ++ (if !foundSimple && fast2 then [Cx.retNone] else []))], st2)

mutual

/-- Node count of a routing tree, used as generation fuel (any bound on the
tree depth suffices). -/
def RNode.size : RNode → Nat
  | .mk _ _ _ _ _ _ _ _ _ _ ch => 1 + sizeForest ch

def sizeForest : List RNode → Nat
  | [] => 0
  | n :: tl => RNode.size n + sizeForest tl

end

/-- `CompiledRouter._compile`: generate the decision program and the three
runtime tables from scratch. -/
def compileRouter (r : Router) : List Cx × GenState :=
  genNodes r.converterMap (sizeForest r.roots) r.roots ⟨[], [], []⟩ [] 0 true

/-! ## The compiled pattern dialect

`pattern_text` strings consist of `^`, backslash-escaped literal characters,
plain literal characters, named groups `(?P<name>.+)`, and a final `$`.
`parsePattern` recovers that structure and `matchParts` implements CPython
matching for it: literals match exactly, each `.+` group is greedy (longest
capture first) with backtracking. -/

inductive PatPart where
  | lit (c : Char)
  | grp (name : List Char)
  deriving Repr, DecidableEq

/-- Group dictionaries (`match.groupdict()`): name to captured text. -/
def GDict : Type := List (List Char × List Char)

/-- Parse the body of a compiled pattern (anchors removed). -/
def parseBody : Nat → List Char → List PatPart
  | 0, _ => []
  | _ + 1, [] => []
  | fuel + 1, '\\' :: c :: rest => .lit c :: parseBody fuel rest
  | fuel + 1, '(' :: '?' :: 'P' :: '<' :: rest =>
    (let (nm, r2) := spanP (fun c => c ≠ '>') rest
     match r2 with
     | '>' :: '.' :: '+' :: ')' :: r3 => .grp nm :: parseBody fuel r3
     | _ => .lit '(' :: parseBody fuel ('?' :: 'P' :: '<' :: rest))
  | fuel + 1, c :: rest => .lit c :: parseBody fuel rest

/-- Parse a `pattern_text` produced by `patternText` (strip the anchors,
decode escapes and named groups). -/
def parsePattern (p : List Char) : List PatPart :=
  let body := match p with
    | '^' :: r => r
    | r => r
  let body2 := if body.getLast? = some '$' then body.dropLast else body
  parseBody body2.length body2

/-- `[n, n-1, ..., 1]`: the candidate capture lengths of a greedy `.+`. -/
def descFrom : Nat → List Nat
  | 0 => []
  | k + 1 => (k + 1) :: descFrom k

/-- Backtracking matcher for the pattern dialect; a full (anchored) match
returning the group dictionary in group order. -/
def matchParts : List PatPart → List Char → Option GDict
  | [], s => if s.isEmpty then some [] else none
  | .lit c :: ps, s =>
    match s with
    | [] => none
    | d :: s2 => if d = c then matchParts ps s2 else none
  | .grp nm :: ps, s =>
    (descFrom s.length).findSome? fun k =>
      (matchParts ps (s.drop k)).map fun gd => (nm, s.take k) :: gd

/-- `compiled_pattern.match(segment)` returning `groupdict()` on success. -/
def patMatch (ptext : List Char) (seg : List Char) : Option GDict :=
  matchParts (parsePattern ptext) seg

/-! ## The matcher runtime -/

/-- Immutable inputs of one `find(path, return_values, patterns, converters,
params)` call (the tables are those built by `compileRouter`). -/
structure Ctx where
  path : List (List Char)
  patterns : List (List Char)
  convs : List (Value → Value)

/-- The mutable local state of the generated `find` function: the `params`
dict, and the generated locals `fragment`, `groups`, `match`,
`field_value_N`, `dict_match_N`, `dict_groups_N`. -/
structure Env where
  params : List (List Char × Value)
  fragment : Value
  groups : GDict
  matchd : Option GDict
  fieldVals : List (Nat × Value)
  dictMatch : List (Nat × GDict)
  dictGroups : List (Nat × GDict)

def Env.init : Env := ⟨[], .vNone, [], none, [], [], []⟩

/-- Python dict assignment `d[k] = v`: overwrite in place, else append. -/
def dictSet {α β : Type} [DecidableEq α] : List (α × β) → α → β → List (α × β)
  | [], k, v => [(k, v)]
  | (k2, v2) :: tl, k, v =>
    if k2 = k then (k2, v) :: tl else (k2, v2) :: dictSet tl k v

/-- `groups.pop(name)`: the removed value and the remaining dict. -/
def popKey : GDict → List Char → Option (List Char) × GDict
  | [], _ => (none, [])
  | (k2, v) :: tl, k =>
    if k2 = k then (some v, tl)
    else
      let (r, tl2) := popKey tl k
      (r, (k2, v) :: tl2)

/-- Outcome of executing a construct: fall through to the next sibling, or a
`return` (with `none` for `return None` and `some i` for
`return return_values[i]`). -/
inductive Res where
  | fall
  | ret (v : Option Nat)
  deriving Repr, DecidableEq

/-- Execute a construct list in order, stopping at the first `return`
(the sequential statements of one generated block). -/
def execListF (ex : Cx → Env → Env × Res) : List Cx → Env → Env × Res
  | [], E => (E, .fall)
  | c :: cs, E =>
    match ex c E with
    | (E2, .fall) => execListF ex cs E2
    | r => r

/-- Execute one construct: the semantics of the Python statements each
`_Cx*.src` emits.  Fuel bounds construct nesting depth (`sizeOf` of the
program suffices). -/
def execCx (ctx : Ctx) : Nat → Cx → Env → Env × Res
  | 0, _, E => (E, .fall)
  | fuel + 1, c, E =>
    match c with
    | .ifPathLen gt n cs =>
      if (if gt then n < ctx.path.length else ctx.path.length = n) then
        execListF (execCx ctx fuel) cs E
      else (E, .fall)
    | .ifSegLit idx lit cs =>
      if (ctx.path.getD idx []) = lit then execListF (execCx ctx fuel) cs E
      else (E, .fall)
    | .ifSegPat idx patIdx cs =>
      let m := patMatch ((ctx.patterns.getD patIdx [])) (ctx.path.getD idx [])
      let E2 := { E with matchd := m }
      match m with
      | some _ => execListF (execCx ctx fuel) cs E2
      | none => (E2, .fall)
    | .ifConv u k cs =>
      let f := ctx.convs.getD k fun _ => .vNone
      let v := f E.fragment
      let E2 := { E with fieldVals := dictSet E.fieldVals u v }
      if v ≠ .vNone then execListF (execCx ctx fuel) cs E2 else (E2, .fall)
    | .setFragField name =>
      let (v, g2) := popKey E.groups name
      ({ E with fragment := .vStr (v.getD []), groups := g2 }, .fall)
    | .setFragPath idx => ({ E with fragment := .vStr (ctx.path.getD idx []) }, .fall)
    | .setFragRemaining idx => ({ E with fragment := .vList (ctx.path.drop idx) }, .fall)
    | .varFromMatch u =>
      ({ E with dictMatch := dictSet E.dictMatch u (E.matchd.getD []) }, .fall)
    | .varFromPrefetched u =>
      ({ E with dictGroups := dictSet E.dictGroups u E.groups }, .fall)
    | .prefetchGroups => ({ E with groups := E.matchd.getD [] }, .fall)
    | .retNone => (E, .ret none)
    | .retVal i => (E, .ret (some i))
    | .setParamPath name idx =>
      ({ E with params := dictSet E.params name (.vStr (ctx.path.getD idx [])) }, .fall)
    | .setParamVal name u =>
      ({ E with params := dictSet E.params name ((lookupA E.fieldVals u).getD .vNone) },
       .fall)
    | .setParamsDict fromGroups u =>
      let d := (lookupA (if fromGroups then E.dictGroups else E.dictMatch) u).getD []
      ({ E with params := d.foldl (fun p kv => dictSet p kv.1 (.vStr kv.2)) E.params },
       .fall)

mutual

/-- Construct count of a program, used as interpreter fuel (any bound on the
nesting depth suffices). -/
def Cx.size : Cx → Nat
  | .ifPathLen _ _ cs => 1 + sizeProg cs
  | .ifSegLit _ _ cs => 1 + sizeProg cs
  | .ifSegPat _ _ cs => 1 + sizeProg cs
  | .ifConv _ _ cs => 1 + sizeProg cs
  | _ => 1

def sizeProg : List Cx → Nat
  | [] => 0
  | c :: cs => Cx.size c + sizeProg cs

end

/-- Run the whole generated `find` body. -/
def execProgram (ctx : Ctx) (prog : List Cx) (E : Env) : Env × Res :=
  execListF (execCx ctx (sizeProg prog)) prog E

/-- The 4-member match record returned by `CompiledRouter.find`
(`method_map or {}` yields the `0` handle when the slot is unset). -/
structure MatchRecord where
  resource : Option Nat
  methodMap : Nat
  params : List (List Char × Value)
  uriTemplate : Option (List Char)
  deriving Repr, DecidableEq

/-- `CompiledRouter.find` (with the lazy-compile indirection elided: the
program and tables are regenerated from the current tree, which is what the
dirty-flag protocol guarantees the executed program reflects). -/
def findModel (r : Router) (uri : List Char) : Option MatchRecord :=
  let path := splitSlash (uri.dropWhile (· = '/'))
  let (prog, st) := compileRouter r
  let ctx : Ctx := ⟨path, st.patterns, st.convs⟩
  match execProgram ctx prog Env.init with
  | (E, .ret (some i)) =>
    match st.returnValues.get? i with
    | some n => some ⟨n.resource, n.method_map.getD 0, E.params, n.uri_template⟩
    | none => none
  | _ => none

/-! ## The reference search (specification §8, invariant 2)

A linear search over the registered templates that matches the request path
segment by segment against the routing tree, visiting siblings in the order
`Literal` → `ComplexField` → `SimpleField`, accepting a terminal only when
the path is fully consumed unless the terminal's field uses a multi-segment
converter (which consumes all remaining segments).  Parameter pairs are
collected along the matched branch (converted fields to their converted
values, other fields to the captured text). -/

/-- Convert the named-converter fields of a complex segment against the
captured group dictionary, popping each converted group; fails if any
converter rejects. -/
def refConvertComplex (cm : ConvMap) :
    List (List Char × List Char × Option (List Char)) → GDict →
      Option (List (List Char × Value) × GDict)
  | [], gd => some ([], gd)
  | (f, c, a) :: rest, gd =>
    let conv := instConv cm c a
    let (v, gd2) := popKey gd f
    let val := conv (.vStr (v.getD []))
    if val ≠ .vNone then
      (refConvertComplex cm rest gd2).map fun pr => ((f, val) :: pr.1, pr.2)
    else none

/-- After a node matched one segment: prefer the deeper templates below it,
and accept the node's own terminal only when the path is fully consumed. -/
def refDescend
    (rec : List RNode → List (List Char) → Option (RNode × List (List Char × Value)))
    (node : RNode) (prms : List (List Char × Value)) (rest : List (List Char)) :
    Option (RNode × List (List Char × Value)) :=
  match rec node.children rest with
  | some (n, ps) => some (n, prms ++ ps)
  | none => if rest.isEmpty && node.resource.isSome then some (node, prms) else none

/-- Match one sibling node against the current segment (`rec` resolves the
children levels). -/
def refNodeF
    (rec : List RNode → List (List Char) → Option (RNode × List (List Char × Value)))
    (cm : ConvMap) (node : RNode) (seg : List Char) (rest : List (List Char)) :
    Option (RNode × List (List Char × Value)) :=
  if node.is_var then
    if node.is_complex then
      match patMatch (node.var_pattern.getD []) seg with
      | none => none
      | some gd =>
        match refConvertComplex cm node.var_converter_map gd with
        | none => none
        | some (cps, gdRem) =>
          refDescend rec node (cps ++ gdRem.map fun kv => (kv.1, Value.vStr kv.2)) rest
    else
      match node.var_converter_map with
      | (_, cname, argstr) :: _ =>
        let cls := (lookupA cm cname).getD defaultConvClass
        let conv := (cls.instantiate argstr).getD fun _ => .vNone
        if cls.multi then
          let v := conv (.vList (seg :: rest))
          if v ≠ .vNone && node.resource.isSome then
            some (node, [(node.var_name.getD [], v)])
          else none
        else
          let v := conv (.vStr seg)
          if v ≠ .vNone then refDescend rec node [(node.var_name.getD [], v)] rest
          else none
      | [] => refDescend rec node [(node.var_name.getD [], .vStr seg)] rest
  else
    if node.raw_segment = seg then refDescend rec node [] rest else none

/-- One level of the reference search: try the siblings in
`Literal` → `ComplexField` → `SimpleField` order, first match wins. -/
def refLevel (cm : ConvMap) : Nat → List RNode → List (List Char) →
    Option (RNode × List (List Char × Value))
  | 0, _, _ => none
  | fuel + 1, nodes, segs =>
    match segs with
    | [] => none
    | seg :: rest =>
      (sortNodes nodes).findSome? fun n => refNodeF (refLevel cm fuel) cm n seg rest

/-- The reference linear search over the whole router. -/
def refFind (r : Router) (uri : List Char) : Option MatchRecord :=
  let path := splitSlash (uri.dropWhile (· = '/'))
  match refLevel r.converterMap (sizeForest r.roots) r.roots path with
  | some (n, prms) =>
    some ⟨n.resource, n.method_map.getD 0,
      prms.foldl (fun p kv => dictSet p kv.1 kv.2) [], n.uri_template⟩
  | none => none

/-! ## Example converter registry

Concrete converter classes in the spirit of the built-in registry
(`int`-like and a multi-segment `path`-like converter), used to instantiate
the universally quantified theorems at concrete routers. -/

/-- Digits-to-number helper for the example `int` converter. -/
def digitsToNat (l : List Char) : Nat :=
  l.foldl (fun a c => a * 10 + (c.toNat - 48)) 0

/-- An `IntConverter`-like class: accepts all-digit fragments. -/
def intConvClass : ConvClass :=
  { multi := false,
    instantiate := fun _ => some fun v =>
      match v with
      | .vStr cs =>
        if cs ≠ [] && cs.all (fun c => '0' ≤ c && c ≤ '9') then .vNat (digitsToNat cs)
        else .vNone
      | _ => .vNone }

/-- A `PathConverter`-like class: consumes all remaining segments. -/
def pathConvClass : ConvClass :=
  { multi := true,
    instantiate := fun _ => some fun v =>
      match v with
      | .vList l => .vList l
      | _ => .vNone }

/-- The example registry with converters named `int` and `path`. -/
def exampleCM : ConvMap := [("int".data, intConvClass), ("path".data, pathConvClass)]

/-! ## Claims -/

/-- C2: the claim states that a failed `add_route` leaves the routing tree
exactly in its pre-call state.  The code's own cleanup (`nodes.remove(new_node)`
with the note "to avoid leaving the router in a broken state") only removes the
innermost node: registering `/a/{p:path}/b` on an empty router raises
`UnacceptableRoute` (the multi-segment `path` converter cannot appear at a
non-final position) yet leaves behind a fresh childless, non-terminal literal
node `a` — the tree is not its pre-call state `[]`. -/
theorem claim_C2_code_bug :
    (addRoute (mkRouter exampleCM) "/a/{p:path}/b".data 1 1).2 = true ∧
    (addRoute (mkRouter exampleCM) "/a/{p:path}/b".data 1 1).1.roots.map
      RNode.raw_segment = [['a']] ∧
    (addRoute (mkRouter exampleCM) "/a/{p:path}/b".data 1 1).1.roots.map
      RNode.resource = [none] ∧
    (addRoute (mkRouter exampleCM) "/a/{p:path}/b".data 1 1).1.roots.map
      (fun n => n.children.length) = [0] := by
  decide

/-! ### C5: sibling conflict rules -/

/-- Helper for C5: no node of a list matches the segment while some node
conflicts with it, so the insertion loop hits a conflict first. -/
lemma firstHit_conflict (seg : List Char) :
    ∀ nodes : List RNode, (∀ n ∈ nodes, n.matchesSeg seg = false) →
      (∃ n ∈ nodes, n.conflictsWith seg = true) →
      ∃ i, firstHit nodes seg = some (i, false) := by
  intro nodes
  induction nodes with
  | nil => intro _ h; simp at h
  | cons n tl ih =>
    intro hm hc
    have hn : n.matchesSeg seg = false := hm n (by simp)
    by_cases hcn : n.conflictsWith seg = true
    · exact ⟨0, by simp [firstHit, hn, hcn]⟩
    · have : ∃ x ∈ tl, x.conflictsWith seg = true := by
        rcases hc with ⟨x, hx, hxc⟩
        rcases List.mem_cons.mp hx with rfl | hx2
        · exact absurd hxc hcn
        · exact ⟨x, hx2, hxc⟩
      rcases ih (fun x hx => hm x (List.mem_cons_of_mem _ hx)) this with ⟨i, hi⟩
      refine ⟨i + 1, ?_⟩
      simp [firstHit, hn, hcn, hi]

/-- C5: at one tree level, `conflicts_with` holds exactly for a
SimpleField-vs-SimpleField pairing or a ComplexField-vs-ComplexField pairing
with equal shape signatures (every other pairing, in particular any pairing
involving a Literal, is conflict-free); and when no sibling matches the new
segment but some sibling conflicts with it, the insertion step of `add_route`
fails with `UnacceptableRoute`. -/
theorem claim_C5 :
    (∀ (n : RNode) (seg : List Char),
      n.conflictsWith seg = true ↔
        ((n.is_var = true ∧ n.is_complex = false ∧ (mkRNode seg).is_var = true ∧
            (mkRNode seg).is_complex = false) ∨
         (n.is_var = true ∧ n.is_complex = true ∧ (mkRNode seg).is_complex = true ∧
            shapeSig n.raw_segment = shapeSig seg))) ∧
    (∀ (cm : ConvMap) (mm res : Nat) (tmpl seg : List Char)
        (rest : List (List Char)) (nodes : List RNode),
      (∀ n ∈ nodes, n.matchesSeg seg = false) →
      (∃ n ∈ nodes, n.conflictsWith seg = true) →
      (insertR cm mm res tmpl seg rest nodes).2 = true) := by
  constructor
  · intro n seg
    unfold RNode.conflictsWith
    cases hv : n.is_var <;> cases hc : n.is_complex <;>
      cases ho : (mkRNode seg).is_var <;> cases hoc : (mkRNode seg).is_complex <;>
      simp [hv, hc, ho, hoc]
  · intro cm mm res tmpl seg rest nodes hm hc
    rcases firstHit_conflict seg nodes hm hc with ⟨i, hi⟩
    unfold insertR
    rw [hi]

/-- C5 witness: two distinct simple-field siblings conflict and make the
insertion fail (`/a/{x}` registered, `/a/{y}` attempted at the same level). -/
theorem claim_C5_witness :
    (∀ n ∈ [mkRNode "{x}".data], n.matchesSeg "{y}".data = false) ∧
    (∃ n ∈ [mkRNode "{x}".data], n.conflictsWith "{y}".data = true) ∧
    (insertR exampleCM 1 1 "/a/{y}".data "{y}".data [] [mkRNode "{x}".data]).2 = true ∧
    ((mkRNode "{y}".data).is_var = true ∧ (mkRNode "{y}".data).is_complex = false) := by
  refine ⟨by decide, by decide, ?_, by decide⟩
  exact claim_C5.2 exampleCM 1 1 "/a/{y}".data "{y}".data [] [mkRNode "{x}".data]
    (by decide) (by decide)

/-! ### C8: template validation -/

/-- Spec-level properties of one validated field expression. -/
def FieldOk (cm : ConvMap) (m : FieldMatch) : Prop :=
  identPatternOk m.fname = true ∧ m.fname ∉ pyKeywords ∧ m.cname ≠ some [] ∧
  ∀ cn, m.cname = some cn → cn ≠ [] →
    ∃ cls, lookupA cm cn = some cls ∧ cls.instantiate m.argstr ≠ none

/-- Facts established by a successful run of the field-validation loop. -/
lemma validateFields_ok (cm : ConvMap) :
    ∀ (ms : List FieldMatch) (used used2 : List (List Char)),
      validateFields cm ms used = .ok used2 →
      (∀ m ∈ ms, FieldOk cm m) ∧
      (ms.map FieldMatch.fname).Nodup ∧
      (∀ m ∈ ms, m.fname ∉ used) ∧
      (∀ x, x ∈ used2 ↔ x ∈ used ∨ x ∈ ms.map FieldMatch.fname) := by
  intro ms
  induction ms with
  | nil =>
    intro used used2 h
    simp only [validateFields] at h
    cases h
    simp
  | cons m ms ih =>
    intro used used2 h
    simp only [validateFields] at h
    split at h
    · cases h
    split at h
    · cases h
    rename_i h1 h2
    have hident : identPatternOk m.fname = true ∧ m.fname ∉ pyKeywords := by
      rw [Bool.or_eq_true, Bool.not_eq_true', decide_eq_true_eq] at h1
      push_neg at h1
      exact ⟨by simpa using h1.1, h1.2⟩
    have hused : m.fname ∉ used := by simpa using h2
    have key : validateFields cm ms (m.fname :: used) = .ok used2 ∧
        (m.cname = none ∨ ∃ cn cls, m.cname = some cn ∧ cn ≠ [] ∧
          lookupA cm cn = some cls ∧ cls.instantiate m.argstr ≠ none) := by
      split at h
      · exact ⟨h, Or.inl (by assumption)⟩
      · cases h
      · rename_i a cn hne hcn
        split at h
        · cases h
        · rename_i cls hlk
          split at h
          · cases h
          · rename_i f hin
            exact ⟨h, Or.inr ⟨cn, cls, hcn, hne, hlk, by simp [hin]⟩⟩
    rcases key with ⟨hrec, hcn⟩
    rcases ih (m.fname :: used) used2 hrec with ⟨ih1, ih2, ih3, ih4⟩
    refine ⟨?_, ?_, ?_, ?_⟩
    · intro m2 hm2
      rcases List.mem_cons.mp hm2 with rfl | hm2b
      · refine ⟨hident.1, hident.2, ?_, ?_⟩
        · rcases hcn with hn | ⟨cn, cls, hcne, hne, _, _⟩
          · simp [hn]
          · rw [hcne]; intro hx; cases hx; exact hne rfl
        · intro cn hcne _
          rcases hcn with hn | ⟨cn2, cls, hcne2, _, hlk, hni⟩
          · rw [hn] at hcne; cases hcne
          · rw [hcne2] at hcne; cases hcne; exact ⟨cls, hlk, hni⟩
      · exact ih1 m2 hm2b
    · refine List.nodup_cons.mpr ⟨?_, ih2⟩
      intro hmem
      rcases List.mem_map.mp hmem with ⟨m2, hm2, hfe⟩
      exact (ih3 m2 hm2) (by rw [hfe]; exact List.mem_cons_self _ _)
    · intro m2 hm2
      rcases List.mem_cons.mp hm2 with rfl | hm2b
      · exact hused
      · intro hmu
        exact (ih3 m2 hm2b) (List.mem_cons_of_mem _ hmu)
    · intro x
      rw [ih4 x]
      simp only [List.map_cons, List.mem_cons]
      tauto

/-- Facts established by a successful validation of all path segments. -/
lemma validatePath_ok (cm : ConvMap) :
    ∀ (segs : List (List Char)) (used used2 : List (List Char)),
      validatePath cm segs used = .ok used2 →
      (∀ seg ∈ segs, ∀ m ∈ fieldMatches seg, FieldOk cm m) ∧
      (segs.flatMap fun seg => (fieldMatches seg).map FieldMatch.fname).Nodup ∧
      (∀ x ∈ segs.flatMap fun seg => (fieldMatches seg).map FieldMatch.fname,
        x ∉ used) := by
  intro segs
  induction segs with
  | nil => intro used used2 _; simp
  | cons seg segs ih =>
    intro used used2 h
    simp only [validatePath] at h
    cases hv : validateFields cm (fieldMatches seg) used with
    | error e => rw [hv] at h; cases h
    | ok used1 =>
      rw [hv] at h
      rcases validateFields_ok cm _ _ _ hv with ⟨h1, h2, h3, h4⟩
      rcases ih used1 used2 h with ⟨ih1, ih2, ih3⟩
      refine ⟨?_, ?_, ?_⟩
      · intro s hs
        rcases List.mem_cons.mp hs with rfl | hs2
        · exact h1
        · exact ih1 s hs2
      · simp only [List.flatMap_cons]
        rw [List.nodup_append]
        refine ⟨h2, ih2, ?_⟩
        intro x hx hx2
        exact ih3 x hx2 ((h4 x).mpr (Or.inr hx))
      · intro x hx
        simp only [List.flatMap_cons, List.mem_append] at hx
        rcases hx with hx | hx
        · rcases List.mem_map.mp hx with ⟨m2, hm2, hfe⟩
          exact hfe ▸ h3 m2 hm2
        · intro hxu
          exact ih3 x hx ((h4 x).mpr (Or.inl hxu))

/-- Successful `add_route` implies the whitespace check and the whole
validation pass succeeded. -/
lemma addRoute_ok_facts (r : Router) (tmpl : List Char) (res mm : Nat) :
    (addRoute r tmpl res mm).2 = false →
    (fieldSub (fun _ => "{FIELD}".data) tmpl).any pySpace = false ∧
    ∃ u, validatePath r.converterMap (splitSlash (tmpl.dropWhile (· = '/'))) [] =
      .ok u := by
  intro h
  unfold addRoute at h
  split at h
  · cases h
  · rename_i hsp
    refine ⟨by simpa using hsp, ?_⟩
    cases hval : validatePath r.converterMap (splitSlash (tmpl.dropWhile (· = '/'))) []
      with
    | error e => simp only [hval] at h; cases h
    | ok u => exact ⟨u, rfl⟩

/-- C8 (counterexample): the claim says a field name that is not a valid
identifier always raises.  The identifier grammar of the spec is
`[A-Za-z_][A-Za-z0-9_]*` (`isIdentCore`); but the code checks it with
`re.match(..., name)` against a `$`-terminated pattern, and `$` also matches
just before a single trailing newline — so the field name `ab\n`, which is not
a valid identifier, is accepted and `add_route` succeeds. -/
theorem claim_C8_counterexample :
    (addRoute (mkRouter exampleCM) "/\x7bab\n\x7d".data 1 1).2 = false ∧
    isIdentCore "ab\n".data = false := by
  decide

/-- C8 (amended): `add_route` raises `UnacceptableRoute` whenever the template
contains whitespace (after substituting `{FIELD}` for each field expression),
a field name failing the code's identifier check (which also accepts a valid
identifier followed by one trailing newline) or equal to a reserved keyword, a
duplicated field name, a `:` with an empty converter name, an unknown
converter name, or a converter whose constructor fails on its `argstr`. -/
theorem claim_C8_amended :
    ∀ (r : Router) (tmpl : List Char) (res mm : Nat),
      ((fieldSub (fun _ => "{FIELD}".data) tmpl).any pySpace = true ∨
       (∃ seg ∈ splitSlash (tmpl.dropWhile (· = '/')), ∃ m ∈ fieldMatches seg,
          identPatternOk m.fname = false ∨ m.fname ∈ pyKeywords) ∨
       ¬((splitSlash (tmpl.dropWhile (· = '/'))).flatMap fun seg =>
          (fieldMatches seg).map FieldMatch.fname).Nodup ∨
       (∃ seg ∈ splitSlash (tmpl.dropWhile (· = '/')), ∃ m ∈ fieldMatches seg,
          m.cname = some []) ∨
       (∃ seg ∈ splitSlash (tmpl.dropWhile (· = '/')), ∃ m ∈ fieldMatches seg,
          ∃ cn, m.cname = some cn ∧ cn ≠ [] ∧ lookupA r.converterMap cn = none) ∨
       (∃ seg ∈ splitSlash (tmpl.dropWhile (· = '/')), ∃ m ∈ fieldMatches seg,
          ∃ cn cls, m.cname = some cn ∧ cn ≠ [] ∧
            lookupA r.converterMap cn = some cls ∧
            cls.instantiate m.argstr = none)) →
      (addRoute r tmpl res mm).2 = true := by
  intro r tmpl res mm h
  cases he : (addRoute r tmpl res mm).2
  · exfalso
    obtain ⟨hsp, u, hval⟩ := addRoute_ok_facts r tmpl res mm he
    obtain ⟨hfo, hnd, _⟩ := validatePath_ok r.converterMap _ _ _ hval
    rcases h with h | h | h | h | h | h
    · rw [hsp] at h; cases h
    · obtain ⟨seg, hseg, m, hm, hbad⟩ := h
      obtain ⟨hid, hkw, _, _⟩ := hfo seg hseg m hm
      rcases hbad with hbad | hbad
      · rw [hid] at hbad; cases hbad
      · exact hkw hbad
    · exact h hnd
    · obtain ⟨seg, hseg, m, hm, hbad⟩ := h
      obtain ⟨_, _, hc, _⟩ := hfo seg hseg m hm
      exact hc hbad
    · obtain ⟨seg, hseg, m, hm, cn, hcn, hne, hlk⟩ := h
      obtain ⟨_, _, _, hconv⟩ := hfo seg hseg m hm
      obtain ⟨cls, hlk2, _⟩ := hconv cn hcn hne
      rw [hlk] at hlk2; cases hlk2
    · obtain ⟨seg, hseg, m, hm, cn, cls, hcn, hne, hlk, hin⟩ := h
      obtain ⟨_, _, _, hconv⟩ := hfo seg hseg m hm
      obtain ⟨cls2, hlk2, hin2⟩ := hconv cn hcn hne
      rw [hlk] at hlk2
      cases hlk2
      exact hin2 hin
  · rfl

/-- C8 witness: an unknown converter name (`/{x:nope}` over the example
registry) makes `add_route` fail. -/
theorem claim_C8_witness :
    (addRoute (mkRouter exampleCM) "/{x:nope}".data 1 1).2 = true :=
  claim_C8_amended (mkRouter exampleCM) "/{x:nope}".data 1 1
    (Or.inr (Or.inr (Or.inr (Or.inr (Or.inl
      ⟨"{x:nope}".data, by decide,
       ⟨"x".data, some "nope".data, none⟩, by decide,
       "nope".data, rfl, by decide, rfl⟩)))))

/-! ### Scanner lemmas -/

lemma spanP_append (p : Char → Bool) : ∀ s, (spanP p s).1 ++ (spanP p s).2 = s := by
  intro s
  induction s with
  | nil => rfl
  | cons c cs ih =>
    by_cases h : p c
    · simp [spanP, h, ih]
    · simp [spanP, h]

lemma spanP_eq_append (p : Char → Bool) :
    ∀ (a b : List Char), (∀ c ∈ a, p c = true) →
      (match b with
       | [] => True
       | b0 :: _ => p b0 = false) →
      spanP p (a ++ b) = (a, b) := by
  intro a
  induction a with
  | nil =>
    intro b _ hb
    cases b with
    | nil => rfl
    | cons b0 bs => simp [spanP, hb]
  | cons c cs ih =>
    intro b ha hb
    have hc : p c = true := ha c (by simp)
    have ihb := ih b (fun x hx => ha x (by simp [hx])) hb
    simp [spanP, hc, ihb]

/-- A successful `scanField` consumes at least the closing brace. -/
lemma scanField_length {s r : List Char} {fm : FieldMatch}
    (h : scanField s = some (fm, r)) : r.length < s.length := by
  have e1 := spanP_append (fun c => c ≠ '}' && c ≠ ':') s
  unfold scanField at h
  simp only [] at h
  split at h
  · cases h
  · rename_i c1 r1 h1
    rw [h1] at e1
    by_cases hc1 : c1 = '}'
    · rw [if_pos hc1] at h
      cases h
      have := congrArg List.length e1
      simp at this
      omega
    · rw [if_neg hc1] at h
      have e2 := spanP_append (fun c => c ≠ '}' && c ≠ '(') r1
      split at h
      · cases h
      · rename_i c2 r2 h2
        rw [h2] at e2
        by_cases hc2 : c2 = '}'
        · rw [if_pos hc2] at h
          cases h
          have l1 := congrArg List.length e1
          have l2 := congrArg List.length e2
          simp at l1 l2
          omega
        · rw [if_neg hc2] at h
          by_cases hc2b : c2 = '('
          · rw [if_pos hc2b] at h
            have e3 := spanP_append (fun c => c ≠ '}') r2
            split at h
            · cases h
            · rename_i c3 r3 h3
              rw [h3] at e3
              split at h
              · rename_i cl h4
                split at h
                · cases h
                  have l1 := congrArg List.length e1
                  have l2 := congrArg List.length e2
                  have l3 := congrArg List.length e3
                  simp at l1 l2 l3
                  omega
                · cases h
              · cases h
          · rw [if_neg hc2b] at h
            cases h

/-- Scanner fuel irrelevance: any fuel at least the string length computes the
canonical decomposition. -/
lemma fieldSplitAux_fuel :
    ∀ (f : Nat) (s : List Char), s.length ≤ f →
      fieldSplitAux f s = fieldSplitAux s.length s := by
  intro f
  induction f using Nat.strong_induction_on with
  | _ f ih =>
    intro s hs
    match f, s with
    | 0, s =>
      have : s = [] := List.length_eq_zero.mp (Nat.le_zero.mp hs)
      subst this
      rfl
    | f + 1, [] => rfl
    | f + 1, c :: rest =>
      simp only [List.length_cons] at hs
      by_cases hc : c = '{'
      · subst hc
        cases hsc : scanField rest with
        | none =>
          simp only [fieldSplitAux, hsc, if_pos rfl, List.length_cons]
          rw [ih f (by omega) rest (by omega),
            ih rest.length (by omega) rest (by omega)]
        | some pr =>
          rcases pr with ⟨fm, r2⟩
          have hlen : r2.length < rest.length := scanField_length hsc
          simp only [fieldSplitAux, hsc, if_pos rfl, List.length_cons]
          rw [ih f (by omega) r2 (by omega),
            ih rest.length (by omega) r2 (by omega)]
          simp
      · simp only [fieldSplitAux, hc, if_neg, List.length_cons]
        rw [ih f (by omega) rest (by omega),
          ih rest.length (by omega) rest (by omega)]
        simp

lemma fieldSplit_cons_nonbrace {c : Char} (s : List Char) (hc : c ≠ '{') :
    fieldSplit (c :: s) = consGap c (fieldSplit s) := by
  simp [fieldSplit, fieldSplitAux, hc]

lemma fieldSplit_cons_match {s r2 : List Char} {fm : FieldMatch}
    (h : scanField s = some (fm, r2)) :
    fieldSplit ('{' :: s) = (([], fm) :: (fieldSplit r2).1, (fieldSplit r2).2) := by
  have hlen : r2.length < s.length := scanField_length h
  simp only [fieldSplit, List.length_cons, fieldSplitAux, h, if_pos rfl]
  rw [fieldSplitAux_fuel s.length r2 (by omega)]
  rcases fieldSplitAux r2.length r2 with ⟨ps, t⟩
  rfl

lemma fieldSplit_cons_nomatch {s : List Char} (h : scanField s = none) :
    fieldSplit ('{' :: s) = consGap '{' (fieldSplit s) := by
  simp [fieldSplit, fieldSplitAux, h]

/-- Prepend a whole literal gap in front of a decomposition. -/
def consGapAll (g : List Char) (pr : List (List Char × FieldMatch) × List Char) :
    List (List Char × FieldMatch) × List Char :=
  g.foldr consGap pr

lemma fieldSplit_gap_append :
    ∀ (g rest : List Char), (∀ c ∈ g, c ≠ '{') →
      fieldSplit (g ++ rest) = consGapAll g (fieldSplit rest) := by
  intro g
  induction g with
  | nil => intro rest _; simp [consGapAll]
  | cons c cs ih =>
    intro rest hg
    have hc : c ≠ '{' := hg c (by simp)
    rw [List.cons_append, fieldSplit_cons_nonbrace _ hc,
      ih rest (fun x hx => hg x (by simp [hx]))]
    rfl

lemma consGapAll_nil_gap : ∀ (s t : List Char), consGapAll s ([], t) = ([], s ++ t) := by
  intro s
  induction s with
  | nil => intro t; rfl
  | cons c cs ih => intro t; simp [consGapAll, List.foldr] at ih ⊢; rw [ih t]; rfl

lemma fieldSplit_all_gap :
    ∀ (s : List Char), (∀ c ∈ s, c ≠ '{') → fieldSplit s = ([], s) := by
  intro s hs
  have h := fieldSplit_gap_append s [] (by simpa using hs)
  rw [List.append_nil] at h
  rw [h, show fieldSplit [] = ([], []) from rfl]
  simpa using consGapAll_nil_gap s []

/-! ### C7: complex-segment pattern construction -/

lemma escapeSeg_append (a b : List Char) :
    escapeSeg (a ++ b) = escapeSeg a ++ escapeSeg b := by
  simp [escapeSeg]

lemma mem_escapeSeg {c : Char} {a : List Char} (h : c ∈ escapeSeg a) :
    c = '\\' ∨ c ∈ a := by
  simp only [escapeSeg, List.mem_flatMap] at h
  rcases h with ⟨d, hd, hc⟩
  split at hc
  · simp only [List.mem_cons, List.not_mem_nil, or_false] at hc
    rcases hc with rfl | rfl
    · exact Or.inl rfl
    · exact Or.inr hd
  · simp only [List.mem_cons, List.not_mem_nil, or_false] at hc
    subst hc
    exact Or.inr hd

lemma identCont_ne {c : Char} (h : isIdentCont c = true) :
    c ≠ '}' ∧ c ≠ ':' ∧ c ≠ '(' ∧ c ≠ ')' ∧ c ≠ '{' ∧ c ≠ '\\' := by
  refine ⟨?_, ?_, ?_, ?_, ?_, ?_⟩ <;> rintro rfl <;> exact absurd h (by decide)

lemma identCont_not_meta {c : Char} (h : isIdentCont c = true) : c ∉ escapedMeta := by
  intro hm
  simp only [escapedMeta, List.mem_cons, List.not_mem_nil, or_false] at hm
  rcases hm with rfl | rfl | rfl | rfl | rfl | rfl | rfl | rfl | rfl | rfl | rfl <;>
    exact absurd h (by decide)

lemma isIdentCore_all_cont {n : List Char} (h : isIdentCore n = true) :
    ∀ c ∈ n, isIdentCont c = true := by
  cases n with
  | nil => cases h
  | cons c cs =>
    simp only [isIdentCore, Bool.and_eq_true] at h
    intro d hd
    rcases List.mem_cons.mp hd with rfl | hd2
    · simp [isIdentCont, h.1]
    · exact List.all_eq_true.mp h.2 d hd2

lemma escapeSeg_of_cont {n : List Char} (h : ∀ c ∈ n, isIdentCont c = true) :
    escapeSeg n = n := by
  induction n with
  | nil => rfl
  | cons c cs ih =>
    have hc : c ∉ escapedMeta := identCont_not_meta (h c (by simp))
    simp only [escapeSeg, List.flatMap_cons, if_neg hc]
    have := ih fun d hd => h d (by simp [hd])
    simp only [escapeSeg] at this
    simp [this]

/-- Literal-span well-formedness for the amended C7 statement: no braces. -/
def GapOk (g : List Char) : Prop := ∀ c ∈ g, c ≠ '{' ∧ c ≠ '}'

/-- Field-expression well-formedness for the amended C7 statement: identifier
name, identifier converter name when present (an `argstr` only occurs together
with a converter), and no `}` inside the `argstr`. -/
def FieldRenderOk (m : FieldMatch) : Prop :=
  isIdentCore m.fname = true ∧
  (match m.cname with
   | none => m.argstr = none
   | some cn => isIdentCore cn = true) ∧
  (match m.argstr with
   | none => True
   | some a => ∀ c ∈ a, c ≠ '}')

/-- Render one field expression back to template text. -/
def renderField (m : FieldMatch) : List Char :=
  '{' :: (m.fname ++
    (match m.cname with
     | none => []
     | some cn => ':' :: (cn ++
        (match m.argstr with
         | none => []
         | some a => '(' :: (a ++ [')'])))) ++ ['}'])

/-- Render a whole decomposition (alternating gaps and fields plus the
trailing gap) back to segment text. -/
def renderSeg (ps : List (List Char × FieldMatch)) (t : List Char) : List Char :=
  ps.flatMap (fun gm => gm.1 ++ renderField gm.2) ++ t

/-- Escaping a rendered field keeps the brace structure and the field name,
and the scanner recognizes the escaped field exactly. -/
lemma scanField_escaped (m : FieldMatch) (hm : FieldRenderOk m) :
    ∃ I : List Char, escapeSeg (renderField m) = '{' :: I ∧
      ∀ rest, ∃ fm2 : FieldMatch, fm2.fname = m.fname ∧
        scanField (I ++ rest) = some (fm2, rest) := by
  obtain ⟨hfn, hcn, har⟩ := hm
  have hfne : escapeSeg m.fname = m.fname :=
    escapeSeg_of_cont (isIdentCore_all_cont hfn)
  have hfnp1 : ∀ c ∈ m.fname, (decide (c ≠ '}') && decide (c ≠ ':')) = true := by
    intro c hc
    obtain ⟨h1, h2, _⟩ := identCont_ne (isIdentCore_all_cont hfn c hc)
    simp [h1, h2]
  cases hcne : m.cname with
  | none =>
    have harn : m.argstr = none := by rw [hcne] at hcn; exact hcn
    refine ⟨m.fname ++ ['}'], ?_, ?_⟩
    · have h1 : renderField m = ['{'] ++ (m.fname ++ ['}']) := by
        simp [renderField, hcne, harn]
      rw [h1]
      simp only [escapeSeg_append]
      rw [hfne,
        show escapeSeg ['{'] = ['{'] from by decide,
        show escapeSeg ['}'] = ['}'] from by decide]
      rfl
    · intro rest
      refine ⟨⟨m.fname, none, none⟩, rfl, ?_⟩
      have hs : spanP (fun c => decide (c ≠ '}') && decide (c ≠ ':'))
          (m.fname ++ '}' :: rest) = (m.fname, '}' :: rest) :=
        spanP_eq_append _ m.fname ('}' :: rest) hfnp1 (by simp)
      unfold scanField
      rw [show (m.fname ++ ['}']) ++ rest = m.fname ++ '}' :: rest by simp, hs]
      dsimp only
      rw [if_pos rfl]
  | some cn =>
    have hcnc : isIdentCore cn = true := by rw [hcne] at hcn; exact hcn
    have hcne2 : escapeSeg cn = cn := escapeSeg_of_cont (isIdentCore_all_cont hcnc)
    have hcnp2 : ∀ c ∈ cn, (decide (c ≠ '}') && decide (c ≠ '(')) = true := by
      intro c hc
      obtain ⟨h1, _, h3, _⟩ := identCont_ne (isIdentCore_all_cont hcnc c hc)
      simp [h1, h3]
    cases hare : m.argstr with
    | none =>
      refine ⟨m.fname ++ ':' :: cn ++ ['}'], ?_, ?_⟩
      · have h1 : renderField m = ['{'] ++ (m.fname ++ ([':'] ++ (cn ++ ['}']))) := by
          simp [renderField, hcne, hare]
        rw [h1]
        simp only [escapeSeg_append]
        rw [hfne, hcne2,
          show escapeSeg ['{'] = ['{'] from by decide,
          show escapeSeg [':'] = [':'] from by decide,
          show escapeSeg ['}'] = ['}'] from by decide]
        simp
      · intro rest
        refine ⟨⟨m.fname, some cn, none⟩, rfl, ?_⟩
        have hs1 : spanP (fun c => decide (c ≠ '}') && decide (c ≠ ':'))
            (m.fname ++ ':' :: (cn ++ '}' :: rest)) =
            (m.fname, ':' :: (cn ++ '}' :: rest)) :=
          spanP_eq_append _ m.fname _ hfnp1 (by simp)
        have hs2 : spanP (fun c => decide (c ≠ '}') && decide (c ≠ '('))
            (cn ++ '}' :: rest) = (cn, '}' :: rest) :=
          spanP_eq_append _ cn ('}' :: rest) hcnp2 (by simp)
        unfold scanField
        rw [show (m.fname ++ ':' :: cn ++ ['}']) ++ rest =
          m.fname ++ ':' :: (cn ++ '}' :: rest) by simp, hs1]
        dsimp only
        rw [if_neg (by decide : ¬(':' : Char) = '}'), hs2]
        dsimp only
        rw [if_pos rfl]
    | some a =>
      have hane : ∀ c ∈ a, c ≠ '}' := by rw [hare] at har; exact har
      have hrunp : ∀ c ∈ escapeSeg a ++ ['\\', ')'],
          decide (c ≠ '}') = true := by
        intro c hc
        rcases List.mem_append.mp hc with hc | hc
        · rcases mem_escapeSeg hc with rfl | hc2
          · simp
          · simpa using hane c hc2
        · simp only [List.mem_cons, List.not_mem_nil, or_false] at hc
          rcases hc with rfl | rfl <;> simp
      refine ⟨m.fname ++ ':' :: cn ++ '\\' :: '(' :: escapeSeg a ++
        '\\' :: ')' :: ['}'], ?_, ?_⟩
      · have h1 : renderField m = ['{'] ++ (m.fname ++ ([':'] ++ (cn ++
            (['('] ++ (a ++ ([')'] ++ ['}'])))))) := by
          simp [renderField, hcne, hare]
        rw [h1]
        simp only [escapeSeg_append]
        rw [hfne, hcne2,
          show escapeSeg ['{'] = ['{'] from by decide,
          show escapeSeg [':'] = [':'] from by decide,
          show escapeSeg ['('] = ['\\', '('] from by decide,
          show escapeSeg [')'] = ['\\', ')'] from by decide,
          show escapeSeg ['}'] = ['}'] from by decide]
        simp
      · intro rest
        refine ⟨⟨m.fname, some (cn ++ ['\\']),
          some (escapeSeg a ++ ['\\'])⟩, rfl, ?_⟩
        have hs1 : spanP (fun c => decide (c ≠ '}') && decide (c ≠ ':'))
            (m.fname ++ ':' :: ((cn ++ ['\\']) ++
              '(' :: ((escapeSeg a ++ ['\\', ')']) ++ '}' :: rest))) =
            (m.fname, ':' :: ((cn ++ ['\\']) ++
              '(' :: ((escapeSeg a ++ ['\\', ')']) ++ '}' :: rest))) :=
          spanP_eq_append _ m.fname _ hfnp1 (by simp)
        have hs2 : spanP (fun c => decide (c ≠ '}') && decide (c ≠ '('))
            ((cn ++ ['\\']) ++ '(' :: ((escapeSeg a ++ ['\\', ')']) ++
              '}' :: rest)) = (cn ++ ['\\'],
              '(' :: ((escapeSeg a ++ ['\\', ')']) ++ '}' :: rest)) := by
          refine spanP_eq_append _ _ _ ?_ (by simp)
          intro c hc
          rcases List.mem_append.mp hc with hc | hc
          · exact hcnp2 c hc
          · simp only [List.mem_cons, List.not_mem_nil, or_false] at hc
            subst hc
            simp
        have hs3 : spanP (fun c => decide (c ≠ '}'))
            ((escapeSeg a ++ ['\\', ')']) ++ '}' :: rest) =
            (escapeSeg a ++ ['\\', ')'], '}' :: rest) :=
          spanP_eq_append _ _ ('}' :: rest) hrunp (by simp)
        have hgl : (escapeSeg a ++ ['\\', ')']).getLast? = some ')' := by
          rw [show escapeSeg a ++ ['\\', ')'] = (escapeSeg a ++ ['\\']) ++ [')']
            by simp]
          simp
        have hdl : (escapeSeg a ++ ['\\', ')']).dropLast = escapeSeg a ++ ['\\'] := by
          rw [show escapeSeg a ++ ['\\', ')'] = (escapeSeg a ++ ['\\']) ++ [')']
            by simp]
          simp
        unfold scanField
        rw [show (m.fname ++ ':' :: cn ++ '\\' :: '(' :: escapeSeg a ++
            '\\' :: ')' :: ['}']) ++ rest =
          m.fname ++ ':' :: ((cn ++ ['\\']) ++
            '(' :: ((escapeSeg a ++ ['\\', ')']) ++ '}' :: rest)) by simp, hs1]
        dsimp only
        rw [if_neg (by decide : ¬(':' : Char) = '}'), hs2]
        dsimp only
        rw [if_neg (by decide : ¬('(' : Char) = '}'),
          if_pos (rfl : ('(' : Char) = '('), hs3]
        dsimp only
        rw [hgl]
        dsimp only
        rw [if_pos rfl, hdl]

lemma consGapAll_cons (g g2 t : List Char) (m : FieldMatch)
    (ps : List (List Char × FieldMatch)) :
    consGapAll g ((g2, m) :: ps, t) = ((g ++ g2, m) :: ps, t) := by
  induction g with
  | nil => rfl
  | cons c cs ih => simp [consGapAll, List.foldr] at ih ⊢; rw [ih]; rfl

lemma escapeSeg_gapOk {g : List Char} (hg : GapOk g) :
    ∀ c ∈ escapeSeg g, c ≠ '{' := by
  intro c hc
  rcases mem_escapeSeg hc with rfl | hc2
  · simp
  · exact (hg c hc2).1

/-- Scanning the escaped rendering of a well-formed decomposition: the
escaped gaps stay gaps, each field is recognized with its field name, and the
trailing gap survives. -/
lemma fieldSplit_escaped_render :
    ∀ (ps : List (List Char × FieldMatch)) (t : List Char),
      (∀ gm ∈ ps, GapOk gm.1 ∧ FieldRenderOk gm.2) → GapOk t →
      ∃ ps2 : List (List Char × FieldMatch),
        fieldSplit (escapeSeg (renderSeg ps t)) = (ps2, escapeSeg t) ∧
        List.Forall₂ (fun gm gm2 : List Char × FieldMatch =>
          gm2.1 = escapeSeg gm.1 ∧ gm2.2.fname = gm.2.fname) ps ps2 := by
  intro ps
  induction ps with
  | nil =>
    intro t _ ht
    refine ⟨[], ?_, List.Forall₂.nil⟩
    have : renderSeg [] t = t := by simp [renderSeg]
    rw [this]
    exact fieldSplit_all_gap _ (escapeSeg_gapOk ht)
  | cons gm ps ih =>
    intro t hps ht
    obtain ⟨hg, hm⟩ := hps gm (by simp)
    obtain ⟨I, hI, hscan⟩ := scanField_escaped gm.2 hm
    obtain ⟨ps2, hps2, hrel⟩ := ih t (fun x hx => hps x (by simp [hx])) ht
    have hrend : renderSeg (gm :: ps) t =
        gm.1 ++ (renderField gm.2 ++ renderSeg ps t) := by
      simp [renderSeg]
    obtain ⟨fm2, hfm2, hsf⟩ := hscan (escapeSeg (renderSeg ps t))
    refine ⟨(escapeSeg gm.1, fm2) :: ps2, ?_, ?_⟩
    · rw [hrend, escapeSeg_append, escapeSeg_append, hI]
      rw [show escapeSeg gm.1 ++ ('{' :: I ++ escapeSeg (renderSeg ps t)) =
        escapeSeg gm.1 ++ ('{' :: (I ++ escapeSeg (renderSeg ps t))) by simp]
      rw [fieldSplit_gap_append _ _ (escapeSeg_gapOk hg),
        fieldSplit_cons_match hsf, hps2]
      simpa using consGapAll_cons (escapeSeg gm.1) [] (escapeSeg t) fm2 ps2
    · exact List.Forall₂.cons ⟨rfl, hfm2⟩ hrel

lemma groupRepl_fname {m1 m2 : FieldMatch} (h : m1.fname = m2.fname) :
    groupRepl m1 = groupRepl m2 := by
  unfold groupRepl
  rw [h]

/-- The full Python regex metacharacter set (what "all regex metacharacters"
denotes in the claim). -/
def pyRegexMeta : List Char :=
  ['.', '(', ')', '[', ']', '?', '$', '*', '+', '^', '|', '{', '}', '\\']

/-- Modelled from the claim's words: escape every regex metacharacter. -/
def escapeAll (s : List Char) : List Char :=
  s.flatMap fun c => if c ∈ pyRegexMeta then ['\\', c] else [c]

/-- Modelled from the claim's words: the pattern a complex segment with the
given literal spans and fields would have if every metacharacter outside the
field expressions were escaped. -/
def claimC7Pattern (ps : List (List Char × FieldMatch)) (t : List Char) :
    List Char :=
  '^' :: (ps.flatMap fun gm => escapeAll gm.1 ++ groupRepl gm.2) ++
    escapeAll t ++ ['$']

/-- C7 (counterexample): for the complex segment `a\d{x}` the compiled
pattern is `^a\d(?P<x>.+)$` — the backslash, a regex metacharacter outside
the field expression, is left unescaped (CPython then reads `\d` as a digit
class), whereas the claim's all-metacharacters escape would produce
`^a\\d(?P<x>.+)$`. -/
theorem claim_C7_counterexample :
    patternText (renderSeg [("a\\d".data, ⟨"x".data, none, none⟩)] []) =
      "^a\\d(?P<x>.+)$".data ∧
    claimC7Pattern [("a\\d".data, ⟨"x".data, none, none⟩)] [] =
      "^a\\\\d(?P<x>.+)$".data ∧
    patternText (renderSeg [("a\\d".data, ⟨"x".data, none, none⟩)] []) ≠
      claimC7Pattern [("a\\d".data, ⟨"x".data, none, none⟩)] [] := by
  decide

/-- C7 (amended): for every complex segment assembled from brace-free literal
spans and well-formed field expressions, the compiled pattern anchors both
ends (`'^'` first, `'$'` last), replaces each field expression with a named
capture group `(?P<fname>.+)` over `.+`, and escapes in the literal spans
exactly the characters `. ( ) [ ] ? $ * + ^ |` — the backslash and the brace
characters are not escaped. -/
theorem claim_C7_amended :
    ∀ (ps : List (List Char × FieldMatch)) (t : List Char),
      (∀ gm ∈ ps, GapOk gm.1 ∧ FieldRenderOk gm.2) → GapOk t →
      patternText (renderSeg ps t) =
        '^' :: (ps.flatMap fun gm => escapeSeg gm.1 ++ groupRepl gm.2) ++
          escapeSeg t ++ ['$'] := by
  intro ps t hps ht
  obtain ⟨ps2, hsplit, hrel⟩ := fieldSplit_escaped_render ps t hps ht
  unfold patternText fieldSub
  rw [hsplit]
  have key : ps2.flatMap (fun gm => gm.1 ++ groupRepl gm.2) =
      ps.flatMap fun gm => escapeSeg gm.1 ++ groupRepl gm.2 := by
    clear hsplit hps ht
    induction hrel with
    | nil => rfl
    | cons h _ ih =>
      simp only [List.flatMap_cons, ih]
      rw [h.1, groupRepl_fname h.2.symm]
  simp [key]

/-- C7 witness: the segment `{name}.{ext}` compiles to
`^(?P<name>.+)\.(?P<ext>.+)$`. -/
theorem claim_C7_witness :
    patternText (renderSeg [([], ⟨"name".data, none, none⟩),
      (['.'], ⟨"ext".data, none, none⟩)] []) =
      "^(?P<name>.+)\\.(?P<ext>.+)$".data := by
  rw [claim_C7_amended [([], ⟨"name".data, none, none⟩),
      (['.'], ⟨"ext".data, none, none⟩)] [] ?_ ?_]
  · decide
  · intro gm hgm
    simp only [List.mem_cons, List.not_mem_nil, or_false] at hgm
    rcases hgm with rfl | rfl <;>
      exact ⟨by intro c hc; simp at hc <;> simp [hc], by
        refine ⟨by decide, ?_, ?_⟩ <;> trivial⟩
  · intro c hc
    simp at hc

/-! ### Node helper lemmas and the routing-tree invariant -/

@[simp] lemma withChildren_raw (n : RNode) (ch : List RNode) :
    (n.withChildren ch).raw_segment = n.raw_segment := by cases n; rfl

@[simp] lemma withChildren_children (n : RNode) (ch : List RNode) :
    (n.withChildren ch).children = ch := by cases n; rfl

@[simp] lemma withChildren_is_var (n : RNode) (ch : List RNode) :
    (n.withChildren ch).is_var = n.is_var := by cases n; rfl

@[simp] lemma withChildren_is_complex (n : RNode) (ch : List RNode) :
    (n.withChildren ch).is_complex = n.is_complex := by cases n; rfl

@[simp] lemma withChildren_num_fields (n : RNode) (ch : List RNode) :
    (n.withChildren ch).num_fields = n.num_fields := by cases n; rfl

@[simp] lemma withChildren_var_name (n : RNode) (ch : List RNode) :
    (n.withChildren ch).var_name = n.var_name := by cases n; rfl

@[simp] lemma withChildren_var_pattern (n : RNode) (ch : List RNode) :
    (n.withChildren ch).var_pattern = n.var_pattern := by cases n; rfl

@[simp] lemma withChildren_vcm (n : RNode) (ch : List RNode) :
    (n.withChildren ch).var_converter_map = n.var_converter_map := by cases n; rfl

@[simp] lemma withChildren_resource (n : RNode) (ch : List RNode) :
    (n.withChildren ch).resource = n.resource := by cases n; rfl

@[simp] lemma withChildren_method_map (n : RNode) (ch : List RNode) :
    (n.withChildren ch).method_map = n.method_map := by cases n; rfl

@[simp] lemma withChildren_uri_template (n : RNode) (ch : List RNode) :
    (n.withChildren ch).uri_template = n.uri_template := by cases n; rfl

@[simp] lemma bindTerminal_raw (n : RNode) (mm res : Nat) (t : List Char) :
    (n.bindTerminal mm res t).raw_segment = n.raw_segment := by cases n; rfl

@[simp] lemma bindTerminal_children (n : RNode) (mm res : Nat) (t : List Char) :
    (n.bindTerminal mm res t).children = n.children := by cases n; rfl

@[simp] lemma bindTerminal_is_var (n : RNode) (mm res : Nat) (t : List Char) :
    (n.bindTerminal mm res t).is_var = n.is_var := by cases n; rfl

@[simp] lemma bindTerminal_is_complex (n : RNode) (mm res : Nat) (t : List Char) :
    (n.bindTerminal mm res t).is_complex = n.is_complex := by cases n; rfl

@[simp] lemma bindTerminal_num_fields (n : RNode) (mm res : Nat) (t : List Char) :
    (n.bindTerminal mm res t).num_fields = n.num_fields := by cases n; rfl

@[simp] lemma bindTerminal_var_name (n : RNode) (mm res : Nat) (t : List Char) :
    (n.bindTerminal mm res t).var_name = n.var_name := by cases n; rfl

@[simp] lemma bindTerminal_var_pattern (n : RNode) (mm res : Nat) (t : List Char) :
    (n.bindTerminal mm res t).var_pattern = n.var_pattern := by cases n; rfl

@[simp] lemma bindTerminal_vcm (n : RNode) (mm res : Nat) (t : List Char) :
    (n.bindTerminal mm res t).var_converter_map = n.var_converter_map := by
  cases n; rfl

@[simp] lemma bindTerminal_resource (n : RNode) (mm res : Nat) (t : List Char) :
    (n.bindTerminal mm res t).resource = some res := by cases n; rfl

@[simp] lemma bindTerminal_method_map (n : RNode) (mm res : Nat) (t : List Char) :
    (n.bindTerminal mm res t).method_map = some mm := by cases n; rfl

@[simp] lemma bindTerminal_uri_template (n : RNode) (mm res : Nat) (t : List Char) :
    (n.bindTerminal mm res t).uri_template = some t := by cases n; rfl

@[simp] lemma mkRNode_raw (raw : List Char) : (mkRNode raw).raw_segment = raw := by
  unfold mkRNode
  dsimp only
  split
  · rfl
  · split <;> rfl

@[simp] lemma mkRNode_children (raw : List Char) : (mkRNode raw).children = [] := by
  unfold mkRNode
  dsimp only
  split
  · rfl
  · split <;> rfl

@[simp] lemma mkRNode_resource (raw : List Char) : (mkRNode raw).resource = none := by
  unfold mkRNode
  dsimp only
  split
  · rfl
  · split <;> rfl

/-- Structural fields of a node agree with a freshly parsed node for the same
raw segment (true of every node the insertion algorithm creates). -/
def canonEq (n : RNode) : Prop :=
  n.is_var = (mkRNode n.raw_segment).is_var ∧
  n.is_complex = (mkRNode n.raw_segment).is_complex ∧
  n.num_fields = (mkRNode n.raw_segment).num_fields ∧
  n.var_name = (mkRNode n.raw_segment).var_name ∧
  n.var_pattern = (mkRNode n.raw_segment).var_pattern ∧
  n.var_converter_map = (mkRNode n.raw_segment).var_converter_map

lemma canonEq_mkRNode (raw : List Char) : canonEq (mkRNode raw) := by
  unfold canonEq
  simp

lemma canonEq_withChildren {n : RNode} (h : canonEq n) (ch : List RNode) :
    canonEq (n.withChildren ch) := by
  unfold canonEq at h ⊢
  simpa using h

lemma canonEq_bindTerminal {n : RNode} (h : canonEq n) (mm res : Nat)
    (t : List Char) : canonEq (n.bindTerminal mm res t) := by
  unfold canonEq at h ⊢
  simpa using h

/-- The routing-tree well-formedness invariant maintained by `add_route`:
structural fields agree with the parsed segment, a node whose segment uses a
multi-segment converter has no children, and sibling raw segments are
pairwise distinct. -/
inductive TreeWF (cm : ConvMap) : RNode → Prop where
  | intro (n : RNode)
      (hc : canonEq n)
      (hm : (findCmpConverter cm n).isSome = true → n.children = [])
      (hd : (n.children.map RNode.raw_segment).Nodup)
      (hch : ∀ c ∈ n.children, TreeWF cm c) : TreeWF cm n

lemma TreeWF.canon {cm : ConvMap} {n : RNode} (h : TreeWF cm n) : canonEq n := by
  cases h; assumption

lemma TreeWF.multiLeaf {cm : ConvMap} {n : RNode} (h : TreeWF cm n) :
    (findCmpConverter cm n).isSome = true → n.children = [] := by
  cases h; assumption

lemma TreeWF.childNodup {cm : ConvMap} {n : RNode} (h : TreeWF cm n) :
    (n.children.map RNode.raw_segment).Nodup := by
  cases h; assumption

lemma TreeWF.child {cm : ConvMap} {n : RNode} (h : TreeWF cm n) :
    ∀ c ∈ n.children, TreeWF cm c := by
  cases h; assumption

/-- Forest-level invariant: distinct sibling raws and per-tree invariants. -/
def ForestWF (cm : ConvMap) (nodes : List RNode) : Prop :=
  (nodes.map RNode.raw_segment).Nodup ∧ ∀ n ∈ nodes, TreeWF cm n

/-- Membership anywhere in a forest. -/
inductive InForest (x : RNode) : List RNode → Prop where
  | here {l : List RNode} (h : x ∈ l) : InForest x l
  | deeper {l : List RNode} (n : RNode) (hn : n ∈ l)
      (hx : InForest x n.children) : InForest x l

/-- `findCmpConverter` only depends on the converter map of the node. -/
lemma findCmpConverter_canon {cm : ConvMap} {n : RNode} (h : canonEq n) :
    findCmpConverter cm n = findCmpConverter cm (mkRNode n.raw_segment) := by
  unfold findCmpConverter
  rw [h.2.2.2.2.2]

/-- Characterization of `firstHit` results. -/
lemma firstHit_some_spec (seg : List Char) :
    ∀ (nodes : List RNode) (i : Nat) (b : Bool),
      firstHit nodes seg = some (i, b) →
      i < nodes.length ∧
      (∀ j, j < i → (nodes.getD j default).matchesSeg seg = false ∧
        (nodes.getD j default).conflictsWith seg = false) ∧
      (if b then (nodes.getD i default).matchesSeg seg = true
       else (nodes.getD i default).matchesSeg seg = false ∧
         (nodes.getD i default).conflictsWith seg = true) := by
  intro nodes
  induction nodes with
  | nil => intro i b h; cases h
  | cons n tl ih =>
    intro i b h
    unfold firstHit at h
    by_cases hm : n.matchesSeg seg = true
    · rw [if_pos hm] at h
      cases h
      refine ⟨by simp, by intro j hj; omega, by simp [hm]⟩
    · rw [if_neg hm] at h
      by_cases hc : n.conflictsWith seg = true
      · rw [if_pos hc] at h
        cases h
        refine ⟨by simp, by intro j hj; omega, ?_⟩
        rw [if_neg (by simp)]
        exact ⟨by simpa using hm, hc⟩
      · rw [if_neg hc] at h
        cases hf : firstHit tl seg with
        | none => rw [hf] at h; cases h
        | some p =>
          rw [hf] at h
          rcases p with ⟨i2, b2⟩
          cases h
          obtain ⟨ih1, ih2, ih3⟩ := ih i2 b2 hf
          refine ⟨by simp; omega, ?_, ?_⟩
          · intro j hj
            cases j with
            | zero =>
              exact ⟨by simpa using hm, by simpa using hc⟩
            | succ j2 =>
              have := ih2 j2 (by omega)
              simpa using this
          · simpa using ih3

lemma firstHit_none_spec (seg : List Char) :
    ∀ (nodes : List RNode), firstHit nodes seg = none →
      ∀ n ∈ nodes, n.matchesSeg seg = false ∧ n.conflictsWith seg = false := by
  intro nodes
  induction nodes with
  | nil => intro _ n hn; cases hn
  | cons n tl ih =>
    intro h x hx
    unfold firstHit at h
    by_cases hm : n.matchesSeg seg = true
    · rw [if_pos hm] at h; cases h
    · rw [if_neg hm] at h
      by_cases hc : n.conflictsWith seg = true
      · rw [if_pos hc] at h; cases h
      · rw [if_neg hc] at h
        cases hf : firstHit tl seg with
        | none =>
          rcases List.mem_cons.mp hx with rfl | hx2
          · exact ⟨by simpa using hm, by simpa using hc⟩
          · exact ih hf x hx2
        | some p => rw [hf] at h; cases h

lemma findCmp_withChildren (cm : ConvMap) (n : RNode) (ch : List RNode) :
    findCmpConverter cm (n.withChildren ch) = findCmpConverter cm n := by
  unfold findCmpConverter
  rw [withChildren_vcm]

lemma findCmp_bindTerminal (cm : ConvMap) (n : RNode) (mm res : Nat)
    (t : List Char) :
    findCmpConverter cm (n.bindTerminal mm res t) = findCmpConverter cm n := by
  unfold findCmpConverter
  rw [bindTerminal_vcm]

lemma getD_mem {nodes : List RNode} {i : Nat} (h : i < nodes.length) :
    nodes.getD i default ∈ nodes := by
  rw [List.getD_eq_getElem?_getD, List.getElem?_eq_getElem h]
  exact List.getElem_mem h

lemma map_raw_set (nodes : List RNode) (i : Nat) (y : RNode)
    (hi : i < nodes.length)
    (hr : y.raw_segment = (nodes.getD i default).raw_segment) :
    (nodes.set i y).map RNode.raw_segment = nodes.map RNode.raw_segment := by
  apply List.ext_getElem
  · simp
  · intro j h1 h2
    simp only [List.getElem_map, List.getElem_set]
    split
    · rename_i hji
      subst hji
      rw [hr, List.getD_eq_getElem?_getD, List.getElem?_eq_getElem hi]
      rfl
    · rfl

lemma TreeWF_bindTerminal {cm : ConvMap} {n : RNode} (h : TreeWF cm n)
    (mm res : Nat) (t : List Char) : TreeWF cm (n.bindTerminal mm res t) := by
  cases h with
  | intro _ hc hm hd hch =>
    refine TreeWF.intro _ (canonEq_bindTerminal hc mm res t) ?_ ?_ ?_
    · rw [findCmp_bindTerminal, bindTerminal_children]; exact hm
    · rw [bindTerminal_children]; exact hd
    · rw [bindTerminal_children]; exact hch

/-- The insertion loop preserves the routing-tree invariant — also on the
error paths, where partially created branches remain in the returned list. -/
lemma insertR_wf (cm : ConvMap) (mm res : Nat) (tmpl : List Char) :
    ∀ (rest : List (List Char)) (seg : List Char) (nodes : List RNode),
      ForestWF cm nodes → ForestWF cm (insertR cm mm res tmpl seg rest nodes).1 := by
  intro rest
  induction rest with
  | nil =>
    intro seg nodes hwf
    unfold insertR
    cases hfh : firstHit nodes seg with
    | none =>
      dsimp only
      split
      · exact hwf
      · refine ⟨?_, ?_⟩
        · rw [List.map_append]
          rw [List.nodup_append]
          refine ⟨hwf.1, by simp, ?_⟩
          intro x hx hx2
          simp only [List.map_cons, List.map_nil, List.mem_cons,
            List.not_mem_nil, or_false, bindTerminal_raw, mkRNode_raw] at hx2
          rcases List.mem_map.mp hx with ⟨n, hn, hraw⟩
          have hne : seg ≠ n.raw_segment := by
            simpa [RNode.matchesSeg] using (firstHit_none_spec seg nodes hfh n hn).1
          exact hne (by rw [← hx2]; exact hraw.symm)
        · intro n hn
          rcases List.mem_append.mp hn with hn | hn
          · exact hwf.2 n hn
          · simp only [List.mem_cons, List.not_mem_nil, or_false] at hn
            subst hn
            refine TreeWF_bindTerminal ?_ mm res tmpl
            refine TreeWF.intro _ (canonEq_mkRNode seg) ?_ ?_ ?_ <;>
              simp [mkRNode_children]
    | some p =>
      rcases p with ⟨i, b⟩
      cases b with
      | true =>
        dsimp only
        obtain ⟨hi, _, hmt⟩ := firstHit_some_spec seg nodes i true hfh
        refine ⟨?_, ?_⟩
        · rw [map_raw_set nodes i ((nodes.getD i default).bindTerminal mm res
            tmpl) hi (by simp)]
          exact hwf.1
        · intro n hn
          rcases List.mem_or_eq_of_mem_set hn with hn2 | rfl
          · exact hwf.2 n hn2
          · exact TreeWF_bindTerminal (hwf.2 _ (getD_mem hi)) mm res tmpl
      | false => exact hwf
  | cons seg2 rest2 ih =>
    intro seg nodes hwf
    unfold insertR
    cases hfh : firstHit nodes seg with
    | none =>
      dsimp only
      split
      · exact hwf
      · split
        · exact hwf
        · rcases hins : insertR cm mm res tmpl seg2 rest2 [] with ⟨ch, e⟩
          dsimp only
          have hchwf : ForestWF cm ch := by
            have := ih seg2 [] ⟨by simp, by simp⟩
            rw [hins] at this
            exact this
          rename_i hcpc1 hcpc2
          refine ⟨?_, ?_⟩
          · rw [List.map_append, List.nodup_append]
            refine ⟨hwf.1, by simp, ?_⟩
            intro x hx hx2
            simp only [List.map_cons, List.map_nil, List.mem_cons,
              List.not_mem_nil, or_false, withChildren_raw, mkRNode_raw] at hx2
            rcases List.mem_map.mp hx with ⟨n, hn, hraw⟩
            have hne : seg ≠ n.raw_segment := by
              simpa [RNode.matchesSeg] using (firstHit_none_spec seg nodes hfh n hn).1
            exact hne (by rw [← hx2]; exact hraw.symm)
          · intro n hn
            rcases List.mem_append.mp hn with hn | hn
            · exact hwf.2 n hn
            · simp only [List.mem_cons, List.not_mem_nil, or_false] at hn
              subst hn
              refine TreeWF.intro _
                (canonEq_withChildren (canonEq_mkRNode seg) ch) ?_ ?_ ?_
              · rw [findCmp_withChildren]
                intro hsome
                simp only [Bool.not_eq_true] at hcpc2
                rw [hcpc2] at hsome
                cases hsome
              · rw [withChildren_children]; exact hchwf.1
              · rw [withChildren_children]; exact hchwf.2
    | some p =>
      rcases p with ⟨i, b⟩
      cases b with
      | true =>
        dsimp only
        obtain ⟨hi, _, hmt⟩ := firstHit_some_spec seg nodes i true hfh
        have hwfi : TreeWF cm (nodes.getD i default) := hwf.2 _ (getD_mem hi)
        split
        · exact hwf
        · rename_i hcpc
          rcases hins : insertR cm mm res tmpl seg2 rest2
              (nodes.getD i default).children with ⟨ch, e⟩
          dsimp only
          have hchwf : ForestWF cm ch := by
            have := ih seg2 (nodes.getD i default).children
              ⟨hwfi.childNodup, hwfi.child⟩
            rw [hins] at this
            exact this
          refine ⟨?_, ?_⟩
          · rw [map_raw_set nodes i ((nodes.getD i default).withChildren ch) hi
              (by simp)]
            exact hwf.1
          · intro n hn
            rcases List.mem_or_eq_of_mem_set hn with hn2 | rfl
            · exact hwf.2 n hn2
            · refine TreeWF.intro _ (canonEq_withChildren hwfi.canon ch) ?_ ?_ ?_
              · rw [findCmp_withChildren]
                intro hsome
                simp only [Bool.not_eq_true] at hcpc
                rw [hcpc] at hsome
                cases hsome
              · rw [withChildren_children]; exact hchwf.1
              · rw [withChildren_children]; exact hchwf.2
      | false => exact hwf

/-- Router states reachable by successful `add_route` calls over a fixed
converter registry. -/
inductive Reachable (cm : ConvMap) : List RNode → Prop where
  | nil : Reachable cm []
  | step {roots : List RNode} (tmpl : List Char) (res mm : Nat) :
      Reachable cm roots →
      (addRoute ⟨roots, cm⟩ tmpl res mm).2 = false →
      Reachable cm (addRoute ⟨roots, cm⟩ tmpl res mm).1.roots

/-- The tree after any `add_route` call is either unchanged or the result of
running the insertion loop. -/
lemma addRoute_roots_cases (roots : List RNode) (cm : ConvMap)
    (tmpl : List Char) (res mm : Nat) :
    (addRoute ⟨roots, cm⟩ tmpl res mm).1.roots = roots ∨
    ∃ seg rest, splitSlash (tmpl.dropWhile (· = '/')) = seg :: rest ∧
      (addRoute ⟨roots, cm⟩ tmpl res mm).1.roots =
        (insertR cm mm res tmpl seg rest roots).1 := by
  unfold addRoute
  split
  · exact Or.inl rfl
  · cases hval : validatePath cm (splitSlash (tmpl.dropWhile (· = '/'))) [] with
    | error e =>
      refine Or.inl ?_
      simp only [hval]
    | ok u =>
      cases hpath : splitSlash (tmpl.dropWhile (· = '/')) with
      | nil =>
        refine Or.inl ?_
        rw [hpath] at hval
        simp only [hpath, hval]
      | cons seg rest =>
        refine Or.inr ⟨seg, rest, rfl, ?_⟩
        rw [hpath] at hval
        rcases hins : insertR cm mm res tmpl seg rest roots with ⟨roots2, e⟩
        simp only [hpath, hval, hins]

/-- Every reachable tree satisfies the routing-tree invariant. -/
lemma reachable_wf {cm : ConvMap} {roots : List RNode}
    (h : Reachable cm roots) : ForestWF cm roots := by
  induction h with
  | nil => exact ⟨by simp, by simp⟩
  | @step roots0 tmpl res mm _ _ ih =>
    rcases addRoute_roots_cases roots0 cm tmpl res mm with he | ⟨seg, rest, _, he⟩
    · rw [he]; exact ih
    · rw [he]; exact insertR_wf cm mm res tmpl rest seg roots0 ih

lemma InForest_TreeWF {cm : ConvMap} {x : RNode} :
    ∀ {l : List RNode}, InForest x l → (∀ n ∈ l, TreeWF cm n) → TreeWF cm x := by
  intro l h
  induction h with
  | here h2 => intro hl; exact hl _ h2
  | deeper n hn _ ih => intro hl; exact ih (TreeWF.child (hl n hn))

/-- The insertion loop fails whenever a non-final template segment uses a
multi-segment converter (over a well-formed tree). -/
lemma insertR_multiseg_err (cm : ConvMap) (mm res : Nat) (tmpl : List Char) :
    ∀ (rest : List (List Char)) (seg : List Char) (nodes : List RNode) (i : Nat),
      ForestWF cm nodes →
      i + 1 < (seg :: rest).length →
      (findCmpConverter cm
        (mkRNode ((seg :: rest).getD i []))).isSome = true →
      (insertR cm mm res tmpl seg rest nodes).2 = true := by
  intro rest
  induction rest with
  | nil =>
    intro seg nodes i _ hi _
    simp at hi
  | cons seg2 rest2 ih =>
    intro seg nodes i hwf hi hcmp
    unfold insertR
    cases hfh : firstHit nodes seg with
    | none =>
      dsimp only
      split
      · rfl
      · split
        · rfl
        · rename_i hcpc1 hcpc2
          cases i with
          | zero =>
            simp only [List.getD_cons_zero] at hcmp
            simp at hcpc2
            rw [hcpc2] at hcmp
            cases hcmp
          | succ i2 =>
            rcases hins : insertR cm mm res tmpl seg2 rest2 [] with ⟨ch, e⟩
            dsimp only
            have := ih seg2 [] i2 ⟨by simp, by simp⟩
              (by simpa using hi) (by simpa using hcmp)
            rw [hins] at this
            exact this
    | some p =>
      rcases p with ⟨j, b⟩
      cases b with
      | true =>
        dsimp only
        obtain ⟨hj, _, hmt⟩ := firstHit_some_spec seg nodes j true hfh
        have hwfj : TreeWF cm (nodes.getD j default) := hwf.2 _ (getD_mem hj)
        cases i with
        | zero =>
          simp only [List.getD_cons_zero] at hcmp
          have hraw : (nodes.getD j default).raw_segment = seg := by
            unfold RNode.matchesSeg at hmt
            have h2 : seg = (nodes.getD j default).raw_segment := by simpa using hmt
            exact h2.symm
          have : findCmpConverter cm (nodes.getD j default) =
              findCmpConverter cm (mkRNode seg) := by
            rw [findCmpConverter_canon hwfj.canon, hraw]
          rw [if_pos (by rw [this]; exact hcmp)]
        | succ i2 =>
          split
          · rfl
          · rcases hins : insertR cm mm res tmpl seg2 rest2
                (nodes.getD j default).children with ⟨ch, e⟩
            dsimp only
            have := ih seg2 (nodes.getD j default).children i2
              ⟨hwfj.childNodup, hwfj.child⟩ (by simpa using hi)
              (by simpa using hcmp)
            rw [hins] at this
            exact this
      | false => rfl

/-- C6: over any reachable router, (a) registering a template that places a
multi-segment-converter segment at a non-final position fails with
`UnacceptableRoute`, and (b) every node whose segment uses a multi-segment
converter has no children (so no template can have extended the tree below
such a node). -/
theorem claim_C6 :
    ∀ (cm : ConvMap) (roots : List RNode), Reachable cm roots →
      (∀ (tmpl : List Char) (res mm i : Nat),
        i + 1 < (splitSlash (tmpl.dropWhile (· = '/'))).length →
        (findCmpConverter cm (mkRNode
          ((splitSlash (tmpl.dropWhile (· = '/'))).getD i []))).isSome = true →
        (addRoute ⟨roots, cm⟩ tmpl res mm).2 = true) ∧
      (∀ n, InForest n roots →
        (findCmpConverter cm n).isSome = true → n.children = []) := by
  intro cm roots hre
  have hwf := reachable_wf hre
  constructor
  · intro tmpl res mm i hi hcmp
    cases he : (addRoute ⟨roots, cm⟩ tmpl res mm).2
    · exfalso
      have hok := addRoute_ok_facts ⟨roots, cm⟩ tmpl res mm he
      dsimp only at hok
      unfold addRoute at he
      dsimp only at he
      rw [if_neg (by simp [hok.1])] at he
      obtain ⟨u, hval⟩ := hok.2
      rw [hval] at he
      simp only [] at he
      cases hpath : splitSlash (tmpl.dropWhile (· = '/')) with
      | nil => rw [hpath] at hi; simp at hi
      | cons seg rest =>
        rw [hpath] at he
        dsimp only at he
        rcases hins : insertR cm mm res tmpl seg rest roots with ⟨roots2, e⟩
        rw [hins] at he
        have herr := insertR_multiseg_err cm mm res tmpl rest seg roots i hwf
          (by rw [hpath] at hi; exact hi) (by rw [hpath] at hcmp; exact hcmp)
        rw [hins] at herr
        dsimp only at he herr
        rw [herr] at he
        cases he
    · rfl
  · intro n hin hcmp
    exact (InForest_TreeWF hin hwf.2).multiLeaf hcmp

/-- C6 witness: over the empty reachable router and the example registry,
`/a/{p:path}/b` places the multi-segment `path` converter at position 1 of 3
and registration fails. -/
theorem claim_C6_witness :
    (addRoute ⟨[], exampleCM⟩ "/a/{p:path}/b".data 1 1).2 = true :=
  (claim_C6 exampleCM [] Reachable.nil).1 "/a/{p:path}/b".data 1 1 1
    (by decide) (by decide)

/-! ## C9: re-registering the same template

`Skel` is the shape of a routing tree — raw segments and child structure
only; "no node is added or removed" is equality of shapes. -/

inductive Skel where
  | mk (raw : List Char) (children : List Skel)
  deriving Repr

mutual

/-- Erase a routing tree to its shape. -/
def RNode.skel : RNode → Skel
  | .mk raw _ _ _ _ _ _ _ _ _ ch => .mk raw (skelForest ch)

def skelForest : List RNode → List Skel
  | [] => []
  | n :: tl => RNode.skel n :: skelForest tl

end

lemma skel_eq (n : RNode) : n.skel = .mk n.raw_segment (skelForest n.children) := by
  cases n; rfl

lemma skel_withChildren (n : RNode) (ch : List RNode) :
    (n.withChildren ch).skel = .mk n.raw_segment (skelForest ch) := by
  cases n; rfl

lemma skel_bindTerminal (n : RNode) (mm res : Nat) (t : List Char) :
    (n.bindTerminal mm res t).skel = n.skel := by
  cases n; rfl

lemma skelForest_cons (n : RNode) (tl : List RNode) :
    skelForest (n :: tl) = n.skel :: skelForest tl := rfl

lemma getD_cons_zero (a : RNode) (tl : List RNode) : (a :: tl).getD 0 default = a := rfl

lemma getD_cons_succ (a : RNode) (tl : List RNode) (j : Nat) :
    (a :: tl).getD (j + 1) default = tl.getD j default := rfl

lemma getD_set_self : ∀ (l : List RNode) (i : Nat) (y : RNode), i < l.length →
    (l.set i y).getD i default = y := by
  intro l
  induction l with
  | nil => intro i y hi; simp at hi
  | cons a tl ih =>
    intro i y hi
    cases i with
    | zero => rfl
    | succ j => exact ih j y (by simpa using hi)

lemma getD_set_ne : ∀ (l : List RNode) (i j : Nat) (y : RNode), j ≠ i →
    (l.set i y).getD j default = l.getD j default := by
  intro l
  induction l with
  | nil => intro i j y _; simp [List.getD]
  | cons a tl ih =>
    intro i j y hne
    cases i with
    | zero =>
      cases j with
      | zero => exact absurd rfl hne
      | succ j2 => rfl
    | succ i2 =>
      cases j with
      | zero => rfl
      | succ j2 => exact ih i2 j2 y (by omega)

lemma getD_append_lt : ∀ (l : List RNode) (y : RNode) (j : Nat), j < l.length →
    (l ++ [y]).getD j default = l.getD j default := by
  intro l
  induction l with
  | nil => intro y j hj; simp at hj
  | cons a tl ih =>
    intro y j hj
    cases j with
    | zero => rfl
    | succ j2 => exact ih y j2 (by simpa using hj)

lemma getD_append_len : ∀ (l : List RNode) (y : RNode),
    (l ++ [y]).getD l.length default = y := by
  intro l
  induction l with
  | nil => intro y; rfl
  | cons a tl ih => intro y; exact ih y

lemma skelForest_set (y : RNode) :
    ∀ (l : List RNode) (i : Nat), i < l.length →
      y.skel = (l.getD i default).skel →
      skelForest (l.set i y) = skelForest l := by
  intro l
  induction l with
  | nil => intro i hi; simp at hi
  | cons a tl ih =>
    intro i hi hy
    cases i with
    | zero =>
      rw [getD_cons_zero] at hy
      simp only [List.set, skelForest_cons, hy]
    | succ j =>
      rw [getD_cons_succ] at hy
      simp only [List.set, skelForest_cons]
      rw [ih j (by simpa using hi) hy]

mutual

/-- No node of the tree carries a binding for template `t`. -/
def TmplFreeN (t : List Char) : RNode → Prop
  | .mk _ _ _ tm _ _ _ _ _ _ ch => ¬ tm = some t ∧ TmplFreeF t ch

def TmplFreeF (t : List Char) : List RNode → Prop
  | [] => True
  | n :: tl => TmplFreeN t n ∧ TmplFreeF t tl

end

lemma tmplFreeN_eq (t : List Char) (n : RNode) :
    TmplFreeN t n = (¬ n.uri_template = some t ∧ TmplFreeF t n.children) := by
  cases n; rfl

lemma tmplFreeF_nil (t : List Char) : TmplFreeF t [] := trivial

lemma tmplFreeF_cons (t : List Char) (n : RNode) (tl : List RNode) :
    TmplFreeF t (n :: tl) = (TmplFreeN t n ∧ TmplFreeF t tl) := rfl

lemma tmplFreeF_mem {t : List Char} :
    ∀ {l : List RNode}, TmplFreeF t l → ∀ n ∈ l, TmplFreeN t n := by
  intro l
  induction l with
  | nil => intro _ n hn; cases hn
  | cons a tl ih =>
    intro h n hn
    rw [tmplFreeF_cons] at h
    rcases List.mem_cons.mp hn with rfl | hn2
    · exact h.1
    · exact ih h.2 n hn2

lemma tmplFreeF_of_mem {t : List Char} :
    ∀ {l : List RNode}, (∀ n ∈ l, TmplFreeN t n) → TmplFreeF t l := by
  intro l
  induction l with
  | nil => intro _; exact tmplFreeF_nil t
  | cons a tl ih =>
    intro h
    rw [tmplFreeF_cons]
    exact ⟨h a (by simp), ih fun n hn => h n (by simp [hn])⟩

lemma tmplFreeF_append {t : List Char} {a b : List RNode}
    (ha : TmplFreeF t a) (hb : TmplFreeF t b) : TmplFreeF t (a ++ b) := by
  refine tmplFreeF_of_mem fun n hn => ?_
  rcases List.mem_append.mp hn with h | h
  · exact tmplFreeF_mem ha n h
  · exact tmplFreeF_mem hb n h

lemma tmplFreeF_set {t : List Char} {l : List RNode} (i : Nat) {y : RNode}
    (hl : TmplFreeF t l) (hy : TmplFreeN t y) : TmplFreeF t (l.set i y) := by
  refine tmplFreeF_of_mem fun n hn => ?_
  rcases List.mem_or_eq_of_mem_set hn with h | rfl
  · exact tmplFreeF_mem hl n h
  · exact hy

lemma tmplFreeN_withChildren {t : List Char} {n : RNode} {ch : List RNode}
    (h1 : ¬ n.uri_template = some t) (h2 : TmplFreeF t ch) :
    TmplFreeN t (n.withChildren ch) := by
  rw [tmplFreeN_eq]
  exact ⟨by simpa using h1, by simpa using h2⟩

lemma tmplFreeN_bindTerminal {t : List Char} {n : RNode} (mm res : Nat)
    {t2 : List Char} (hne : t2 ≠ t) (h2 : TmplFreeF t n.children) :
    TmplFreeN t (n.bindTerminal mm res t2) := by
  rw [tmplFreeN_eq]
  refine ⟨?_, by simpa using h2⟩
  rw [bindTerminal_uri_template]
  intro hc
  exact hne (by injection hc)

@[simp] lemma mkRNode_uri_template (raw : List Char) :
    (mkRNode raw).uri_template = none := by
  unfold mkRNode
  dsimp only
  split
  · rfl
  · split <;> rfl

lemma tmplFreeN_mkRNode (t raw : List Char) : TmplFreeN t (mkRNode raw) := by
  rw [tmplFreeN_eq, mkRNode_uri_template, mkRNode_children]
  exact ⟨by simp, tmplFreeF_nil t⟩

/-- Relation between a sibling forest and the result of re-inserting an
already-registered path into it: identical except that the binding slots of
the terminal node of that path are overwritten; off-path subtrees and the
terminal's own subtree carry no other binding for the re-registered
template. -/
inductive RbF (mm2 res2 : Nat) (tmpl : List Char) : List RNode → List RNode → Prop where
  | bind (l : List RNode) (i : Nat) (hi : i < l.length)
      (h : (l.getD i default).uri_template = some tmpl)
      (h2 : (l.getD i default).resource.isSome = true)
      (hsib : ∀ j, j < l.length → j ≠ i → TmplFreeN tmpl (l.getD j default))
      (hch : TmplFreeF tmpl (l.getD i default).children) :
      RbF mm2 res2 tmpl l (l.set i ((l.getD i default).bindTerminal mm2 res2 tmpl))
  | deep (l : List RNode) (i : Nat) (ch2 : List RNode) (hi : i < l.length)
      (h : RbF mm2 res2 tmpl (l.getD i default).children ch2)
      (hsib : ∀ j, j < l.length → j ≠ i → TmplFreeN tmpl (l.getD j default))
      (hnode : ¬ (l.getD i default).uri_template = some tmpl) :
      RbF mm2 res2 tmpl l (l.set i ((l.getD i default).withChildren ch2))

/-- Inserting a route for a different template never creates a binding for
`tmpl` (also on error paths). -/
lemma insertR_free (cm : ConvMap) (mm res : Nat) {tmpl2 tmpl : List Char}
    (hne : tmpl2 ≠ tmpl) :
    ∀ (rest : List (List Char)) (seg : List Char) (nodes : List RNode),
      TmplFreeF tmpl nodes →
      TmplFreeF tmpl (insertR cm mm res tmpl2 seg rest nodes).1 := by
  intro rest
  induction rest with
  | nil =>
    intro seg nodes hfree
    unfold insertR
    cases hfh : firstHit nodes seg with
    | none =>
      dsimp only
      split
      · exact hfree
      · refine tmplFreeF_append hfree ?_
        rw [tmplFreeF_cons]
        refine ⟨tmplFreeN_bindTerminal mm res hne ?_, tmplFreeF_nil tmpl⟩
        rw [mkRNode_children]
        exact tmplFreeF_nil tmpl
    | some p =>
      rcases p with ⟨i, b⟩
      cases b with
      | true =>
        dsimp only
        obtain ⟨hi, _, _⟩ := firstHit_some_spec seg nodes i true hfh
        have hni := tmplFreeF_mem hfree _ (getD_mem hi)
        rw [tmplFreeN_eq] at hni
        exact tmplFreeF_set i hfree (tmplFreeN_bindTerminal mm res hne hni.2)
      | false => exact hfree
  | cons seg2 rest2 ih =>
    intro seg nodes hfree
    unfold insertR
    cases hfh : firstHit nodes seg with
    | none =>
      dsimp only
      split
      · exact hfree
      · split
        · exact hfree
        · rcases hins : insertR cm mm res tmpl2 seg2 rest2 [] with ⟨ch, e⟩
          dsimp only
          have hch : TmplFreeF tmpl ch := by
            have := ih seg2 [] (tmplFreeF_nil tmpl)
            rw [hins] at this
            exact this
          refine tmplFreeF_append hfree ?_
          rw [tmplFreeF_cons]
          refine ⟨tmplFreeN_withChildren ?_ hch, tmplFreeF_nil tmpl⟩
          rw [mkRNode_uri_template]
          simp
    | some p =>
      rcases p with ⟨i, b⟩
      cases b with
      | true =>
        dsimp only
        obtain ⟨hi, _, _⟩ := firstHit_some_spec seg nodes i true hfh
        have hni := tmplFreeF_mem hfree _ (getD_mem hi)
        rw [tmplFreeN_eq] at hni
        split
        · exact hfree
        · rcases hins : insertR cm mm res tmpl2 seg2 rest2
              (nodes.getD i default).children with ⟨ch, e⟩
          dsimp only
          have hch : TmplFreeF tmpl ch := by
            have := ih seg2 (nodes.getD i default).children hni.2
            rw [hins] at this
            exact this
          exact tmplFreeF_set i hfree (tmplFreeN_withChildren hni.1 hch)
      | false => exact hfree

/-- Locality invariant: the terminal of the (relative) path `p` is the only
node that may carry a binding with template `tmpl`; every subtree off that
path is entirely `tmpl`-free. -/
def OnlyAtF (tmpl : List Char) : List (List Char) → List RNode → Prop
  | [], nodes => TmplFreeF tmpl nodes
  | s :: p2, nodes =>
    ∀ n ∈ nodes,
      if n.raw_segment = s then
        match p2 with
        | [] => TmplFreeF tmpl n.children
        | s2 :: p3 => ¬ n.uri_template = some tmpl ∧ OnlyAtF tmpl (s2 :: p3) n.children
      else TmplFreeN tmpl n

/-- The per-node condition of `OnlyAtF` at a nonempty path `s :: p2`. -/
def OnlyAtN (tmpl s : List Char) (p2 : List (List Char)) (n : RNode) : Prop :=
  if n.raw_segment = s then
    match p2 with
    | [] => TmplFreeF tmpl n.children
    | s2 :: p3 => ¬ n.uri_template = some tmpl ∧ OnlyAtF tmpl (s2 :: p3) n.children
  else TmplFreeN tmpl n

lemma onlyAtF_cons_iff (tmpl s : List Char) (p2 : List (List Char))
    (nodes : List RNode) :
    OnlyAtF tmpl (s :: p2) nodes ↔ ∀ n ∈ nodes, OnlyAtN tmpl s p2 n := by
  cases p2 <;> exact Iff.rfl

lemma onlyAtN_match_nil {tmpl s : List Char} {n : RNode}
    (hr : n.raw_segment = s) :
    OnlyAtN tmpl s [] n ↔ TmplFreeF tmpl n.children := by
  unfold OnlyAtN
  rw [if_pos hr]

lemma onlyAtN_match_cons {tmpl s s2 : List Char} {p3 : List (List Char)}
    {n : RNode} (hr : n.raw_segment = s) :
    OnlyAtN tmpl s (s2 :: p3) n ↔
      (¬ n.uri_template = some tmpl ∧ OnlyAtF tmpl (s2 :: p3) n.children) := by
  unfold OnlyAtN
  rw [if_pos hr]

lemma onlyAtN_nomatch {tmpl s : List Char} {p2 : List (List Char)} {n : RNode}
    (hr : ¬ n.raw_segment = s) :
    OnlyAtN tmpl s p2 n ↔ TmplFreeN tmpl n := by
  unfold OnlyAtN
  rw [if_neg hr]

lemma onlyAtF_nil_forest (tmpl : List Char) :
    ∀ p : List (List Char), OnlyAtF tmpl p [] := by
  intro p
  cases p with
  | nil => exact tmplFreeF_nil tmpl
  | cons s p2 =>
    rw [onlyAtF_cons_iff]
    intro n hn
    cases hn

lemma onlyAtN_of_free {tmpl s : List Char} {p2 : List (List Char)} {n : RNode}
    (h : TmplFreeN tmpl n) : OnlyAtN tmpl s p2 n := by
  by_cases hr : n.raw_segment = s
  · rw [tmplFreeN_eq] at h
    cases p2 with
    | nil => exact (onlyAtN_match_nil hr).mpr h.2
    | cons s2 p3 =>
      refine (onlyAtN_match_cons hr).mpr ⟨h.1, ?_⟩
      rw [onlyAtF_cons_iff]
      intro c hc
      exact onlyAtN_of_free (tmplFreeF_mem h.2 c hc)
  · exact (onlyAtN_nomatch hr).mpr h
termination_by p2.length
decreasing_by simp

lemma onlyAtF_of_free {tmpl : List Char} :
    ∀ (p : List (List Char)) {nodes : List RNode},
      TmplFreeF tmpl nodes → OnlyAtF tmpl p nodes := by
  intro p
  cases p with
  | nil => intro nodes h; exact h
  | cons s p2 =>
    intro nodes h
    rw [onlyAtF_cons_iff]
    intro n hn
    exact onlyAtN_of_free (tmplFreeF_mem h n hn)

lemma onlyAtF_set_cons {tmpl s : List Char} {p2 : List (List Char)}
    {l : List RNode} (i : Nat) {y : RNode}
    (h : OnlyAtF tmpl (s :: p2) l) (hy : OnlyAtN tmpl s p2 y) :
    OnlyAtF tmpl (s :: p2) (l.set i y) := by
  rw [onlyAtF_cons_iff] at h ⊢
  intro n hn
  rcases List.mem_or_eq_of_mem_set hn with h2 | rfl
  · exact h n h2
  · exact hy

lemma onlyAtF_append_cons {tmpl s : List Char} {p2 : List (List Char)}
    {l : List RNode} {y : RNode}
    (h : OnlyAtF tmpl (s :: p2) l) (hy : OnlyAtN tmpl s p2 y) :
    OnlyAtF tmpl (s :: p2) (l ++ [y]) := by
  rw [onlyAtF_cons_iff] at h ⊢
  intro n hn
  rcases List.mem_append.mp hn with h2 | h2
  · exact h n h2
  · simp only [List.mem_cons, List.not_mem_nil, or_false] at h2
    subst h2
    exact hy

/-- Insertion preserves the locality invariant: if the only place a binding
for `tmpl` may live is the (relative) path `p`, that is still true after
inserting any template `tmpl2`, provided an insertion of `tmpl` itself would
follow exactly `p`. -/
lemma insertR_onlyat (cm : ConvMap) (mm res : Nat) (tmpl2 tmpl : List Char) :
    ∀ (rest : List (List Char)) (seg : List Char) (nodes : List RNode)
      (p : List (List Char)),
      OnlyAtF tmpl p nodes →
      (tmpl2 = tmpl → p = seg :: rest) →
      OnlyAtF tmpl p (insertR cm mm res tmpl2 seg rest nodes).1 := by
  intro rest
  induction rest with
  | nil =>
    intro seg nodes p hO hp
    cases p with
    | nil =>
      have hne : tmpl2 ≠ tmpl := fun h => by cases hp h
      exact insertR_free cm mm res hne [] seg nodes hO
    | cons s p2 =>
      unfold insertR
      cases hfh : firstHit nodes seg with
      | none =>
        dsimp only
        split
        · exact hO
        · refine onlyAtF_append_cons hO ?_
          by_cases hr : seg = s
          · cases p2 with
            | nil =>
              refine (onlyAtN_match_nil ?_).mpr ?_
              · rw [bindTerminal_raw, mkRNode_raw]; exact hr
              · rw [bindTerminal_children, mkRNode_children]
                exact tmplFreeF_nil tmpl
            | cons s2 p3 =>
              have hne : tmpl2 ≠ tmpl := by
                intro h
                have h2 := hp h
                simp at h2
              refine (onlyAtN_match_cons
                (by rw [bindTerminal_raw, mkRNode_raw]; exact hr)).mpr ⟨?_, ?_⟩
              · rw [bindTerminal_uri_template]
                intro hc
                exact hne (by injection hc)
              · rw [bindTerminal_children, mkRNode_children]
                exact onlyAtF_nil_forest tmpl _
          · have hne : tmpl2 ≠ tmpl := by
              intro h
              have h2 := hp h
              injection h2 with h3 _
              exact hr h3.symm
            refine (onlyAtN_nomatch
              (by rw [bindTerminal_raw, mkRNode_raw]; exact hr)).mpr ?_
            refine tmplFreeN_bindTerminal mm res hne ?_
            rw [mkRNode_children]
            exact tmplFreeF_nil tmpl
      | some pr =>
        rcases pr with ⟨i, b⟩
        cases b with
        | true =>
          dsimp only
          obtain ⟨hi, _, hmt⟩ := firstHit_some_spec seg nodes i true hfh
          rw [if_pos rfl] at hmt
          have hraw : seg = (nodes.getD i default).raw_segment := by
            unfold RNode.matchesSeg at hmt
            exact of_decide_eq_true hmt
          have hOnode := (onlyAtF_cons_iff tmpl s p2 nodes).mp hO _ (getD_mem hi)
          refine onlyAtF_set_cons i hO ?_
          by_cases hr : seg = s
          · have hrn0 : (nodes.getD i default).raw_segment = s := by
              rw [← hraw]; exact hr
            cases p2 with
            | nil =>
              refine (onlyAtN_match_nil (by rw [bindTerminal_raw]; exact hrn0)).mpr ?_
              rw [bindTerminal_children]
              exact (onlyAtN_match_nil hrn0).mp hOnode
            | cons s2 p3 =>
              have hne : tmpl2 ≠ tmpl := by
                intro h
                have h2 := hp h
                simp at h2
              have hOn2 := (onlyAtN_match_cons hrn0).mp hOnode
              refine (onlyAtN_match_cons
                (by rw [bindTerminal_raw]; exact hrn0)).mpr ⟨?_, ?_⟩
              · rw [bindTerminal_uri_template]
                intro hc
                exact hne (by injection hc)
              · rw [bindTerminal_children]
                exact hOn2.2
          · have hne : tmpl2 ≠ tmpl := by
              intro h
              have h2 := hp h
              injection h2 with h3 _
              exact hr h3.symm
            have hrn0 : ¬ (nodes.getD i default).raw_segment = s := by
              rw [← hraw]; exact hr
            have hfree := (onlyAtN_nomatch hrn0).mp hOnode
            rw [tmplFreeN_eq] at hfree
            refine (onlyAtN_nomatch (by rw [bindTerminal_raw]; exact hrn0)).mpr ?_
            exact tmplFreeN_bindTerminal mm res hne hfree.2
        | false => exact hO
  | cons seg2 rest2 ih =>
    intro seg nodes p hO hp
    cases p with
    | nil =>
      have hne : tmpl2 ≠ tmpl := fun h => by cases hp h
      exact insertR_free cm mm res hne (seg2 :: rest2) seg nodes hO
    | cons s p2 =>
      unfold insertR
      cases hfh : firstHit nodes seg with
      | none =>
        dsimp only
        split
        · exact hO
        · split
          · exact hO
          · rcases hins : insertR cm mm res tmpl2 seg2 rest2 [] with ⟨ch, e⟩
            dsimp only
            refine onlyAtF_append_cons hO ?_
            by_cases hr : seg = s
            · cases p2 with
              | nil =>
                have hne : tmpl2 ≠ tmpl := by
                  intro h
                  have h2 := hp h
                  simp at h2
                have hch : TmplFreeF tmpl ch := by
                  have h5 := insertR_free cm mm res hne rest2 seg2 []
                    (tmplFreeF_nil tmpl)
                  rw [hins] at h5
                  exact h5
                refine (onlyAtN_match_nil
                  (by rw [withChildren_raw, mkRNode_raw]; exact hr)).mpr ?_
                rw [withChildren_children]
                exact hch
              | cons s2 p3 =>
                have hside : tmpl2 = tmpl → s2 :: p3 = seg2 :: rest2 :=
                  fun h => congrArg List.tail (hp h)
                have hOch : OnlyAtF tmpl (s2 :: p3) ch := by
                  have h5 := ih seg2 [] (s2 :: p3) (onlyAtF_nil_forest tmpl _) hside
                  rw [hins] at h5
                  exact h5
                refine (onlyAtN_match_cons
                  (by rw [withChildren_raw, mkRNode_raw]; exact hr)).mpr ⟨?_, ?_⟩
                · rw [withChildren_uri_template, mkRNode_uri_template]
                  simp
                · rw [withChildren_children]
                  exact hOch
            · have hne : tmpl2 ≠ tmpl := by
                intro h
                have h2 := hp h
                injection h2 with h3 _
                exact hr h3.symm
              have hch : TmplFreeF tmpl ch := by
                have h5 := insertR_free cm mm res hne rest2 seg2 []
                  (tmplFreeF_nil tmpl)
                rw [hins] at h5
                exact h5
              refine (onlyAtN_nomatch
                (by rw [withChildren_raw, mkRNode_raw]; exact hr)).mpr ?_
              refine tmplFreeN_withChildren ?_ hch
              rw [mkRNode_uri_template]
              simp
      | some pr =>
        rcases pr with ⟨i, b⟩
        cases b with
        | true =>
          dsimp only
          obtain ⟨hi, _, hmt⟩ := firstHit_some_spec seg nodes i true hfh
          rw [if_pos rfl] at hmt
          have hraw : seg = (nodes.getD i default).raw_segment := by
            unfold RNode.matchesSeg at hmt
            exact of_decide_eq_true hmt
          have hOnode := (onlyAtF_cons_iff tmpl s p2 nodes).mp hO _ (getD_mem hi)
          split
          · exact hO
          · rcases hins : insertR cm mm res tmpl2 seg2 rest2
                (nodes.getD i default).children with ⟨ch, e⟩
            dsimp only
            refine onlyAtF_set_cons i hO ?_
            by_cases hr : seg = s
            · have hrn0 : (nodes.getD i default).raw_segment = s := by
                rw [← hraw]; exact hr
              cases p2 with
              | nil =>
                have hne : tmpl2 ≠ tmpl := by
                  intro h
                  have h2 := hp h
                  simp at h2
                have hchfree := (onlyAtN_match_nil hrn0).mp hOnode
                have hch : TmplFreeF tmpl ch := by
                  have h5 := insertR_free cm mm res hne rest2 seg2 _ hchfree
                  rw [hins] at h5
                  exact h5
                refine (onlyAtN_match_nil (by rw [withChildren_raw]; exact hrn0)).mpr ?_
                rw [withChildren_children]
                exact hch
              | cons s2 p3 =>
                have hside : tmpl2 = tmpl → s2 :: p3 = seg2 :: rest2 :=
                  fun h => congrArg List.tail (hp h)
                have hOn2 := (onlyAtN_match_cons hrn0).mp hOnode
                have hOch : OnlyAtF tmpl (s2 :: p3) ch := by
                  have h5 := ih seg2 _ (s2 :: p3) hOn2.2 hside
                  rw [hins] at h5
                  exact h5
                refine (onlyAtN_match_cons
                  (by rw [withChildren_raw]; exact hrn0)).mpr ⟨?_, ?_⟩
                · rw [withChildren_uri_template]
                  exact hOn2.1
                · rw [withChildren_children]
                  exact hOch
            · have hne : tmpl2 ≠ tmpl := by
                intro h
                have h2 := hp h
                injection h2 with h3 _
                exact hr h3.symm
              have hrn0 : ¬ (nodes.getD i default).raw_segment = s := by
                rw [← hraw]; exact hr
              have hfree := (onlyAtN_nomatch hrn0).mp hOnode
              rw [tmplFreeN_eq] at hfree
              have hch : TmplFreeF tmpl ch := by
                have h5 := insertR_free cm mm res hne rest2 seg2 _ hfree.2
                rw [hins] at h5
                exact h5
              refine (onlyAtN_nomatch (by rw [withChildren_raw]; exact hrn0)).mpr ?_
              exact tmplFreeN_withChildren hfree.1 hch
        | false => exact hO

/-- In every reachable tree, a binding for `tmpl` can only sit at the
terminal of `tmpl`'s own path. -/
lemma reachable_onlyat (tmpl : List Char) {cm : ConvMap} {roots : List RNode}
    (h : Reachable cm roots) :
    OnlyAtF tmpl (splitSlash (tmpl.dropWhile (· = '/'))) roots := by
  induction h with
  | nil => exact onlyAtF_nil_forest tmpl _
  | @step roots0 tmpl2 res mm _ _ ih =>
    rcases addRoute_roots_cases roots0 cm tmpl2 res mm with he | ⟨seg, rest, hpath, he⟩
    · rw [he]; exact ih
    · rw [he]
      refine insertR_onlyat cm mm res tmpl2 tmpl rest seg roots0 _ ih ?_
      intro h2
      rw [← h2]
      exact hpath

/-- A re-insertion does not change the shape of the forest. -/
lemma RbF_skel {mm2 res2 : Nat} {tmpl : List Char} :
    ∀ {l1 l2 : List RNode}, RbF mm2 res2 tmpl l1 l2 →
      skelForest l2 = skelForest l1 := by
  intro l1 l2 h
  induction h with
  | bind l i hi h h2 hsib hch =>
    exact skelForest_set _ l i hi (by rw [skel_bindTerminal])
  | deep l i ch2 hi h hsib hnode ih =>
    refine skelForest_set _ l i hi ?_
    rw [skel_withChildren, skel_eq (l.getD i default), ih]

lemma set_cons_zero (a y : RNode) (tl : List RNode) : (a :: tl).set 0 y = y :: tl := rfl

lemma set_cons_succ (a y : RNode) (tl : List RNode) (j : Nat) :
    (a :: tl).set (j + 1) y = a :: tl.set j y := rfl

/-- Distinct positions of a sibling list with `Nodup` raw segments hold nodes
with distinct raw segments. -/
lemma raw_getD_inj {nodes : List RNode}
    (hnd : (nodes.map RNode.raw_segment).Nodup) {i j : Nat}
    (hi : i < nodes.length) (hj : j < nodes.length)
    (hr : (nodes.getD i default).raw_segment = (nodes.getD j default).raw_segment) :
    i = j := by
  have e1 : nodes.getD i default = nodes[i] := by
    rw [List.getD_eq_getElem?_getD, List.getElem?_eq_getElem hi]; rfl
  have e2 : nodes.getD j default = nodes[j] := by
    rw [List.getD_eq_getElem?_getD, List.getElem?_eq_getElem hj]; rfl
  rw [e1, e2] at hr
  have hinj := List.nodup_iff_injective_get.mp hnd
  have hilen : i < (nodes.map RNode.raw_segment).length := by simpa using hi
  have hjlen : j < (nodes.map RNode.raw_segment).length := by simpa using hj
  have hg : (nodes.map RNode.raw_segment).get ⟨i, hilen⟩ =
      (nodes.map RNode.raw_segment).get ⟨j, hjlen⟩ := by
    simp only [List.get_eq_getElem, List.getElem_map]
    exact hr
  simpa using congrArg Fin.val (hinj hg)

/-- Overwriting the matched node with another node that still matches keeps
the hit position and kind. -/
lemma firstHit_set_match (seg : List Char) :
    ∀ (nodes : List RNode) (i : Nat) (y : RNode),
      firstHit nodes seg = some (i, true) → y.matchesSeg seg = true →
      firstHit (nodes.set i y) seg = some (i, true) := by
  intro nodes
  induction nodes with
  | nil => intro i y h _; cases h
  | cons n tl ih =>
    intro i y h hy
    cases i with
    | zero =>
      rw [set_cons_zero]
      unfold firstHit
      rw [if_pos hy]
    | succ j =>
      rw [set_cons_succ]
      unfold firstHit at h ⊢
      by_cases hm : n.matchesSeg seg = true
      · rw [if_pos hm] at h
        simp at h
      · rw [if_neg hm] at h ⊢
        by_cases hc : n.conflictsWith seg = true
        · rw [if_pos hc] at h
          simp at h
        · rw [if_neg hc] at h ⊢
          cases hf : firstHit tl seg with
          | none => rw [hf] at h; cases h
          | some pp =>
            rw [hf] at h
            rcases pp with ⟨i2, b2⟩
            have h2 : i2 = j ∧ b2 = true := by simpa using h
            rw [h2.1, h2.2] at hf
            rw [ih j y hf hy]
            rfl

/-- Appending a node that matches to a list with no hit produces a match hit
at the appended position. -/
lemma firstHit_append_match (seg : List Char) (y : RNode)
    (hy : y.matchesSeg seg = true) :
    ∀ (nodes : List RNode), firstHit nodes seg = none →
      firstHit (nodes ++ [y]) seg = some (nodes.length, true) := by
  intro nodes
  induction nodes with
  | nil =>
    intro _
    show firstHit [y] seg = some (0, true)
    unfold firstHit
    rw [if_pos hy]
  | cons n tl ih =>
    intro h
    rw [List.cons_append, List.length_cons]
    unfold firstHit at h ⊢
    by_cases hm : n.matchesSeg seg = true
    · rw [if_pos hm] at h; cases h
    · rw [if_neg hm] at h ⊢
      by_cases hc : n.conflictsWith seg = true
      · rw [if_pos hc] at h; cases h
      · rw [if_neg hc] at h ⊢
        cases hf : firstHit tl seg with
        | none => rw [ih hf]; rfl
        | some pp => rw [hf] at h; cases h

/-- Under the locality invariant, every sibling other than the one whose raw
segment is the current path segment is entirely `tmpl`-free. -/
lemma onlyAt_sib {cm : ConvMap} {tmpl seg : List Char} {p2 : List (List Char)}
    {l : List RNode} {i : Nat} (hwf : ForestWF cm l)
    (hO : OnlyAtF tmpl (seg :: p2) l) (hi : i < l.length)
    (hri : (l.getD i default).raw_segment = seg) :
    ∀ j, j < l.length → j ≠ i → TmplFreeN tmpl (l.getD j default) := by
  intro j hj hne
  have hON := (onlyAtF_cons_iff tmpl seg p2 l).mp hO _ (getD_mem hj)
  by_cases hr : (l.getD j default).raw_segment = seg
  · exact absurd (raw_getD_inj hwf.1 hj hi (hr.trans hri.symm)) hne
  · exact (onlyAtN_nomatch hr).mp hON

/-- Re-inserting the path of a template that the previous insertion has just
successfully registered: the insertion succeeds again and the only change is
the rebinding of the terminal node of that path. -/
lemma insertR_rebind (cm : ConvMap) (mm1 res1 mm2 res2 : Nat) (tmpl : List Char) :
    ∀ (rest : List (List Char)) (seg : List Char) (nodes nodes1 : List RNode),
      insertR cm mm1 res1 tmpl seg rest nodes = (nodes1, false) →
      ForestWF cm nodes1 →
      OnlyAtF tmpl (seg :: rest) nodes1 →
      (insertR cm mm2 res2 tmpl seg rest nodes1).2 = false ∧
      RbF mm2 res2 tmpl nodes1 (insertR cm mm2 res2 tmpl seg rest nodes1).1 := by
  intro rest
  induction rest with
  | nil =>
    intro seg nodes nodes1 h1 hwf hO
    unfold insertR at h1
    cases hfh : firstHit nodes seg with
    | none =>
      rw [hfh] at h1
      dsimp only at h1
      split at h1
      · simp at h1
      · have hn1 : nodes1 = nodes ++ [(mkRNode seg).bindTerminal mm1 res1 tmpl] :=
          ((Prod.ext_iff.mp h1).1).symm
        subst hn1
        have hy : ((mkRNode seg).bindTerminal mm1 res1 tmpl).matchesSeg seg = true := by
          unfold RNode.matchesSeg
          rw [bindTerminal_raw, mkRNode_raw]
          simp
        have hfh2 := firstHit_append_match seg _ hy nodes hfh
        have hres : insertR cm mm2 res2 tmpl seg []
            (nodes ++ [(mkRNode seg).bindTerminal mm1 res1 tmpl]) =
            ((nodes ++ [(mkRNode seg).bindTerminal mm1 res1 tmpl]).set nodes.length
              (((nodes ++ [(mkRNode seg).bindTerminal mm1 res1 tmpl]).getD
                  nodes.length default).bindTerminal mm2 res2 tmpl), false) := by
          unfold insertR
          rw [hfh2]
        rw [hres]
        have hgd := getD_append_len nodes ((mkRNode seg).bindTerminal mm1 res1 tmpl)
        have hlen : nodes.length <
            (nodes ++ [(mkRNode seg).bindTerminal mm1 res1 tmpl]).length := by simp
        refine ⟨rfl, RbF.bind _ nodes.length hlen ?_ ?_ ?_ ?_⟩
        · rw [hgd, bindTerminal_uri_template]
        · rw [hgd]
          simp
        · refine onlyAt_sib hwf hO hlen ?_
          rw [hgd, bindTerminal_raw, mkRNode_raw]
        · rw [hgd, bindTerminal_children, mkRNode_children]
          exact tmplFreeF_nil tmpl
    | some pr =>
      rcases pr with ⟨i, b⟩
      cases b with
      | false =>
        rw [hfh] at h1
        dsimp only at h1
        simp at h1
      | true =>
        rw [hfh] at h1
        dsimp only at h1
        have hn1 : nodes1 =
            nodes.set i ((nodes.getD i default).bindTerminal mm1 res1 tmpl) :=
          ((Prod.ext_iff.mp h1).1).symm
        obtain ⟨hi, _, hmt⟩ := firstHit_some_spec seg nodes i true hfh
        rw [if_pos rfl] at hmt
        subst hn1
        have hy : ((nodes.getD i default).bindTerminal mm1 res1 tmpl).matchesSeg seg
            = true := by
          unfold RNode.matchesSeg at hmt ⊢
          rw [bindTerminal_raw]
          exact hmt
        have hfh2 := firstHit_set_match seg nodes i _ hfh hy
        have hres : insertR cm mm2 res2 tmpl seg []
            (nodes.set i ((nodes.getD i default).bindTerminal mm1 res1 tmpl)) =
            ((nodes.set i ((nodes.getD i default).bindTerminal mm1 res1 tmpl)).set i
              (((nodes.set i ((nodes.getD i default).bindTerminal mm1 res1
                  tmpl)).getD i default).bindTerminal mm2 res2 tmpl), false) := by
          unfold insertR
          rw [hfh2]
        rw [hres]
        have hgd := getD_set_self nodes i
          ((nodes.getD i default).bindTerminal mm1 res1 tmpl) hi
        have hlen : i <
            (nodes.set i ((nodes.getD i default).bindTerminal mm1 res1 tmpl)).length := by
          simpa using hi
        refine ⟨rfl, RbF.bind _ i hlen ?_ ?_ ?_ ?_⟩
        · rw [hgd, bindTerminal_uri_template]
        · rw [hgd]
          simp
        · refine onlyAt_sib hwf hO hlen ?_
          rw [hgd, bindTerminal_raw]
          unfold RNode.matchesSeg at hmt
          exact (of_decide_eq_true hmt).symm
        · have hri : ((nodes.set i ((nodes.getD i default).bindTerminal mm1 res1
              tmpl)).getD i default).raw_segment = seg := by
            rw [hgd, bindTerminal_raw]
            unfold RNode.matchesSeg at hmt
            exact (of_decide_eq_true hmt).symm
          have hON := (onlyAtF_cons_iff tmpl seg [] _).mp hO _ (getD_mem hlen)
          exact (onlyAtN_match_nil hri).mp hON
  | cons seg2 rest2 ih =>
    intro seg nodes nodes1 h1 hwf hO
    unfold insertR at h1
    cases hfh : firstHit nodes seg with
    | none =>
      rw [hfh] at h1
      dsimp only at h1
      split at h1
      · simp at h1
      · split at h1
        · simp at h1
        · rename_i hcne hcp2
          rcases hins1 : insertR cm mm1 res1 tmpl seg2 rest2 [] with ⟨ch1, e1⟩
          rw [hins1] at h1
          dsimp only at h1
          have he1 : e1 = false := (Prod.ext_iff.mp h1).2
          have hn1 : nodes1 = nodes ++ [(mkRNode seg).withChildren ch1] :=
            ((Prod.ext_iff.mp h1).1).symm
          subst hn1
          rw [he1] at hins1
          have hy : ((mkRNode seg).withChildren ch1).matchesSeg seg = true := by
            unfold RNode.matchesSeg
            rw [withChildren_raw, mkRNode_raw]
            simp
          have hfh2 := firstHit_append_match seg _ hy nodes hfh
          have hgd := getD_append_len nodes ((mkRNode seg).withChildren ch1)
          have hlen : nodes.length <
              (nodes ++ [(mkRNode seg).withChildren ch1]).length := by simp
          have hmem : (mkRNode seg).withChildren ch1 ∈
              nodes ++ [(mkRNode seg).withChildren ch1] := by simp
          have hwfY := hwf.2 _ hmem
          have hwfch : ForestWF cm ch1 := by
            have h3 := hwfY.childNodup
            have h4 := hwfY.child
            rw [withChildren_children] at h3 h4
            exact ⟨h3, h4⟩
          have hri : ((nodes ++ [(mkRNode seg).withChildren ch1]).getD
              nodes.length default).raw_segment = seg := by
            rw [hgd, withChildren_raw, mkRNode_raw]
          have hON := (onlyAtF_cons_iff tmpl seg (seg2 :: rest2) _).mp hO _
            (getD_mem hlen)
          have hOn2 := (onlyAtN_match_cons hri).mp hON
          have hOch : OnlyAtF tmpl (seg2 :: rest2) ch1 := by
            have h5 := hOn2.2
            rw [hgd, withChildren_children] at h5
            exact h5
          obtain ⟨he2, hrb2⟩ := ih seg2 [] ch1 hins1 hwfch hOch
          rcases hins2 : insertR cm mm2 res2 tmpl seg2 rest2 ch1 with ⟨ch2, e2⟩
          rw [hins2] at he2 hrb2
          dsimp only at he2 hrb2
          have hcpcY : ¬ (findCmpConverter cm ((nodes ++
              [(mkRNode seg).withChildren ch1]).getD nodes.length
                default)).isSome = true := by
            rw [hgd, findCmp_withChildren]
            exact hcp2
          have hres : insertR cm mm2 res2 tmpl seg (seg2 :: rest2)
              (nodes ++ [(mkRNode seg).withChildren ch1]) =
              ((nodes ++ [(mkRNode seg).withChildren ch1]).set nodes.length
                (((nodes ++ [(mkRNode seg).withChildren ch1]).getD nodes.length
                  default).withChildren ch2), false) := by
            unfold insertR
            rw [hfh2]
            dsimp only
            rw [if_neg hcpcY]
            rw [show ((nodes ++ [(mkRNode seg).withChildren ch1]).getD nodes.length
                default).children = ch1 from by rw [hgd, withChildren_children]]
            rw [hins2, he2]
          rw [hres]
          refine ⟨rfl, RbF.deep _ nodes.length ch2 hlen ?_ ?_ ?_⟩
          · rw [hgd, withChildren_children]
            exact hrb2
          · exact onlyAt_sib hwf hO hlen hri
          · exact hOn2.1
    | some pr =>
      rcases pr with ⟨i, b⟩
      cases b with
      | false =>
        rw [hfh] at h1
        dsimp only at h1
        simp at h1
      | true =>
        rw [hfh] at h1
        dsimp only at h1
        split at h1
        · simp at h1
        · rename_i hcpc
          rcases hins1 : insertR cm mm1 res1 tmpl seg2 rest2
              (nodes.getD i default).children with ⟨ch1, e1⟩
          rw [hins1] at h1
          dsimp only at h1
          have he1 : e1 = false := (Prod.ext_iff.mp h1).2
          have hn1 : nodes1 =
              nodes.set i ((nodes.getD i default).withChildren ch1) :=
            ((Prod.ext_iff.mp h1).1).symm
          obtain ⟨hi, _, hmt⟩ := firstHit_some_spec seg nodes i true hfh
          rw [if_pos rfl] at hmt
          subst hn1
          rw [he1] at hins1
          have hy : ((nodes.getD i default).withChildren ch1).matchesSeg seg = true := by
            unfold RNode.matchesSeg at hmt ⊢
            rw [withChildren_raw]
            exact hmt
          have hfh2 := firstHit_set_match seg nodes i _ hfh hy
          have hgd := getD_set_self nodes i
            ((nodes.getD i default).withChildren ch1) hi
          have hlen : i <
              (nodes.set i ((nodes.getD i default).withChildren ch1)).length := by
            simpa using hi
          have hmem : (nodes.getD i default).withChildren ch1 ∈
              nodes.set i ((nodes.getD i default).withChildren ch1) := by
            have h6 := getD_mem hlen
            rw [hgd] at h6
            exact h6
          have hwfY := hwf.2 _ hmem
          have hwfch : ForestWF cm ch1 := by
            have h3 := hwfY.childNodup
            have h4 := hwfY.child
            rw [withChildren_children] at h3 h4
            exact ⟨h3, h4⟩
          have hri : ((nodes.set i ((nodes.getD i default).withChildren
              ch1)).getD i default).raw_segment = seg := by
            rw [hgd, withChildren_raw]
            unfold RNode.matchesSeg at hmt
            exact (of_decide_eq_true hmt).symm
          have hON := (onlyAtF_cons_iff tmpl seg (seg2 :: rest2) _).mp hO _
            (getD_mem hlen)
          have hOn2 := (onlyAtN_match_cons hri).mp hON
          have hOch : OnlyAtF tmpl (seg2 :: rest2) ch1 := by
            have h5 := hOn2.2
            rw [hgd, withChildren_children] at h5
            exact h5
          obtain ⟨he2, hrb2⟩ := ih seg2 (nodes.getD i default).children ch1
            hins1 hwfch hOch
          rcases hins2 : insertR cm mm2 res2 tmpl seg2 rest2 ch1 with ⟨ch2, e2⟩
          rw [hins2] at he2 hrb2
          dsimp only at he2 hrb2
          have hcpcY : ¬ (findCmpConverter cm ((nodes.set i ((nodes.getD i
              default).withChildren ch1)).getD i default)).isSome = true := by
            rw [hgd, findCmp_withChildren]
            exact hcpc
          have hres : insertR cm mm2 res2 tmpl seg (seg2 :: rest2)
              (nodes.set i ((nodes.getD i default).withChildren ch1)) =
              ((nodes.set i ((nodes.getD i default).withChildren ch1)).set i
                (((nodes.set i ((nodes.getD i default).withChildren ch1)).getD i
                  default).withChildren ch2), false) := by
            unfold insertR
            rw [hfh2]
            dsimp only
            rw [if_neg hcpcY]
            rw [show ((nodes.set i ((nodes.getD i default).withChildren
                ch1)).getD i default).children = ch1 from by
              rw [hgd, withChildren_children]]
            rw [hins2, he2]
          rw [hres]
          refine ⟨rfl, RbF.deep _ i ch2 hlen ?_ ?_ ?_⟩
          · rw [hgd, withChildren_children]
            exact hrb2
          · exact onlyAt_sib hwf hO hlen hri
          · exact hOn2.1

/-- `add_route` never changes the converter registry. -/
lemma addRoute_cm (r : Router) (tmpl : List Char) (res mm : Nat) :
    (addRoute r tmpl res mm).1.converterMap = r.converterMap := by
  unfold addRoute
  split
  · rfl
  · cases hval : validatePath r.converterMap
        (splitSlash (tmpl.dropWhile (· = '/'))) [] with
    | error e => simp only [hval]
    | ok u =>
      cases hpath : splitSlash (tmpl.dropWhile (· = '/')) with
      | nil =>
        rw [hpath] at hval
        simp only [hpath, hval]
      | cons seg rest =>
        rw [hpath] at hval
        rcases hins : insertR r.converterMap mm res tmpl seg rest r.roots
          with ⟨roots2, e⟩
        simp only [hpath, hval, hins]

/-- A successful `add_route` call decomposed: the template's path is nonempty
and the resulting tree is the output of a successful insertion run. -/
lemma addRoute_ok_insert (r : Router) (tmpl : List Char) (res mm : Nat)
    (h : (addRoute r tmpl res mm).2 = false) :
    ∃ seg rest, splitSlash (tmpl.dropWhile (· = '/')) = seg :: rest ∧
      insertR r.converterMap mm res tmpl seg rest r.roots =
        ((addRoute r tmpl res mm).1.roots, false) := by
  unfold addRoute at h ⊢
  split at h
  · cases h
  · rename_i hsp
    rw [if_neg hsp]
    dsimp only at h ⊢
    cases hval : validatePath r.converterMap
        (splitSlash (tmpl.dropWhile (· = '/'))) [] with
    | error e =>
      rw [hval] at h
      dsimp only at h
      cases h
    | ok u =>
      rw [hval] at h
      cases hpath : splitSlash (tmpl.dropWhile (· = '/')) with
      | nil =>
        rw [hpath] at h
        dsimp only at h
        cases h
      | cons seg rest =>
        refine ⟨seg, rest, rfl, ?_⟩
        rw [hpath] at h
        dsimp only at h ⊢
        rcases hins : insertR r.converterMap mm res tmpl seg rest r.roots
          with ⟨roots2, e⟩
        dsimp only at h ⊢
        rw [hins] at h
        dsimp only at h
        rw [h]

/-- `add_route` over a router whose template passes validation, expressed as
one insertion step (used to run the same call a second time). -/
lemma addRoute_again {cm : ConvMap} (r1 : Router) (tmpl : List Char)
    (res2 mm2 : Nat) (seg : List Char) (rest : List (List Char))
    (u : List (List Char))
    (hcm1 : r1.converterMap = cm)
    (hsp : (fieldSub (fun _ => "{FIELD}".data) tmpl).any pySpace = false)
    (hval : validatePath cm (seg :: rest) [] = .ok u)
    (hpath : splitSlash (tmpl.dropWhile (· = '/')) = seg :: rest) :
    addRoute r1 tmpl res2 mm2 =
      ({ r1 with roots := (insertR cm mm2 res2 tmpl seg rest r1.roots).1 },
        (insertR cm mm2 res2 tmpl seg rest r1.roots).2) := by
  unfold addRoute
  rw [if_neg (by rw [hsp]; simp)]
  dsimp only
  rw [hpath, hcm1, hval]

/-- Re-registering a template right after its successful registration
succeeds again, and only rebinds the terminal node of its path. -/
lemma addRoute_rebind {cm : ConvMap} {roots : List RNode} (tmpl : List Char)
    (res1 mm1 res2 mm2 : Nat) (hreach : Reachable cm roots)
    (h1 : (addRoute ⟨roots, cm⟩ tmpl res1 mm1).2 = false) :
    (addRoute (addRoute ⟨roots, cm⟩ tmpl res1 mm1).1 tmpl res2 mm2).2 = false ∧
    RbF mm2 res2 tmpl (addRoute ⟨roots, cm⟩ tmpl res1 mm1).1.roots
      (addRoute (addRoute ⟨roots, cm⟩ tmpl res1 mm1).1 tmpl res2 mm2).1.roots := by
  obtain ⟨seg, rest, hpath, hins⟩ := addRoute_ok_insert ⟨roots, cm⟩ tmpl res1 mm1 h1
  obtain ⟨hsp, u, hval⟩ := addRoute_ok_facts ⟨roots, cm⟩ tmpl res1 mm1 h1
  have hreach1 := Reachable.step tmpl res1 mm1 hreach h1
  have hwf1 := reachable_wf hreach1
  have hO1 := reachable_onlyat tmpl hreach1
  rw [hpath] at hO1 hval
  have hcm1 := addRoute_cm ⟨roots, cm⟩ tmpl res1 mm1
  dsimp only at hins hcm1 hval
  obtain ⟨he2, hrb⟩ := insertR_rebind cm mm1 res1 mm2 res2 tmpl rest seg roots
    (addRoute ⟨roots, cm⟩ tmpl res1 mm1).1.roots hins hwf1 hO1
  have hres := addRoute_again (addRoute ⟨roots, cm⟩ tmpl res1 mm1).1 tmpl
    res2 mm2 seg rest u hcm1 hsp hval hpath
  rw [hres]
  dsimp only
  exact ⟨he2, hrb⟩

/-- Simulation condition on a node relation: related nodes agree on every
field the program generator reads, and have pointwise-related children. -/
def NodeSim (R : RNode → RNode → Prop) : Prop :=
  ∀ a b, R a b →
    a.raw_segment = b.raw_segment ∧ a.is_var = b.is_var ∧
    a.is_complex = b.is_complex ∧ a.num_fields = b.num_fields ∧
    a.var_name = b.var_name ∧ a.var_pattern = b.var_pattern ∧
    a.var_converter_map = b.var_converter_map ∧
    a.resource.isSome = b.resource.isSome ∧
    List.Forall₂ R a.children b.children

/-- Relatedness of generator states: equal pattern and converter tables and
pointwise-related return values. -/
def StRel (R : RNode → RNode → Prop) (st1 st2 : GenState) : Prop :=
  st1.patterns = st2.patterns ∧ st1.convs = st2.convs ∧
  List.Forall₂ R st1.returnValues st2.returnValues

/-- Relatedness of two child-level generators, the induction hypothesis of
the fuel recursion. -/
def HRec (R : RNode → RNode → Prop)
    (rec1 rec2 : List RNode → GenState → List Cx → Nat → Bool →
      List Cx × GenState) : Prop :=
  ∀ nodes1 nodes2 st1 st2 stack level fast,
    List.Forall₂ R nodes1 nodes2 → StRel R st1 st2 →
    (rec1 nodes1 st1 stack level fast).1 = (rec2 nodes2 st2 stack level fast).1 ∧
    StRel R (rec1 nodes1 st1 stack level fast).2 (rec2 nodes2 st2 stack level fast).2

lemma forall₂_append_rel {R : RNode → RNode → Prop} :
    ∀ {a b c d : List RNode}, List.Forall₂ R a b → List.Forall₂ R c d →
      List.Forall₂ R (a ++ c) (b ++ d) := by
  intro a b c d h1 h2
  induction h1 with
  | nil => exact h2
  | cons hab htl ih => exact List.Forall₂.cons hab ih

lemma stRel_addRV {R : RNode → RNode → Prop} {st1 st2 : GenState}
    (h : StRel R st1 st2) {a b : RNode} (hab : R a b) :
    StRel R { st1 with returnValues := st1.returnValues ++ [a] }
      { st2 with returnValues := st2.returnValues ++ [b] } :=
  ⟨h.1, h.2.1,
    forall₂_append_rel h.2.2 (List.Forall₂.cons hab List.Forall₂.nil)⟩

lemma stRel_addPat {R : RNode → RNode → Prop} {st1 st2 : GenState}
    (h : StRel R st1 st2) (x : List Char) :
    StRel R { st1 with patterns := st1.patterns ++ [x] }
      { st2 with patterns := st2.patterns ++ [x] } :=
  ⟨by simp only [h.1], h.2.1, h.2.2⟩

lemma stRel_addConv {R : RNode → RNode → Prop} {st1 st2 : GenState}
    (h : StRel R st1 st2) (f : Value → Value) :
    StRel R { st1 with convs := st1.convs ++ [f] }
      { st2 with convs := st2.convs ++ [f] } :=
  ⟨h.1, by simp only [h.2.1], h.2.2⟩

lemma filter_rel {R : RNode → RNode → Prop} (p : RNode → Bool)
    (hp : ∀ a b, R a b → p a = p b) :
    ∀ {l1 l2 : List RNode}, List.Forall₂ R l1 l2 →
      List.Forall₂ R (l1.filter p) (l2.filter p) := by
  intro l1 l2 h
  induction h with
  | nil => simp only [List.filter_nil]; exact .nil
  | cons hab htl ih =>
    rename_i a b l1' l2'
    rw [List.filter_cons, List.filter_cons, ← hp a b hab]
    by_cases hpa : p a = true
    · rw [if_pos hpa, if_pos hpa]
      exact .cons hab ih
    · rw [if_neg hpa, if_neg hpa]
      exact ih

lemma any_rel {R : RNode → RNode → Prop} (p : RNode → Bool)
    (hp : ∀ a b, R a b → p a = p b) :
    ∀ {l1 l2 : List RNode}, List.Forall₂ R l1 l2 → l1.any p = l2.any p := by
  intro l1 l2 h
  induction h with
  | nil => rfl
  | cons hab htl ih =>
    rename_i a b l1' l2'
    simp only [List.any_cons, hp a b hab, ih]

lemma sortNodes_rel {R : RNode → RNode → Prop} (hsim : NodeSim R)
    {l1 l2 : List RNode} (h : List.Forall₂ R l1 l2) :
    List.Forall₂ R (sortNodes l1) (sortNodes l2) := by
  unfold sortNodes
  refine forall₂_append_rel (forall₂_append_rel ?_ ?_) ?_
  · exact filter_rel _ (fun a b hab => by rw [(hsim a b hab).2.1]) h
  · exact filter_rel _ (fun a b hab => by
      rw [(hsim a b hab).2.1, (hsim a b hab).2.2.1]) h
  · exact filter_rel _ (fun a b hab => by
      rw [(hsim a b hab).2.1, (hsim a b hab).2.2.1]) h

/-- The cons equation of `genConversion` in projection form. -/
lemma genConversion_cons (cm : ConvMap) (f c : List Char)
    (a : Option (List Char))
    (rest : List (List Char × List Char × Option (List Char)))
    (st : GenState) (stack : List Cx) :
    genConversion cm ((f, c, a) :: rest) st stack =
      (fun inner => [Cx.setFragField f,
        Cx.ifConv (stack.length + 1) st.convs.length
          ((genConversion cm rest { st with convs := st.convs ++ [instConv cm c a] }
            (stack ++ [Cx.setParamVal f (stack.length + 1)])).1 inner)],
       (genConversion cm rest { st with convs := st.convs ++ [instConv cm c a] }
         (stack ++ [Cx.setParamVal f (stack.length + 1)])).2.1,
       (genConversion cm rest { st with convs := st.convs ++ [instConv cm c a] }
         (stack ++ [Cx.setParamVal f (stack.length + 1)])).2.2) := rfl

/-- Over related states, `genConversion` emits the same wrapper and stack and
keeps the states related. -/
lemma genConversion_rel {R : RNode → RNode → Prop} (cm : ConvMap) :
    ∀ (vcm : List (List Char × List Char × Option (List Char)))
      (st1 st2 : GenState) (stack : List Cx), StRel R st1 st2 →
      (genConversion cm vcm st1 stack).1 = (genConversion cm vcm st2 stack).1 ∧
      StRel R (genConversion cm vcm st1 stack).2.1
        (genConversion cm vcm st2 stack).2.1 ∧
      (genConversion cm vcm st1 stack).2.2 = (genConversion cm vcm st2 stack).2.2 := by
  intro vcm
  induction vcm with
  | nil => intro st1 st2 stack h; exact ⟨rfl, h, rfl⟩
  | cons fca rest ih =>
    intro st1 st2 stack h
    rcases fca with ⟨f, c, a⟩
    rw [genConversion_cons, genConversion_cons]
    obtain ⟨ih1, ih2, ih3⟩ := ih { st1 with convs := st1.convs ++ [instConv cm c a] }
      { st2 with convs := st2.convs ++ [instConv cm c a] }
      (stack ++ [Cx.setParamVal f (stack.length + 1)]) (stRel_addConv h _)
    refine ⟨?_, ih2, ih3⟩
    rw [ih1, h.2.1]

/-- The trailing stage of `genNodeF` — terminal slot allocation, children
recursion and tail emission — respects relatedness once the branch stage has
produced a common wrapper, parameter stack and multi-segment flag. -/
lemma genNodeF_stage2 {R : RNode → RNode → Prop}
    {rec1 rec2 : List RNode → GenState → List Cx → Nat → Bool →
      List Cx × GenState}
    (hrec : HRec R rec1 rec2) {a b : RNode}
    (hres : a.resource.isSome = b.resource.isSome)
    (hab : R a b) (hch : List.Forall₂ R a.children b.children)
    (wrap : List Cx → List Cx) (stack2 : List Cx) (cMulti : Bool)
    {stA stB : GenState} (hst : StRel R stA stB) (level : Nat) (fast : Bool) :
    ((let (retIdx, st2) : Option Nat × GenState :=
        match a.resource with
        | some _ => (some stA.returnValues.length,
                     { stA with returnValues := stA.returnValues ++ [a] })
        | none => (none, stA)
      let (childCs, st3) := rec1 a.children st2 stack2 (level + 1) fast
      let tailCs : List Cx :=
        match retIdx with
        | none => if fast then [Cx.retNone] else []
        | some i =>
          if cMulti then stack2 ++ [Cx.retVal i]
          else
            Cx.ifPathLen false (level + 1) (stack2 ++ [Cx.retVal i]) ::
              (if fast then [Cx.retNone] else [])
      (wrap (childCs ++ tailCs), st3) : List Cx × GenState)).1 =
    ((let (retIdx, st2) : Option Nat × GenState :=
        match b.resource with
        | some _ => (some stB.returnValues.length,
                     { stB with returnValues := stB.returnValues ++ [b] })
        | none => (none, stB)
      let (childCs, st3) := rec2 b.children st2 stack2 (level + 1) fast
      let tailCs : List Cx :=
        match retIdx with
        | none => if fast then [Cx.retNone] else []
        | some i =>
          if cMulti then stack2 ++ [Cx.retVal i]
          else
            Cx.ifPathLen false (level + 1) (stack2 ++ [Cx.retVal i]) ::
              (if fast then [Cx.retNone] else [])
      (wrap (childCs ++ tailCs), st3) : List Cx × GenState)).1 ∧
    StRel R
      ((let (retIdx, st2) : Option Nat × GenState :=
          match a.resource with
          | some _ => (some stA.returnValues.length,
                       { stA with returnValues := stA.returnValues ++ [a] })
          | none => (none, stA)
        let (childCs, st3) := rec1 a.children st2 stack2 (level + 1) fast
        let tailCs : List Cx :=
          match retIdx with
          | none => if fast then [Cx.retNone] else []
          | some i =>
            if cMulti then stack2 ++ [Cx.retVal i]
            else
              Cx.ifPathLen false (level + 1) (stack2 ++ [Cx.retVal i]) ::
                (if fast then [Cx.retNone] else [])
        (wrap (childCs ++ tailCs), st3) : List Cx × GenState)).2
      ((let (retIdx, st2) : Option Nat × GenState :=
          match b.resource with
          | some _ => (some stB.returnValues.length,
                       { stB with returnValues := stB.returnValues ++ [b] })
          | none => (none, stB)
        let (childCs, st3) := rec2 b.children st2 stack2 (level + 1) fast
        let tailCs : List Cx :=
          match retIdx with
          | none => if fast then [Cx.retNone] else []
          | some i =>
            if cMulti then stack2 ++ [Cx.retVal i]
            else
              Cx.ifPathLen false (level + 1) (stack2 ++ [Cx.retVal i]) ::
                (if fast then [Cx.retNone] else [])
        (wrap (childCs ++ tailCs), st3) : List Cx × GenState)).2 := by
  cases hra : a.resource with
  | none =>
    cases hrb : b.resource with
    | some rb =>
      rw [hra, hrb] at hres
      simp at hres
    | none =>
      dsimp only
      obtain ⟨hc1, hc2⟩ := hrec a.children b.children stA stB stack2
        (level + 1) fast hch hst
      exact ⟨by rw [hc1], hc2⟩
  | some ra =>
    cases hrb : b.resource with
    | none =>
      rw [hra, hrb] at hres
      simp at hres
    | some rb =>
      dsimp only
      have hlen : stA.returnValues.length = stB.returnValues.length :=
        List.Forall₂.length_eq hst.2.2
      obtain ⟨hc1, hc2⟩ := hrec a.children b.children
        { stA with returnValues := stA.returnValues ++ [a] }
        { stB with returnValues := stB.returnValues ++ [b] } stack2
        (level + 1) fast hch (stRel_addRV hst hab)
      exact ⟨by rw [hc1, hlen], hc2⟩

/-- Over related nodes and states, the per-node generator emits the same
construct list and keeps the states related. -/
lemma genNodeF_rel {R : RNode → RNode → Prop} (hsim : NodeSim R) (cm : ConvMap)
    {rec1 rec2 : List RNode → GenState → List Cx → Nat → Bool →
      List Cx × GenState}
    (hrec : HRec R rec1 rec2) {a b : RNode} (hab : R a b)
    (st1 st2 : GenState) (stack : List Cx) (level : Nat) (fast : Bool)
    (hst : StRel R st1 st2) :
    (genNodeF rec1 cm a st1 stack level fast).1 =
      (genNodeF rec2 cm b st2 stack level fast).1 ∧
    StRel R (genNodeF rec1 cm a st1 stack level fast).2
      (genNodeF rec2 cm b st2 stack level fast).2 := by
  obtain ⟨hraw, hvar, hcplx, hnum, hvn, hvp, hvcm, hres, hch⟩ := hsim a b hab
  obtain ⟨hp, hc, hrv⟩ := hst
  unfold genNodeF
  rw [← hraw, ← hvar, ← hcplx, ← hnum, ← hvn, ← hvp, ← hvcm, hp, hc]
  have hst0 : StRel R st1 st2 := ⟨hp, hc, hrv⟩
  by_cases hv : a.is_var = true
  · rw [if_pos hv, if_pos hv]
    by_cases hcx : a.is_complex = true
    · rw [if_pos hcx, if_pos hcx]
      have hstP : StRel R
          ⟨st1.returnValues, st2.patterns ++ [a.var_pattern.getD []], st2.convs⟩
          ⟨st2.returnValues, st2.patterns ++ [a.var_pattern.getD []], st2.convs⟩ :=
        ⟨rfl, rfl, hrv⟩
      cases hvc : a.var_converter_map with
      | nil =>
        have hnil : ¬ (([] : List (List Char × List Char × Option (List Char)))
            ≠ []) := fun h => h rfl
        rw [if_neg hnil, if_neg hnil]
        dsimp only
        exact genNodeF_stage2 hrec hres hab hch
          (fun inner => [Cx.ifSegPat level st2.patterns.length
            (Cx.varFromMatch (stack.length + 1) :: inner)])
          (stack ++ [Cx.setParamsDict false (stack.length + 1)]) false
          hstP level fast
      | cons fca tl =>
        have hcne : (fca :: tl) ≠
            ([] : List (List Char × List Char × Option (List Char))) := by simp
        rw [if_pos hcne, if_pos hcne]
        obtain ⟨hg1, hg2, hg3⟩ := genConversion_rel (R := R) cm (fca :: tl)
          ⟨st1.returnValues, st2.patterns ++ [a.var_pattern.getD []], st2.convs⟩
          ⟨st2.returnValues, st2.patterns ++ [a.var_pattern.getD []], st2.convs⟩
          stack hstP
        rcases hgA : genConversion cm (fca :: tl)
          ⟨st1.returnValues, st2.patterns ++ [a.var_pattern.getD []], st2.convs⟩
          stack with ⟨w1, stg1, stk1⟩
        rcases hgB : genConversion cm (fca :: tl)
          ⟨st2.returnValues, st2.patterns ++ [a.var_pattern.getD []], st2.convs⟩
          stack with ⟨w2, stg2, stk2⟩
        rw [hgA, hgB] at hg1 hg2 hg3
        dsimp only at hg1 hg2 hg3
        rw [hg1, hg3]
        dsimp only
        exact genNodeF_stage2 hrec hres hab hch
          (fun inner => [Cx.ifSegPat level st2.patterns.length
            (Cx.prefetchGroups :: w2
              ((if a.num_fields > (fca :: tl).length then
                  ([Cx.varFromPrefetched (stk2.length + 1)],
                   stk2 ++ [Cx.setParamsDict true (stk2.length + 1)])
                else ([], stk2)).1 ++ inner))])
          ((if a.num_fields > (fca :: tl).length then
              ([Cx.varFromPrefetched (stk2.length + 1)],
               stk2 ++ [Cx.setParamsDict true (stk2.length + 1)])
            else ([], stk2)).2) false
          hg2 level fast
    · rw [if_neg hcx, if_neg hcx]
      cases hvc : a.var_converter_map with
      | nil =>
        dsimp only
        exact genNodeF_stage2 hrec hres hab hch id
          (stack ++ [Cx.setParamPath (a.var_name.getD []) level]) false
          hst0 level fast
      | cons fca tl =>
        rcases fca with ⟨f0, cn, ar⟩
        have hstC : ∀ ob : Value → Value, StRel R
            ⟨st1.returnValues, st2.patterns, st2.convs ++ [ob]⟩
            ⟨st2.returnValues, st2.patterns, st2.convs ++ [ob]⟩ :=
          fun ob => ⟨rfl, rfl, hrv⟩
        dsimp only
        exact genNodeF_stage2 hrec hres hab hch
          (fun inner => [if ((lookupA cm cn).getD defaultConvClass).multi = true
              then Cx.setFragRemaining level else Cx.setFragPath level,
            Cx.ifConv (stack.length + 1) st2.convs.length inner])
          (stack ++ [Cx.setParamVal (a.var_name.getD []) (stack.length + 1)])
          ((lookupA cm cn).getD defaultConvClass).multi
          (hstC _) level fast
  · rw [if_neg hv, if_neg hv]
    dsimp only
    exact genNodeF_stage2 hrec hres hab hch
      (fun inner => [Cx.ifSegLit level a.raw_segment inner]) stack false
      hst0 level fast

/-- The cons equation of the sibling loop in projection form. -/
lemma genSeqF_cons
    (rec : List RNode → GenState → List Cx → Nat → Bool → List Cx × GenState)
    (cm : ConvMap) (node : RNode) (restN : List RNode) (st : GenState)
    (stack : List Cx) (level : Nat) (fast : Bool) :
    genSeqF rec cm (node :: restN) st stack level fast =
      ((genNodeF rec cm node st stack level fast).1 ++
        (genSeqF rec cm restN (genNodeF rec cm node st stack level fast).2
          stack level fast).1,
       (genSeqF rec cm restN (genNodeF rec cm node st stack level fast).2
          stack level fast).2) := rfl

/-- The sibling loop respects relatedness. -/
lemma genSeqF_rel {R : RNode → RNode → Prop} (hsim : NodeSim R) (cm : ConvMap)
    {rec1 rec2 : List RNode → GenState → List Cx → Nat → Bool →
      List Cx × GenState}
    (hrec : HRec R rec1 rec2) :
    ∀ {l1 l2 : List RNode}, List.Forall₂ R l1 l2 →
      ∀ (st1 st2 : GenState) (stack : List Cx) (level : Nat) (fast : Bool),
        StRel R st1 st2 →
        (genSeqF rec1 cm l1 st1 stack level fast).1 =
          (genSeqF rec2 cm l2 st2 stack level fast).1 ∧
        StRel R (genSeqF rec1 cm l1 st1 stack level fast).2
          (genSeqF rec2 cm l2 st2 stack level fast).2 := by
  intro l1 l2 h
  induction h with
  | nil => intro st1 st2 stack level fast hst; exact ⟨rfl, hst⟩
  | cons hab htl ih =>
    rename_i a b tl1 tl2
    intro st1 st2 stack level fast hst
    rw [genSeqF_cons, genSeqF_cons]
    obtain ⟨hn1, hn2⟩ := genNodeF_rel hsim cm hrec hab st1 st2 stack level fast hst
    obtain ⟨hs1, hs2⟩ := ih (genNodeF rec1 cm a st1 stack level fast).2
      (genNodeF rec2 cm b st2 stack level fast).2 stack level fast hn2
    exact ⟨by rw [hn1, hs1], hs2⟩

/-- The succ/cons equation of `genNodes` in projection form. -/
lemma genNodes_succ (cm : ConvMap) (fuel : Nat) (node : RNode)
    (restN : List RNode) (st : GenState) (stack : List Cx) (level : Nat)
    (fast : Bool) :
    genNodes cm (fuel + 1) (node :: restN) st stack level fast =
      ([Cx.ifPathLen true level
         ((genSeqF (genNodes cm fuel) cm (sortNodes (node :: restN)) st stack
            level
            (if fast && (node :: restN).length > 1
             then !((node :: restN).any RNode.is_var) else fast)).1 ++
          (if !((node :: restN).any fun n => n.is_var && !n.is_complex) &&
              (if fast && (node :: restN).length > 1
               then !((node :: restN).any RNode.is_var) else fast)
           then [Cx.retNone] else []))],
       (genSeqF (genNodes cm fuel) cm (sortNodes (node :: restN)) st stack level
         (if fast && (node :: restN).length > 1
          then !((node :: restN).any RNode.is_var) else fast)).2) := rfl

/-- Over related forests and states, `_generate_ast` emits the same program
and keeps the states related (any common fuel). -/
lemma genNodes_rel {R : RNode → RNode → Prop} (hsim : NodeSim R) (cm : ConvMap) :
    ∀ fuel : Nat, HRec R (genNodes cm fuel) (genNodes cm fuel) := by
  intro fuel
  induction fuel with
  | zero => intro l1 l2 st1 st2 stack level fast h hst; exact ⟨rfl, hst⟩
  | succ fuel ih =>
    intro l1 l2 st1 st2 stack level fast h hst
    cases h with
    | nil => exact ⟨rfl, hst⟩
    | cons hab htl =>
      rename_i a b tl1 tl2
      rw [genNodes_succ, genNodes_succ]
      have hlen : (b :: tl2).length = (a :: tl1).length := by
        simp only [List.length_cons, List.Forall₂.length_eq htl]
      have hanyv : (b :: tl2).any RNode.is_var = (a :: tl1).any RNode.is_var :=
        (any_rel _ (fun x y hxy => by rw [(hsim x y hxy).2.1])
          (List.Forall₂.cons hab htl)).symm
      have hanys : ((b :: tl2).any fun n => n.is_var && !n.is_complex) =
          ((a :: tl1).any fun n => n.is_var && !n.is_complex) :=
        (any_rel _ (fun x y hxy => by
          rw [(hsim x y hxy).2.1, (hsim x y hxy).2.2.1])
          (List.Forall₂.cons hab htl)).symm
      rw [hlen, hanyv, hanys]
      obtain ⟨hs1, hs2⟩ := genSeqF_rel hsim cm ih
        (sortNodes_rel hsim (List.Forall₂.cons hab htl)) st1 st2 stack level _ hst
      exact ⟨by rw [hs1], hs2⟩

lemma sizeForest_cons (n : RNode) (tl : List RNode) :
    sizeForest (n :: tl) = RNode.size n + sizeForest tl := rfl

lemma size_eq (n : RNode) : RNode.size n = 1 + sizeForest n.children := by
  cases n; rfl

/-- Related forests have the same node count. -/
lemma sizeForest_rel {R : RNode → RNode → Prop} (hsim : NodeSim R) :
    ∀ (N : Nat) {l1 l2 : List RNode}, sizeForest l1 ≤ N →
      List.Forall₂ R l1 l2 → sizeForest l1 = sizeForest l2 := by
  intro N
  induction N with
  | zero =>
    intro l1 l2 hle h
    cases h with
    | nil => rfl
    | cons hab htl =>
      rename_i a b tl1 tl2
      rw [sizeForest_cons, size_eq] at hle
      omega
  | succ N ih =>
    intro l1 l2 hle h
    cases h with
    | nil => rfl
    | cons hab htl =>
      rename_i a b tl1 tl2
      rw [sizeForest_cons, size_eq] at hle
      rw [sizeForest_cons, sizeForest_cons, size_eq a, size_eq b]
      have hach := (hsim a b hab).2.2.2.2.2.2.2.2
      have h1 : sizeForest a.children = sizeForest b.children :=
        ih (by omega) hach
      have h2 : sizeForest tl1 = sizeForest tl2 := ih (by omega) htl
      rw [h1, h2]

/-- Related routers compile to the same program with related tables. -/
lemma compileRouter_rel {R : RNode → RNode → Prop} (hsim : NodeSim R)
    {cm : ConvMap} {roots1 roots2 : List RNode}
    (h : List.Forall₂ R roots1 roots2) :
    (compileRouter ⟨roots1, cm⟩).1 = (compileRouter ⟨roots2, cm⟩).1 ∧
    StRel R (compileRouter ⟨roots1, cm⟩).2 (compileRouter ⟨roots2, cm⟩).2 := by
  unfold compileRouter
  dsimp only
  rw [← sizeForest_rel hsim (sizeForest roots1) le_rfl h]
  exact genNodes_rel hsim cm (sizeForest roots1) roots1 roots2
    ⟨[], [], []⟩ ⟨[], [], []⟩ [] 0 true h ⟨rfl, rfl, .nil⟩

lemma forall₂_get? {R : RNode → RNode → Prop} :
    ∀ {l1 l2 : List RNode}, List.Forall₂ R l1 l2 → ∀ i : Nat,
      (l1.get? i = none ∧ l2.get? i = none) ∨
      (∃ x y, l1.get? i = some x ∧ l2.get? i = some y ∧ R x y) := by
  intro l1 l2 h
  induction h with
  | nil => intro i; exact Or.inl ⟨rfl, rfl⟩
  | cons hab htl ih =>
    intro i
    cases i with
    | zero => exact Or.inr ⟨_, _, rfl, rfl, hab⟩
    | succ j => exact ih j

/-- `findModel` in projection form. -/
lemma findModel_eq (r : Router) (uri : List Char) :
    findModel r uri =
      (match execProgram ⟨splitSlash (uri.dropWhile (· = '/')),
          (compileRouter r).2.patterns, (compileRouter r).2.convs⟩
          (compileRouter r).1 Env.init with
       | (E, .ret (some i)) =>
         match (compileRouter r).2.returnValues.get? i with
         | some n => some ⟨n.resource, n.method_map.getD 0, E.params,
             n.uri_template⟩
         | none => none
       | _ => none) := rfl

/-- Over related routing trees (same registry), `find` either fails on both
or returns records built from related terminal nodes with identical params. -/
lemma findModel_rel {R : RNode → RNode → Prop} (hsim : NodeSim R)
    {cm : ConvMap} {roots1 roots2 : List RNode}
    (h : List.Forall₂ R roots1 roots2) (uri : List Char) :
    (findModel ⟨roots1, cm⟩ uri = none ∧ findModel ⟨roots2, cm⟩ uri = none) ∨
    (∃ (n1 n2 : RNode) (prms : List (List Char × Value)),
      R n1 n2 ∧
      findModel ⟨roots1, cm⟩ uri =
        some ⟨n1.resource, n1.method_map.getD 0, prms, n1.uri_template⟩ ∧
      findModel ⟨roots2, cm⟩ uri =
        some ⟨n2.resource, n2.method_map.getD 0, prms, n2.uri_template⟩) := by
  obtain ⟨hprog, hst⟩ := compileRouter_rel hsim h
  rw [findModel_eq, findModel_eq]
  rw [← hprog, ← hst.1, ← hst.2.1]
  rcases hex : execProgram ⟨splitSlash (uri.dropWhile (· = '/')),
      (compileRouter ⟨roots1, cm⟩).2.patterns,
      (compileRouter ⟨roots1, cm⟩).2.convs⟩
      (compileRouter ⟨roots1, cm⟩).1 Env.init with ⟨E, res⟩
  cases res with
  | fall => exact Or.inl ⟨rfl, rfl⟩
  | ret v =>
    cases v with
    | none => exact Or.inl ⟨rfl, rfl⟩
    | some i =>
      dsimp only
      rcases forall₂_get? hst.2.2 i with ⟨hn1, hn2⟩ | ⟨x, y, hx, hy, hxy⟩
      · rw [hn1, hn2]
        exact Or.inl ⟨rfl, rfl⟩
      · rw [hx, hy]
        exact Or.inr ⟨x, y, E.params, hxy, rfl, rfl⟩

/-- Node-level view of the rebinding relation: a node of the first tree is
either unchanged (with its whole subtree free of the re-registered template),
the rebound terminal itself, or an on-path ancestor whose child list was
re-inserted into. -/
def RbN (mm2 res2 : Nat) (tmpl : List Char) (a b : RNode) : Prop :=
  (TmplFreeN tmpl a ∧ b = a) ∨
  (a.uri_template = some tmpl ∧ a.resource.isSome = true ∧
    TmplFreeF tmpl a.children ∧ b = a.bindTerminal mm2 res2 tmpl) ∨
  (¬ a.uri_template = some tmpl ∧
    ∃ ch2, RbF mm2 res2 tmpl a.children ch2 ∧ b = a.withChildren ch2)

lemma rbN_refl_of_free {mm2 res2 : Nat} {tmpl : List Char} {n : RNode}
    (h : TmplFreeN tmpl n) : RbN mm2 res2 tmpl n n := Or.inl ⟨h, rfl⟩

lemma forall₂_rbN_refl {mm2 res2 : Nat} {tmpl : List Char} :
    ∀ {l : List RNode}, TmplFreeF tmpl l →
      List.Forall₂ (RbN mm2 res2 tmpl) l l := by
  intro l
  induction l with
  | nil => intro _; exact .nil
  | cons a tl ih =>
    intro hf
    rw [tmplFreeF_cons] at hf
    exact .cons (rbN_refl_of_free hf.1) (ih hf.2)

lemma forall₂_refl_of_getD {S : RNode → RNode → Prop} :
    ∀ (l : List RNode),
      (∀ j, j < l.length → S (l.getD j default) (l.getD j default)) →
      List.Forall₂ S l l := by
  intro l
  induction l with
  | nil => intro _; exact .nil
  | cons a tl ih =>
    intro h
    exact .cons (h 0 (by simp)) (ih fun j hj => h (j + 1) (by simpa using hj))

lemma forall₂_set_of {S : RNode → RNode → Prop} :
    ∀ (l : List RNode) (i : Nat) (y : RNode), i < l.length →
      S (l.getD i default) y →
      (∀ j, j < l.length → j ≠ i → S (l.getD j default) (l.getD j default)) →
      List.Forall₂ S l (l.set i y) := by
  intro l
  induction l with
  | nil => intro i y hi; simp at hi
  | cons a tl ih =>
    intro i y hi hy hrefl
    cases i with
    | zero =>
      rw [set_cons_zero]
      refine .cons hy ?_
      exact forall₂_refl_of_getD tl fun j hj =>
        hrefl (j + 1) (by simpa using hj) (by omega)
    | succ j2 =>
      rw [set_cons_succ]
      refine .cons (hrefl 0 (by simp) (by omega)) ?_
      exact ih j2 y (by simpa using hi) hy
        (fun j hj hne => hrefl (j + 1) (by simpa using hj) (by omega))

/-- A re-insertion relates the two forests pointwise. -/
lemma RbF_forall₂ {mm2 res2 : Nat} {tmpl : List Char} :
    ∀ {l1 l2 : List RNode}, RbF mm2 res2 tmpl l1 l2 →
      List.Forall₂ (RbN mm2 res2 tmpl) l1 l2 := by
  intro l1 l2 h
  cases h with
  | bind l i hi hh h2 hsib hch =>
    refine forall₂_set_of l1 i _ hi ?_ ?_
    · exact Or.inr (Or.inl ⟨hh, h2, hch, rfl⟩)
    · intro j hj hne
      exact rbN_refl_of_free (hsib j hj hne)
  | deep l i ch2 hi hh hsib hnode =>
    refine forall₂_set_of l1 i _ hi ?_ ?_
    · exact Or.inr (Or.inr ⟨hnode, ch2, hh, rfl⟩)
    · intro j hj hne
      exact rbN_refl_of_free (hsib j hj hne)

/-- The rebinding relation is a simulation for the program generator. -/
lemma nodeSim_rbN (mm2 res2 : Nat) (tmpl : List Char) :
    NodeSim (RbN mm2 res2 tmpl) := by
  intro a b hab
  rcases hab with ⟨hf, rfl⟩ | ⟨ht, hr, hcf, rfl⟩ | ⟨ht, ch2, hrb, rfl⟩
  · refine ⟨rfl, rfl, rfl, rfl, rfl, rfl, rfl, rfl, ?_⟩
    rw [tmplFreeN_eq] at hf
    exact forall₂_rbN_refl hf.2
  · refine ⟨(bindTerminal_raw a mm2 res2 tmpl).symm,
      (bindTerminal_is_var a mm2 res2 tmpl).symm,
      (bindTerminal_is_complex a mm2 res2 tmpl).symm,
      (bindTerminal_num_fields a mm2 res2 tmpl).symm,
      (bindTerminal_var_name a mm2 res2 tmpl).symm,
      (bindTerminal_var_pattern a mm2 res2 tmpl).symm,
      (bindTerminal_vcm a mm2 res2 tmpl).symm, ?_, ?_⟩
    · rw [bindTerminal_resource]
      exact hr
    · rw [bindTerminal_children]
      exact forall₂_rbN_refl hcf
  · refine ⟨(withChildren_raw a ch2).symm,
      (withChildren_is_var a ch2).symm,
      (withChildren_is_complex a ch2).symm,
      (withChildren_num_fields a ch2).symm,
      (withChildren_var_name a ch2).symm,
      (withChildren_var_pattern a ch2).symm,
      (withChildren_vcm a ch2).symm,
      (congrArg Option.isSome (withChildren_resource a ch2)).symm, ?_⟩
    rw [withChildren_children]
    exact RbF_forall₂ hrb

lemma router_eta {cm : ConvMap} (r : Router) (h : r.converterMap = cm) :
    (⟨r.roots, cm⟩ : Router) = r := by
  rcases r with ⟨rts, rcm⟩
  dsimp only at h ⊢
  rw [← h]

/-- C9: re-registering a template `T` right after a successful
`add_route(T, r1)` succeeds, leaves the tree shape unchanged (no node added
or removed), and rebinds only the terminal of `T`'s path: every subsequent
`find` whose match record carried template `T` now reports the new resource
and method map (with identical params and template `T`), and every other
`find` result is unchanged — the last binding wins. -/
theorem claim_C9 (cm : ConvMap) (roots : List RNode) (tmpl : List Char)
    (res1 mm1 res2 mm2 : Nat) (hreach : Reachable cm roots)
    (h1 : (addRoute ⟨roots, cm⟩ tmpl res1 mm1).2 = false) :
    (addRoute (addRoute ⟨roots, cm⟩ tmpl res1 mm1).1 tmpl res2 mm2).2 = false ∧
    skelForest
        (addRoute (addRoute ⟨roots, cm⟩ tmpl res1 mm1).1 tmpl res2 mm2).1.roots =
      skelForest (addRoute ⟨roots, cm⟩ tmpl res1 mm1).1.roots ∧
    ∀ uri,
      findModel (addRoute (addRoute ⟨roots, cm⟩ tmpl res1 mm1).1 tmpl res2 mm2).1
          uri =
        (findModel (addRoute ⟨roots, cm⟩ tmpl res1 mm1).1 uri).map
          (fun r => if r.uriTemplate = some tmpl
            then ⟨some res2, mm2, r.params, some tmpl⟩ else r) := by
  obtain ⟨he, hrb⟩ := addRoute_rebind tmpl res1 mm1 res2 mm2 hreach h1
  refine ⟨he, RbF_skel hrb, ?_⟩
  intro uri
  have hcm1 : (addRoute ⟨roots, cm⟩ tmpl res1 mm1).1.converterMap = cm :=
    addRoute_cm _ _ _ _
  have hcm2 : (addRoute (addRoute ⟨roots, cm⟩ tmpl res1 mm1).1 tmpl res2
      mm2).1.converterMap = cm := by
    rw [addRoute_cm]
    exact hcm1
  have hr1eta : (⟨(addRoute ⟨roots, cm⟩ tmpl res1 mm1).1.roots, cm⟩ : Router) =
      (addRoute ⟨roots, cm⟩ tmpl res1 mm1).1 := router_eta _ hcm1
  have hr2eta : (⟨(addRoute (addRoute ⟨roots, cm⟩ tmpl res1 mm1).1 tmpl res2
      mm2).1.roots, cm⟩ : Router) =
      (addRoute (addRoute ⟨roots, cm⟩ tmpl res1 mm1).1 tmpl res2 mm2).1 :=
    router_eta _ hcm2
  rcases findModel_rel (nodeSim_rbN mm2 res2 tmpl) (RbF_forall₂ hrb) uri with
    ⟨hn1, hn2⟩ | ⟨n1, n2, prms, hnn, hf1, hf2⟩
  · rw [hr1eta] at hn1
    rw [hr2eta] at hn2
    rw [hn1, hn2]
    rfl
  · rw [hr1eta] at hf1
    rw [hr2eta] at hf2
    rw [hf1, hf2]
    rcases hnn with ⟨hfree, rfl⟩ | ⟨ht, hr, hcf, rfl⟩ | ⟨ht, ch2, hrb2, rfl⟩
    · rw [tmplFreeN_eq] at hfree
      dsimp only [Option.map]
      rw [if_neg hfree.1]
    · dsimp only [Option.map]
      rw [bindTerminal_resource, bindTerminal_method_map,
        bindTerminal_uri_template, if_pos ht]
      rfl
    · dsimp only [Option.map]
      rw [withChildren_resource, withChildren_method_map,
        withChildren_uri_template, if_neg ht]

/-- C9 witness: registering `/a` on the empty example router succeeds, so the
theorem applies with a second registration of `/a` under new handles. -/
theorem claim_C9_witness :
    Reachable exampleCM [] ∧
    (addRoute ⟨[], exampleCM⟩ "/a".data 0 0).2 = false ∧
    ((addRoute (addRoute ⟨[], exampleCM⟩ "/a".data 0 0).1 "/a".data 1 1).2 =
        false ∧
      skelForest
          (addRoute (addRoute ⟨[], exampleCM⟩ "/a".data 0 0).1 "/a".data
            1 1).1.roots =
        skelForest (addRoute ⟨[], exampleCM⟩ "/a".data 0 0).1.roots ∧
      ∀ uri,
        findModel (addRoute (addRoute ⟨[], exampleCM⟩ "/a".data 0 0).1 "/a".data
            1 1).1 uri =
          (findModel (addRoute ⟨[], exampleCM⟩ "/a".data 0 0).1 uri).map
            (fun r => if r.uriTemplate = some "/a".data
              then ⟨some 1, 1, r.params, some "/a".data⟩ else r)) :=
  ⟨Reachable.nil, by decide,
    claim_C9 exampleCM [] "/a".data 0 0 1 1 Reachable.nil (by decide)⟩

/-! ## C10: converter guards never admit a `None` conversion -/

lemma lookupA_dictSet {α β : Type} [DecidableEq α] :
    ∀ (d : List (α × β)) (k k2 : α) (v : β),
      lookupA (dictSet d k v) k2 = if k2 = k then some v else lookupA d k2 := by
  intro d
  induction d with
  | nil =>
    intro k k2 v
    show lookupA [(k, v)] k2 = _
    unfold lookupA
    by_cases h : k2 = k
    · rw [if_pos h.symm, if_pos h]
    · rw [if_neg (fun hh => h hh.symm), if_neg h]
      rfl
  | cons p tl ih =>
    rcases p with ⟨k1, v1⟩
    intro k k2 v
    unfold dictSet
    by_cases h1 : k1 = k
    · rw [if_pos h1]
      unfold lookupA
      by_cases h2 : k2 = k
      · rw [if_pos (h1.trans h2.symm), if_pos h2]
      · rw [if_neg (fun hh => h2 (hh.symm.trans h1)), if_neg h2,
          if_neg (fun hh => h2 (hh.symm.trans h1))]
    · rw [if_neg h1]
      unfold lookupA
      by_cases h2 : k1 = k2
      · rw [if_pos h2, if_neg (fun hh => h1 (h2.trans hh)), if_pos h2]
      · rw [if_neg h2, if_neg h2, ih]

mutual

/-- Guard discipline of a generated construct: every `params[name] = value_N`
assignment reads a slot `N` validated by an enclosing converter guard, and
every guard writes a fresh slot. -/
def GoodC (V : List Nat) : Cx → Prop
  | .ifPathLen _ _ cs => GoodL V cs
  | .ifSegLit _ _ cs => GoodL V cs
  | .ifSegPat _ _ cs => GoodL V cs
  | .ifConv u _ cs => ¬ u ∈ V ∧ GoodL (u :: V) cs
  | .setParamVal _ u => u ∈ V
  | _ => True

def GoodL (V : List Nat) : List Cx → Prop
  | [] => True
  | c :: cs => GoodC V c ∧ GoodL V cs

end

lemma goodL_nil (V : List Nat) : GoodL V [] := trivial

lemma goodL_cons (V : List Nat) (c : Cx) (cs : List Cx) :
    GoodL V (c :: cs) = (GoodC V c ∧ GoodL V cs) := rfl

lemma goodL_append {V : List Nat} :
    ∀ {a b : List Cx}, GoodL V a → GoodL V b → GoodL V (a ++ b) := by
  intro a
  induction a with
  | nil => intro b _ hb; exact hb
  | cons c tl ih =>
    intro b ha hb
    rw [goodL_cons] at ha
    rw [List.cons_append, goodL_cons]
    exact ⟨ha.1, ih ha.2 hb⟩

lemma goodL_of_forall {V : List Nat} :
    ∀ {l : List Cx}, (∀ c ∈ l, GoodC V c) → GoodL V l := by
  intro l
  induction l with
  | nil => intro _; exact goodL_nil V
  | cons c tl ih =>
    intro h
    rw [goodL_cons]
    exact ⟨h c (by simp), ih fun x hx => h x (by simp [hx])⟩

lemma goodL_mem {V : List Nat} :
    ∀ {l : List Cx}, GoodL V l → ∀ c ∈ l, GoodC V c := by
  intro l
  induction l with
  | nil => intro _ c hc; cases hc
  | cons d tl ih =>
    intro h c hc
    rw [goodL_cons] at h
    rcases List.mem_cons.mp hc with rfl | hc2
    · exact h.1
    · exact ih h.2 c hc2

/-- The parameter stack only holds assignment constructs that stay
well-guarded under every extension of the validated set. -/
def StackGood (V : List Nat) (stack : List Cx) : Prop :=
  ∀ c ∈ stack, ∀ V' : List Nat, (∀ x ∈ V, x ∈ V') → GoodC V' c

lemma stackGood_weaken {V V' : List Nat} {stack : List Cx}
    (h : StackGood V stack) (hs : ∀ x ∈ V, x ∈ V') : StackGood V' stack :=
  fun c hc V2 hs2 => h c hc V2 fun x hx => hs2 x (hs x hx)

lemma stackGood_goodL {V : List Nat} {stack : List Cx} (h : StackGood V stack) :
    GoodL V stack :=
  goodL_of_forall fun c hc => h c hc V fun _ hx => hx

lemma stackGood_append {V : List Nat} {stack : List Cx} (h : StackGood V stack)
    {c : Cx} (hc : ∀ V' : List Nat, (∀ x ∈ V, x ∈ V') → GoodC V' c) :
    StackGood V (stack ++ [c]) := by
  intro d hd V' hs
  rcases List.mem_append.mp hd with hd2 | hd2
  · exact h d hd2 V' hs
  · simp only [List.mem_cons, List.not_mem_nil, or_false] at hd2
    subst hd2
    exact hc V' hs

/-- Dict-level part of the invariant: no stored value is `None`. -/
def PDict (p : List (List Char × Value)) : Prop :=
  ∀ f v, lookupA p f = some v → ¬ v = Value.vNone

/-- Validated slots hold a non-`None` converted value. -/
def FVOk (V : List Nat) (E : Env) : Prop :=
  ∀ u ∈ V, ∃ v, lookupA E.fieldVals u = some v ∧ ¬ v = Value.vNone

lemma fvOk_weaken {V V' : List Nat} {E : Env} (h : FVOk V' E)
    (hs : ∀ x ∈ V, x ∈ V') : FVOk V E :=
  fun u hu => h u (hs u hu)

lemma pdict_set {p : List (List Char × Value)} (h : PDict p) {v : Value}
    (hv : ¬ v = Value.vNone) (f : List Char) : PDict (dictSet p f v) := by
  intro f2 v2 hl
  rw [lookupA_dictSet] at hl
  by_cases he : f2 = f
  · rw [if_pos he] at hl
    cases hl
    exact hv
  · rw [if_neg he] at hl
    exact h f2 v2 hl

lemma pdict_fold :
    ∀ (d : GDict) (p : List (List Char × Value)), PDict p →
      PDict (d.foldl (fun p kv => dictSet p kv.1 (.vStr kv.2)) p) := by
  intro d
  induction d with
  | nil => intro p h; exact h
  | cons kv tl ih =>
    intro p h
    exact ih _ (pdict_set h (by simp) kv.1)

/-- One sequential block preserves the guard invariants, given the
single-construct preservation at the current fuel. -/
lemma execList_good (ctx : Ctx) (fuel : Nat)
    (hc : ∀ (c : Cx) (V : List Nat) (E : Env), GoodC V c → FVOk V E →
      PDict E.params →
      FVOk V (execCx ctx fuel c E).1 ∧ PDict (execCx ctx fuel c E).1.params) :
    ∀ (cs : List Cx) (V : List Nat) (E : Env), GoodL V cs → FVOk V E →
      PDict E.params →
      FVOk V (execListF (execCx ctx fuel) cs E).1 ∧
      PDict (execListF (execCx ctx fuel) cs E).1.params := by
  intro cs
  induction cs with
  | nil => intro V E _ h1 h2; exact ⟨h1, h2⟩
  | cons c tl ih =>
    intro V E hg h1 h2
    rw [goodL_cons] at hg
    unfold execListF
    rcases hex : execCx ctx fuel c E with ⟨E2, r⟩
    obtain ⟨g1, g2⟩ := hc c V E hg.1 h1 h2
    rw [hex] at g1 g2
    cases r with
    | fall =>
      dsimp only
      exact ih V E2 hg.2 g1 g2
    | ret v =>
      dsimp only
      exact ⟨g1, g2⟩

/-- Every construct preserves the guard invariants: validated slots keep
non-`None` values and the params dict never receives a `None`. -/
lemma execCx_good (ctx : Ctx) :
    ∀ (fuel : Nat) (c : Cx) (V : List Nat) (E : Env), GoodC V c → FVOk V E →
      PDict E.params →
      FVOk V (execCx ctx fuel c E).1 ∧ PDict (execCx ctx fuel c E).1.params := by
  intro fuel
  induction fuel with
  | zero => intro c V E _ h1 h2; exact ⟨h1, h2⟩
  | succ fuel ih =>
    intro c V E hg h1 h2
    cases c with
    | ifPathLen gt n cs =>
      unfold GoodC at hg
      unfold execCx
      dsimp only
      split <;> split <;>
        first
          | exact execList_good ctx fuel ih cs V E hg h1 h2
          | exact ⟨h1, h2⟩
    | ifSegLit idx lit cs =>
      unfold GoodC at hg
      unfold execCx
      dsimp only
      split
      · exact execList_good ctx fuel ih cs V E hg h1 h2
      · exact ⟨h1, h2⟩
    | ifSegPat idx pidx cs =>
      unfold GoodC at hg
      unfold execCx
      dsimp only
      split
      · exact execList_good ctx fuel ih cs V _ hg h1 h2
      · exact ⟨h1, h2⟩
    | ifConv u k cs =>
      unfold GoodC at hg
      unfold execCx
      dsimp only
      split
      · rename_i hv
        have hE2 : FVOk (u :: V)
            { E with
              fieldVals :=
                dictSet E.fieldVals u ((ctx.convs.getD k fun _ => .vNone) E.fragment) } := by
          intro x hx
          rcases List.mem_cons.mp hx with rfl | hx2
          · refine ⟨_, ?_, hv⟩
            show lookupA (dictSet E.fieldVals x _) x = _
            rw [lookupA_dictSet, if_pos rfl]
          · by_cases hxu : x = u
            · subst hxu
              refine ⟨_, ?_, hv⟩
              show lookupA (dictSet E.fieldVals x _) x = _
              rw [lookupA_dictSet, if_pos rfl]
            · obtain ⟨v0, hl, hv0⟩ := h1 x hx2
              refine ⟨v0, ?_, hv0⟩
              show lookupA (dictSet E.fieldVals u _) x = _
              rw [lookupA_dictSet, if_neg hxu]
              exact hl
        obtain ⟨g1, g2⟩ := execList_good ctx fuel ih cs (u :: V) _ hg.2 hE2 h2
        exact ⟨fvOk_weaken g1 (fun x hx => by simp [hx]), g2⟩
      · rename_i hv
        refine ⟨?_, h2⟩
        intro x hx
        obtain ⟨v0, hl, hv0⟩ := h1 x hx
        refine ⟨v0, ?_, hv0⟩
        show lookupA (dictSet E.fieldVals u _) x = _
        rw [lookupA_dictSet, if_neg (fun he : x = u => hg.1 (he ▸ hx))]
        exact hl
    | setFragField name => exact ⟨h1, h2⟩
    | setFragPath idx => exact ⟨h1, h2⟩
    | setFragRemaining idx => exact ⟨h1, h2⟩
    | varFromMatch u => exact ⟨h1, h2⟩
    | varFromPrefetched u => exact ⟨h1, h2⟩
    | prefetchGroups => exact ⟨h1, h2⟩
    | retNone => exact ⟨h1, h2⟩
    | retVal i => exact ⟨h1, h2⟩
    | setParamPath name idx =>
      exact ⟨h1, pdict_set h2 (by simp) name⟩
    | setParamVal name u =>
      unfold GoodC at hg
      obtain ⟨v0, hl, hv0⟩ := h1 u hg
      refine ⟨h1, ?_⟩
      show PDict (dictSet E.params name ((lookupA E.fieldVals u).getD .vNone))
      rw [hl]
      exact pdict_set h2 hv0 name
    | setParamsDict fromGroups u =>
      exact ⟨h1, pdict_fold _ E.params h2⟩

/-- The child generator produces a well-guarded program from any
well-guarded stack. -/
def HRecGood
    (rec : List RNode → GenState → List Cx → Nat → Bool →
      List Cx × GenState) : Prop :=
  ∀ nodes st stack level fast (V : List Nat),
    (∀ x ∈ V, x ≤ stack.length) → StackGood V stack →
    GoodL V (rec nodes st stack level fast).1

/-- The converter unrolling yields a wrapper that is well-guarded around any
body that respects its extended validated set. -/
lemma genConversion_good (cm : ConvMap) :
    ∀ (vcm : List (List Char × List Char × Option (List Char)))
      (st : GenState) (stack : List Cx) (V : List Nat),
      (∀ x ∈ V, x ≤ stack.length) → StackGood V stack →
      ∃ V2 : List Nat,
        (∀ x ∈ V, x ∈ V2) ∧
        (∀ x ∈ V2, x ≤ (genConversion cm vcm st stack).2.2.length) ∧
        StackGood V2 (genConversion cm vcm st stack).2.2 ∧
        (∀ inner, GoodL V2 inner →
          GoodL V ((genConversion cm vcm st stack).1 inner)) := by
  intro vcm
  induction vcm with
  | nil =>
    intro st stack V hlen hsg
    exact ⟨V, fun x hx => hx, hlen, hsg, fun inner hi => hi⟩
  | cons fca rest ih =>
    rcases fca with ⟨f, c, a⟩
    intro st stack V hlen hsg
    rw [genConversion_cons]
    dsimp only
    have hlen1 : ∀ x ∈ (stack.length + 1) :: V,
        x ≤ (stack ++ [Cx.setParamVal f (stack.length + 1)]).length := by
      intro x hx
      rcases List.mem_cons.mp hx with rfl | hx2
      · simp
      · have := hlen x hx2
        simp only [List.length_append, List.length_cons, List.length_nil]
        omega
    have hsg1 : StackGood ((stack.length + 1) :: V)
        (stack ++ [Cx.setParamVal f (stack.length + 1)]) := by
      refine stackGood_append
        (stackGood_weaken hsg (fun x hx => by simp [hx])) ?_
      intro V' hs
      show (stack.length + 1) ∈ V'
      exact hs _ (by simp)
    obtain ⟨V2, hV2a, hV2b, hV2c, hV2d⟩ :=
      ih { st with convs := st.convs ++ [instConv cm c a] }
        (stack ++ [Cx.setParamVal f (stack.length + 1)])
        ((stack.length + 1) :: V) hlen1 hsg1
    refine ⟨V2, ?_, hV2b, hV2c, ?_⟩
    · intro x hx
      exact hV2a x (by simp [hx])
    · intro inner hinner
      refine ⟨trivial, ?_, goodL_nil V⟩
      show ¬ (stack.length + 1) ∈ V ∧ GoodL ((stack.length + 1) :: V) _
      refine ⟨fun hmem => ?_, hV2d inner hinner⟩
      have := hlen _ hmem
      omega

/-- The trailing stage of `genNodeF` is well-guarded, given a well-guarded
wrapper, stack and validated set for the node's body. -/
lemma stage2_good
    {rec : List RNode → GenState → List Cx → Nat → Bool → List Cx × GenState}
    (hrec : HRecGood rec) (a : RNode)
    (wrap : List Cx → List Cx) (stack2 : List Cx) (cMulti : Bool)
    (stA : GenState) (level : Nat) (fast : Bool) (V V' : List Nat)
    (hwrap : ∀ body, GoodL V' body → GoodL V (wrap body))
    (hlen : ∀ x ∈ V', x ≤ stack2.length) (hsg : StackGood V' stack2) :
    GoodL V
      ((let (retIdx, st2) : Option Nat × GenState :=
          match a.resource with
          | some _ => (some stA.returnValues.length,
                       { stA with returnValues := stA.returnValues ++ [a] })
          | none => (none, stA)
        let (childCs, st3) := rec a.children st2 stack2 (level + 1) fast
        let tailCs : List Cx :=
          match retIdx with
          | none => if fast then [Cx.retNone] else []
          | some i =>
            if cMulti then stack2 ++ [Cx.retVal i]
            else
              Cx.ifPathLen false (level + 1) (stack2 ++ [Cx.retVal i]) ::
                (if fast then [Cx.retNone] else [])
        (wrap (childCs ++ tailCs), st3) : List Cx × GenState)).1 := by
  have hblock : ∀ i : Nat, GoodL V' (stack2 ++ [Cx.retVal i]) :=
    fun i => goodL_append (stackGood_goodL hsg) ⟨trivial, trivial⟩
  cases hra : a.resource with
  | none =>
    dsimp only
    refine hwrap _ (goodL_append
      (hrec a.children stA stack2 (level + 1) fast V' hlen hsg) ?_)
    cases fast
    · exact goodL_nil V'
    · exact ⟨trivial, trivial⟩
  | some ra =>
    dsimp only
    refine hwrap _ (goodL_append
      (hrec a.children _ stack2 (level + 1) fast V' hlen hsg) ?_)
    cases cMulti
    · refine ⟨?_, ?_⟩
      · show GoodL V' (stack2 ++ [Cx.retVal stA.returnValues.length])
        exact hblock _
      · cases fast
        · exact goodL_nil V'
        · exact ⟨trivial, trivial⟩
    · exact hblock _

/-- Every per-node program block is well-guarded. -/
lemma genNodeF_good (cm : ConvMap)
    {rec : List RNode → GenState → List Cx → Nat → Bool → List Cx × GenState}
    (hrec : HRecGood rec) :
    ∀ (node : RNode) (st : GenState) (stack : List Cx) (level : Nat)
      (fast : Bool) (V : List Nat),
      (∀ x ∈ V, x ≤ stack.length) → StackGood V stack →
      GoodL V (genNodeF rec cm node st stack level fast).1 := by
  intro a st stack level fast V hlen hsg
  unfold genNodeF
  by_cases hv : a.is_var = true
  · rw [if_pos hv]
    by_cases hcx : a.is_complex = true
    · rw [if_pos hcx]
      cases hvc : a.var_converter_map with
      | nil =>
        have hnil : ¬ (([] : List (List Char × List Char × Option (List Char)))
            ≠ []) := fun h => h rfl
        rw [if_neg hnil]
        dsimp only
        refine stage2_good hrec a
          (fun inner => [Cx.ifSegPat level st.patterns.length
            (Cx.varFromMatch (stack.length + 1) :: inner)])
          (stack ++ [Cx.setParamsDict false (stack.length + 1)]) false
          ⟨st.returnValues, st.patterns ++ [a.var_pattern.getD []], st.convs⟩
          level fast V V ?_ ?_ ?_
        · intro body hb
          exact ⟨⟨trivial, hb⟩, trivial⟩
        · intro x hx
          have := hlen x hx
          simp only [List.length_append, List.length_cons, List.length_nil]
          omega
        · refine stackGood_append hsg ?_
          intro V2 hs
          trivial
      | cons fca tl =>
        have hcne : (fca :: tl) ≠
            ([] : List (List Char × List Char × Option (List Char))) := by simp
        rw [if_pos hcne]
        obtain ⟨V2, hV2a, hV2b, hV2c, hV2d⟩ := genConversion_good cm (fca :: tl)
          ⟨st.returnValues, st.patterns ++ [a.var_pattern.getD []], st.convs⟩
          stack V hlen hsg
        rcases hg : genConversion cm (fca :: tl)
          ⟨st.returnValues, st.patterns ++ [a.var_pattern.getD []], st.convs⟩
          stack with ⟨w2, stg2, stk2⟩
        rw [hg] at hV2b hV2c hV2d
        dsimp only at hV2b hV2c hV2d
        dsimp only
        refine stage2_good hrec a
          (fun inner => [Cx.ifSegPat level st.patterns.length
            (Cx.prefetchGroups :: w2
              ((if a.num_fields > (fca :: tl).length then
                  ([Cx.varFromPrefetched (stk2.length + 1)],
                   stk2 ++ [Cx.setParamsDict true (stk2.length + 1)])
                else ([], stk2)).1 ++ inner))])
          ((if a.num_fields > (fca :: tl).length then
              ([Cx.varFromPrefetched (stk2.length + 1)],
               stk2 ++ [Cx.setParamsDict true (stk2.length + 1)])
            else ([], stk2)).2) false
          stg2 level fast V V2 ?_ ?_ ?_
        · intro body hb
          refine ⟨⟨trivial, hV2d _ (goodL_append ?_ hb)⟩, trivial⟩
          split
          · exact ⟨trivial, trivial⟩
          · exact goodL_nil V2
        · intro x hx
          have := hV2b x hx
          split
          · simp only [List.length_append, List.length_cons, List.length_nil]
            omega
          · exact this
        · split
          · refine stackGood_append hV2c ?_
            intro V3 hs
            trivial
          · exact hV2c
    · rw [if_neg hcx]
      cases hvc : a.var_converter_map with
      | nil =>
        dsimp only
        refine stage2_good hrec a id
          (stack ++ [Cx.setParamPath (a.var_name.getD []) level]) false
          st level fast V V ?_ ?_ ?_
        · intro body hb
          exact hb
        · intro x hx
          have := hlen x hx
          simp only [List.length_append, List.length_cons, List.length_nil]
          omega
        · refine stackGood_append hsg ?_
          intro V2 hs
          trivial
      | cons fca tl =>
        rcases fca with ⟨f0, cn, ar⟩
        dsimp only
        refine stage2_good hrec a
          (fun inner => [if ((lookupA cm cn).getD defaultConvClass).multi = true
              then Cx.setFragRemaining level else Cx.setFragPath level,
            Cx.ifConv (stack.length + 1) st.convs.length inner])
          (stack ++ [Cx.setParamVal (a.var_name.getD []) (stack.length + 1)])
          ((lookupA cm cn).getD defaultConvClass).multi
          ⟨st.returnValues, st.patterns, st.convs ++
            [(((lookupA cm cn).getD defaultConvClass).instantiate ar).getD
              fun _ => Value.vNone]⟩
          level fast V ((stack.length + 1) :: V) ?_ ?_ ?_
        · intro body hb
          refine ⟨?_, ?_, trivial⟩
          · split
            · exact trivial
            · exact trivial
          · show ¬ (stack.length + 1) ∈ V ∧
              GoodL ((stack.length + 1) :: V) body
            refine ⟨fun hmem => ?_, hb⟩
            have := hlen _ hmem
            omega
        · intro x hx
          rcases List.mem_cons.mp hx with rfl | hx2
          · simp
          · have := hlen x hx2
            simp only [List.length_append, List.length_cons, List.length_nil]
            omega
        · refine stackGood_append
            (stackGood_weaken hsg (fun x hx => by simp [hx])) ?_
          intro V2 hs
          show (stack.length + 1) ∈ V2
          exact hs _ (by simp)
  · rw [if_neg hv]
    dsimp only
    refine stage2_good hrec a
      (fun inner => [Cx.ifSegLit level a.raw_segment inner]) stack false
      st level fast V V ?_ hlen hsg
    intro body hb
    exact ⟨hb, trivial⟩

/-- The sibling loop emits a well-guarded program. -/
lemma genSeqF_good (cm : ConvMap)
    {rec : List RNode → GenState → List Cx → Nat → Bool → List Cx × GenState}
    (hrec : HRecGood rec) :
    ∀ (l : List RNode) (st : GenState) (stack : List Cx) (level : Nat)
      (fast : Bool) (V : List Nat),
      (∀ x ∈ V, x ≤ stack.length) → StackGood V stack →
      GoodL V (genSeqF rec cm l st stack level fast).1 := by
  intro l
  induction l with
  | nil => intro st stack level fast V _ _; exact goodL_nil V
  | cons node tl ih =>
    intro st stack level fast V hlen hsg
    rw [genSeqF_cons]
    exact goodL_append (genNodeF_good cm hrec node st stack level fast V hlen hsg)
      (ih _ stack level fast V hlen hsg)

/-- `_generate_ast` emits a well-guarded program. -/
lemma genNodes_good (cm : ConvMap) : ∀ fuel : Nat, HRecGood (genNodes cm fuel) := by
  intro fuel
  induction fuel with
  | zero => intro nodes st stack level fast V _ _; exact goodL_nil V
  | succ fuel ih =>
    intro nodes st stack level fast V hlen hsg
    cases nodes with
    | nil => exact goodL_nil V
    | cons node restN =>
      rw [genNodes_succ]
      refine ⟨?_, trivial⟩
      show GoodL V _
      refine goodL_append ?_ ?_
      · exact genSeqF_good cm ih (sortNodes (node :: restN)) st stack level _
          V hlen hsg
      · split <;> split <;> first
          | exact ⟨trivial, trivial⟩
          | exact goodL_nil V

/-- Any record produced by `find` carries a params dict with no `None`
value: the generated program is well-guarded, the interpreter preserves the
guard invariants, and the record copies the final params dict. -/
lemma findModel_pdict (r : Router) (uri : List Char) (rec : MatchRecord)
    (h : findModel r uri = some rec) : PDict rec.params := by
  rw [findModel_eq] at h
  have hP : PDict (execProgram ⟨splitSlash (uri.dropWhile (· = '/')),
      (compileRouter r).2.patterns, (compileRouter r).2.convs⟩
      (compileRouter r).1 Env.init).1.params := by
    have hgood : GoodL ([] : List Nat) (compileRouter r).1 :=
      genNodes_good r.converterMap (sizeForest r.roots) r.roots ⟨[], [], []⟩
        [] 0 true [] (fun x hx => absurd hx (List.not_mem_nil x))
        (fun c hc => absurd hc (List.not_mem_nil c))
    exact (execList_good
      ⟨splitSlash (uri.dropWhile (· = '/')), (compileRouter r).2.patterns,
        (compileRouter r).2.convs⟩
      (sizeProg (compileRouter r).1)
      (fun c V E hg h1 h2 => execCx_good _ _ c V E hg h1 h2)
      (compileRouter r).1 [] Env.init hgood
      (fun u hu => absurd hu (List.not_mem_nil u))
      (fun f v hl => nomatch hl)).2
  rcases hep : execProgram ⟨splitSlash (uri.dropWhile (· = '/')),
      (compileRouter r).2.patterns, (compileRouter r).2.convs⟩
      (compileRouter r).1 Env.init with ⟨E, res⟩
  rw [hep] at h hP
  cases res with
  | fall => exact nomatch h
  | ret ov =>
    cases ov with
    | none => exact nomatch h
    | some i =>
      dsimp only at h
      cases hrv : (compileRouter r).2.returnValues.get? i with
      | none =>
        rw [hrv] at h
        exact nomatch h
      | some n =>
        rw [hrv] at h
        cases h
        exact hP

/-! ## C3: params is written only on branches that reach a return

The generator collects `Assign*` constructs on the parameter stack and emits
them immediately before each `ReturnMatch`; the predicates below capture the
resulting shape (a params write occurs only in a run of assignments that ends
in a `retVal`), and the interpreter lemmas show that an execution that does
not return a match leaves the params dict untouched. -/

/-- The construct is one of the params-writing assignments (exactly the
constructs the generator pushes on the parameter stack). -/
def isAssign : Cx → Bool
  | .setParamVal _ _ => true
  | .setParamPath _ _ => true
  | .setParamsDict _ _ => true
  | _ => false

/-- The list is a flushed parameter stack: assignments leading up to a
`retVal` (whatever follows the `retVal` is dead code). -/
def Flush : List Cx → Prop
  | [] => False
  | c :: cs => (∃ i, c = Cx.retVal i) ∨ (isAssign c = true ∧ Flush cs)

mutual

/-- A construct whose execution can write params only after which the block
is guaranteed to return a match. -/
def PC : Cx → Prop
  | .ifPathLen _ _ cs => PL cs
  | .ifSegLit _ _ cs => PL cs
  | .ifSegPat _ _ cs => PL cs
  | .ifConv _ _ cs => PL cs
  | .setParamVal _ _ => False
  | .setParamPath _ _ => False
  | .setParamsDict _ _ => False
  | _ => True

/-- A block in which every params assignment is part of a flushed stack that
reaches a `retVal`. -/
def PL : List Cx → Prop
  | [] => True
  | c :: cs => (PC c ∧ PL cs) ∨ (isAssign c = true ∧ Flush cs)

end

lemma flush_append {b : List Cx} :
    ∀ {a : List Cx}, Flush a → Flush (a ++ b) := by
  intro a
  induction a with
  | nil => intro h; exact h.elim
  | cons c tl ih =>
    intro h
    rcases h with ⟨i, hc⟩ | ⟨h1, h2⟩
    · exact Or.inl ⟨i, hc⟩
    · exact Or.inr ⟨h1, ih h2⟩

lemma pl_append {b : List Cx} (hb : PL b) :
    ∀ {a : List Cx}, PL a → PL (a ++ b) := by
  intro a
  induction a with
  | nil => intro _; exact hb
  | cons c tl ih =>
    intro h
    rcases h with ⟨h1, h2⟩ | ⟨h1, h2⟩
    · exact Or.inl ⟨h1, ih h2⟩
    · exact Or.inr ⟨h1, flush_append h2⟩

/-- Every construct on the parameter stack is an assignment. -/
def StackAssign (stack : List Cx) : Prop :=
  ∀ c ∈ stack, isAssign c = true

lemma flush_stack :
    ∀ {stack : List Cx}, StackAssign stack → ∀ i : Nat,
      Flush (stack ++ [Cx.retVal i]) := by
  intro stack
  induction stack with
  | nil => intro _ i; exact Or.inl ⟨i, rfl⟩
  | cons c tl ih =>
    intro h i
    exact Or.inr ⟨h c (by simp), ih (fun d hd => h d (by simp [hd])) i⟩

lemma pl_stack {stack : List Cx} (h : StackAssign stack) (i : Nat) :
    PL (stack ++ [Cx.retVal i]) := by
  cases stack with
  | nil => exact Or.inl ⟨trivial, trivial⟩
  | cons c tl =>
    exact Or.inr ⟨h c (by simp),
      flush_stack (fun d hd => h d (by simp [hd])) i⟩

/-- At fuel `0` the interpreter is the identity on the environment. -/
lemma execListF_zero (ctx : Ctx) :
    ∀ (cs : List Cx) (E : Env),
      execListF (execCx ctx 0) cs E = (E, Res.fall) := by
  intro cs
  induction cs with
  | nil => intro E; rfl
  | cons c tl ih => intro E; exact ih E

/-- Assignments always fall through. -/
lemma execCx_assign (ctx : Ctx) (fuel : Nat) (c : Cx)
    (h : isAssign c = true) (E : Env) :
    (execCx ctx (fuel + 1) c E).2 = Res.fall := by
  cases c <;> first | rfl | exact nomatch h

/-- A flushed stack always returns a match. -/
lemma flush_ret (ctx : Ctx) (fuel : Nat) :
    ∀ (cs : List Cx) (E : Env), Flush cs →
      ∃ i, (execListF (execCx ctx (fuel + 1)) cs E).2 =
        Res.ret (some i) := by
  intro cs
  induction cs with
  | nil => intro E h; exact h.elim
  | cons c tl ih =>
    intro E h
    show ∃ i, (match execCx ctx (fuel + 1) c E with
      | (E2, Res.fall) => execListF (execCx ctx (fuel + 1)) tl E2
      | r => r).2 = Res.ret (some i)
    rcases h with ⟨i, hc⟩ | ⟨h1, h2⟩
    · subst hc
      exact ⟨i, rfl⟩
    · rcases hex : execCx ctx (fuel + 1) c E with ⟨E2, r⟩
      have hr : r = Res.fall := by
        have h0 := execCx_assign ctx fuel c h1 E
        rw [hex] at h0
        exact h0
      subst hr
      dsimp only
      exact ih E2 h2

/-- One sequential block preserves the params dict unless it returns a
match, given the single-construct preservation at the current fuel. -/
lemma execList_safe (ctx : Ctx) (fuel : Nat)
    (hc : ∀ (c : Cx) (E : Env), PC c →
      (∀ i, (execCx ctx fuel c E).2 ≠ Res.ret (some i)) →
      (execCx ctx fuel c E).1.params = E.params) :
    ∀ (cs : List Cx) (E : Env), PL cs →
      (∀ i, (execListF (execCx ctx fuel) cs E).2 ≠ Res.ret (some i)) →
      (execListF (execCx ctx fuel) cs E).1.params = E.params := by
  intro cs
  induction cs with
  | nil => intro E _ _; rfl
  | cons c tl ih =>
    intro E hp hnr
    have hnr2 : ∀ i, (match execCx ctx fuel c E with
        | (E2, Res.fall) => execListF (execCx ctx fuel) tl E2
        | r => r).2 ≠ Res.ret (some i) := hnr
    show (match execCx ctx fuel c E with
      | (E2, Res.fall) => execListF (execCx ctx fuel) tl E2
      | r => r).1.params = E.params
    rcases hex : execCx ctx fuel c E with ⟨E2, r⟩
    rw [hex] at hnr2
    rcases hp with ⟨hpc, hpl⟩ | ⟨hassign, hflush⟩
    · cases r with
      | fall =>
        dsimp only at hnr2 ⊢
        have h1 := hc c E hpc (fun i hri => by
          rw [hex] at hri
          exact nomatch hri)
        rw [hex] at h1
        exact (ih E2 hpl hnr2).trans h1
      | ret v =>
        dsimp only at hnr2 ⊢
        have h1 := hc c E hpc (fun i hri => by
          rw [hex] at hri
          exact hnr2 i hri)
        rw [hex] at h1
        exact h1
    · cases fuel with
      | zero =>
        have h0 : (E, Res.fall) = (E2, r) := hex
        injection h0 with h0a h0b
        subst h0a
        cases h0b
        dsimp only
        rw [execListF_zero]
      | succ f =>
        have hr : r = Res.fall := by
          have h0 := execCx_assign ctx f c hassign E
          rw [hex] at h0
          exact h0
        subst hr
        dsimp only at hnr2 ⊢
        obtain ⟨i, hi⟩ := flush_ret ctx f tl E2 hflush
        exact absurd hi (hnr2 i)

/-- Safe constructs preserve the params dict unless they return a match. -/
lemma execCx_safe (ctx : Ctx) :
    ∀ (fuel : Nat) (c : Cx) (E : Env), PC c →
      (∀ i, (execCx ctx fuel c E).2 ≠ Res.ret (some i)) →
      (execCx ctx fuel c E).1.params = E.params := by
  intro fuel
  induction fuel with
  | zero => intro c E _ _; rfl
  | succ fuel ih =>
    intro c E hpc hnr
    cases c with
    | ifPathLen gt n cs =>
      have hpl : PL cs := hpc
      by_cases h : (if gt = true then n < ctx.path.length
          else ctx.path.length = n)
      · have hred : execCx ctx (fuel + 1) (Cx.ifPathLen gt n cs) E =
            execListF (execCx ctx fuel) cs E := by
          unfold execCx
          dsimp only
          rw [if_pos h]
        rw [hred] at hnr ⊢
        exact execList_safe ctx fuel ih cs E hpl hnr
      · have hred : execCx ctx (fuel + 1) (Cx.ifPathLen gt n cs) E =
            (E, Res.fall) := by
          unfold execCx
          dsimp only
          rw [if_neg h]
        rw [hred]
    | ifSegLit idx lit cs =>
      have hpl : PL cs := hpc
      by_cases h : (ctx.path.getD idx []) = lit
      · have hred : execCx ctx (fuel + 1) (Cx.ifSegLit idx lit cs) E =
            execListF (execCx ctx fuel) cs E := by
          unfold execCx
          dsimp only
          rw [if_pos h]
        rw [hred] at hnr ⊢
        exact execList_safe ctx fuel ih cs E hpl hnr
      · have hred : execCx ctx (fuel + 1) (Cx.ifSegLit idx lit cs) E =
            (E, Res.fall) := by
          unfold execCx
          dsimp only
          rw [if_neg h]
        rw [hred]
    | ifSegPat idx pidx cs =>
      have hpl : PL cs := hpc
      cases hm : patMatch (ctx.patterns.getD pidx []) (ctx.path.getD idx [])
        with
      | some gd =>
        have hred : execCx ctx (fuel + 1) (Cx.ifSegPat idx pidx cs) E =
            execListF (execCx ctx fuel) cs { E with matchd := some gd } := by
          unfold execCx
          dsimp only
          rw [hm]
        rw [hred] at hnr ⊢
        exact execList_safe ctx fuel ih cs { E with matchd := some gd } hpl hnr
      | none =>
        have hred : execCx ctx (fuel + 1) (Cx.ifSegPat idx pidx cs) E =
            ({ E with matchd := none }, Res.fall) := by
          unfold execCx
          dsimp only
          rw [hm]
        rw [hred]
    | ifConv u k cs =>
      have hpl : PL cs := hpc
      by_cases h : (ctx.convs.getD k fun _ => Value.vNone) E.fragment
          ≠ Value.vNone
      · have hred : execCx ctx (fuel + 1) (Cx.ifConv u k cs) E =
            execListF (execCx ctx fuel) cs
              { E with
                fieldVals :=
                  dictSet E.fieldVals u
                    ((ctx.convs.getD k fun _ => Value.vNone) E.fragment) } := by
          unfold execCx
          dsimp only
          rw [if_pos h]
        rw [hred] at hnr ⊢
        exact execList_safe ctx fuel ih cs _ hpl hnr
      · have hred : execCx ctx (fuel + 1) (Cx.ifConv u k cs) E =
            ({ E with
                fieldVals :=
                  dictSet E.fieldVals u
                    ((ctx.convs.getD k fun _ => Value.vNone) E.fragment) },
             Res.fall) := by
          unfold execCx
          dsimp only
          rw [if_neg h]
        rw [hred]
    | setFragField name => rfl
    | setFragPath idx => rfl
    | setFragRemaining idx => rfl
    | varFromMatch u => rfl
    | varFromPrefetched u => rfl
    | prefetchGroups => rfl
    | retNone => rfl
    | retVal i => rfl
    | setParamPath name idx => exact (hpc : False).elim
    | setParamVal name u => exact (hpc : False).elim
    | setParamsDict fromGroups u => exact (hpc : False).elim

/-- The child generator emits a block in which every params write reaches a
return, from any all-assignment stack. -/
def HRecSafe
    (rec : List RNode → GenState → List Cx → Nat → Bool →
      List Cx × GenState) : Prop :=
  ∀ nodes st stack level fast,
    StackAssign stack → PL (rec nodes st stack level fast).1

/-- The converter unrolling keeps the stack all-assignment and wraps
safe bodies safely. -/
lemma genConversion_safe (cm : ConvMap) :
    ∀ (vcm : List (List Char × List Char × Option (List Char)))
      (st : GenState) (stack : List Cx), StackAssign stack →
      StackAssign (genConversion cm vcm st stack).2.2 ∧
      (∀ inner, PL inner → PL ((genConversion cm vcm st stack).1 inner)) := by
  intro vcm
  induction vcm with
  | nil => intro st stack h; exact ⟨h, fun inner hi => hi⟩
  | cons fca rest ih =>
    rcases fca with ⟨f, c, a⟩
    intro st stack h
    rw [genConversion_cons]
    dsimp only
    have h1 : StackAssign (stack ++ [Cx.setParamVal f (stack.length + 1)]) := by
      intro d hd
      rcases List.mem_append.mp hd with hd2 | hd2
      · exact h d hd2
      · simp only [List.mem_cons, List.not_mem_nil, or_false] at hd2
        subst hd2
        rfl
    obtain ⟨h2, h3⟩ := ih { st with convs := st.convs ++ [instConv cm c a] }
      (stack ++ [Cx.setParamVal f (stack.length + 1)]) h1
    refine ⟨h2, ?_⟩
    intro inner hi
    exact Or.inl ⟨trivial, Or.inl ⟨h3 inner hi, trivial⟩⟩

/-- The trailing stage of `genNodeF` is safe: its tail is either empty, a
`retNone`, or a flushed stack ending in `retVal`. -/
lemma stage2_safe
    {rec : List RNode → GenState → List Cx → Nat → Bool → List Cx × GenState}
    (hrec : HRecSafe rec) (a : RNode)
    (wrap : List Cx → List Cx) (stack2 : List Cx) (cMulti : Bool)
    (stA : GenState) (level : Nat) (fast : Bool)
    (hwrap : ∀ body, PL body → PL (wrap body))
    (hsg : StackAssign stack2) :
    PL
      ((let (retIdx, st2) : Option Nat × GenState :=
          match a.resource with
          | some _ => (some stA.returnValues.length,
                       { stA with returnValues := stA.returnValues ++ [a] })
          | none => (none, stA)
        let (childCs, st3) := rec a.children st2 stack2 (level + 1) fast
        let tailCs : List Cx :=
          match retIdx with
          | none => if fast then [Cx.retNone] else []
          | some i =>
            if cMulti then stack2 ++ [Cx.retVal i]
            else
              Cx.ifPathLen false (level + 1) (stack2 ++ [Cx.retVal i]) ::
                (if fast then [Cx.retNone] else [])
        (wrap (childCs ++ tailCs), st3) : List Cx × GenState)).1 := by
  cases hra : a.resource with
  | none =>
    dsimp only
    refine hwrap _ (pl_append ?_ (hrec a.children stA stack2 (level + 1)
      fast hsg))
    cases fast
    · exact trivial
    · exact Or.inl ⟨trivial, trivial⟩
  | some ra =>
    dsimp only
    refine hwrap _ (pl_append ?_ (hrec a.children _ stack2 (level + 1)
      fast hsg))
    cases cMulti
    · refine Or.inl ⟨pl_stack hsg stA.returnValues.length, ?_⟩
      cases fast
      · exact trivial
      · exact Or.inl ⟨trivial, trivial⟩
    · exact pl_stack hsg _

/-- Every per-node program block is safe. -/
lemma genNodeF_safe (cm : ConvMap)
    {rec : List RNode → GenState → List Cx → Nat → Bool → List Cx × GenState}
    (hrec : HRecSafe rec) :
    ∀ (node : RNode) (st : GenState) (stack : List Cx) (level : Nat)
      (fast : Bool), StackAssign stack →
      PL (genNodeF rec cm node st stack level fast).1 := by
  intro a st stack level fast hsg
  have hext : ∀ (c : Cx), isAssign c = true →
      StackAssign (stack ++ [c]) := by
    intro c hca d hd
    rcases List.mem_append.mp hd with hd2 | hd2
    · exact hsg d hd2
    · simp only [List.mem_cons, List.not_mem_nil, or_false] at hd2
      subst hd2
      exact hca
  unfold genNodeF
  by_cases hv : a.is_var = true
  · rw [if_pos hv]
    by_cases hcx : a.is_complex = true
    · rw [if_pos hcx]
      cases hvc : a.var_converter_map with
      | nil =>
        have hnil : ¬ (([] : List (List Char × List Char × Option (List Char)))
            ≠ []) := fun h => h rfl
        rw [if_neg hnil]
        dsimp only
        refine stage2_safe hrec a
          (fun inner => [Cx.ifSegPat level st.patterns.length
            (Cx.varFromMatch (stack.length + 1) :: inner)])
          (stack ++ [Cx.setParamsDict false (stack.length + 1)]) false
          ⟨st.returnValues, st.patterns ++ [a.var_pattern.getD []], st.convs⟩
          level fast ?_ (hext _ rfl)
        intro body hb
        exact Or.inl ⟨Or.inl ⟨trivial, hb⟩, trivial⟩
      | cons fca tl =>
        have hcne : (fca :: tl) ≠
            ([] : List (List Char × List Char × Option (List Char))) := by simp
        rw [if_pos hcne]
        obtain ⟨hS, hW⟩ := genConversion_safe cm (fca :: tl)
          ⟨st.returnValues, st.patterns ++ [a.var_pattern.getD []], st.convs⟩
          stack hsg
        rcases hg : genConversion cm (fca :: tl)
          ⟨st.returnValues, st.patterns ++ [a.var_pattern.getD []], st.convs⟩
          stack with ⟨w2, stg2, stk2⟩
        rw [hg] at hS hW
        dsimp only at hS hW
        dsimp only
        refine stage2_safe hrec a
          (fun inner => [Cx.ifSegPat level st.patterns.length
            (Cx.prefetchGroups :: w2
              ((if a.num_fields > (fca :: tl).length then
                  ([Cx.varFromPrefetched (stk2.length + 1)],
                   stk2 ++ [Cx.setParamsDict true (stk2.length + 1)])
                else ([], stk2)).1 ++ inner))])
          ((if a.num_fields > (fca :: tl).length then
              ([Cx.varFromPrefetched (stk2.length + 1)],
               stk2 ++ [Cx.setParamsDict true (stk2.length + 1)])
            else ([], stk2)).2) false
          stg2 level fast ?_ ?_
        · intro body hb
          refine Or.inl ⟨Or.inl ⟨trivial, hW _ (pl_append hb ?_)⟩, trivial⟩
          split
          · exact Or.inl ⟨trivial, trivial⟩
          · exact trivial
        · split
          · intro d hd
            rcases List.mem_append.mp hd with hd2 | hd2
            · exact hS d hd2
            · simp only [List.mem_cons, List.not_mem_nil, or_false] at hd2
              subst hd2
              rfl
          · exact hS
    · rw [if_neg hcx]
      cases hvc : a.var_converter_map with
      | nil =>
        dsimp only
        refine stage2_safe hrec a id
          (stack ++ [Cx.setParamPath (a.var_name.getD []) level]) false
          st level fast ?_ (hext _ rfl)
        intro body hb
        exact hb
      | cons fca tl =>
        rcases fca with ⟨f0, cn, ar⟩
        dsimp only
        refine stage2_safe hrec a
          (fun inner => [if ((lookupA cm cn).getD defaultConvClass).multi = true
              then Cx.setFragRemaining level else Cx.setFragPath level,
            Cx.ifConv (stack.length + 1) st.convs.length inner])
          (stack ++ [Cx.setParamVal (a.var_name.getD []) (stack.length + 1)])
          ((lookupA cm cn).getD defaultConvClass).multi
          ⟨st.returnValues, st.patterns, st.convs ++
            [(((lookupA cm cn).getD defaultConvClass).instantiate ar).getD
              fun _ => Value.vNone]⟩
          level fast ?_ (hext _ rfl)
        intro body hb
        refine Or.inl ⟨?_, Or.inl ⟨hb, trivial⟩⟩
        split
        · exact trivial
        · exact trivial
  · rw [if_neg hv]
    dsimp only
    refine stage2_safe hrec a
      (fun inner => [Cx.ifSegLit level a.raw_segment inner]) stack false
      st level fast ?_ hsg
    intro body hb
    exact Or.inl ⟨hb, trivial⟩

/-- The sibling loop emits a safe program. -/
lemma genSeqF_safe (cm : ConvMap)
    {rec : List RNode → GenState → List Cx → Nat → Bool → List Cx × GenState}
    (hrec : HRecSafe rec) :
    ∀ (l : List RNode) (st : GenState) (stack : List Cx) (level : Nat)
      (fast : Bool), StackAssign stack →
      PL (genSeqF rec cm l st stack level fast).1 := by
  intro l
  induction l with
  | nil => intro st stack level fast _; exact trivial
  | cons node tl ih =>
    intro st stack level fast hsg
    rw [genSeqF_cons]
    exact pl_append (ih _ stack level fast hsg)
      (genNodeF_safe cm hrec node st stack level fast hsg)

/-- `_generate_ast` emits a safe program. -/
lemma genNodes_safe (cm : ConvMap) :
    ∀ fuel : Nat, HRecSafe (genNodes cm fuel) := by
  intro fuel
  induction fuel with
  | zero => intro nodes st stack level fast _; exact trivial
  | succ fuel ih =>
    intro nodes st stack level fast hsg
    cases nodes with
    | nil => exact trivial
    | cons node restN =>
      rw [genNodes_succ]
      refine Or.inl ⟨?_, trivial⟩
      show PL _
      refine pl_append ?_ (genSeqF_safe cm ih (sortNodes (node :: restN)) st
        stack level _ hsg)
      split <;> split <;> first
        | exact Or.inl ⟨trivial, trivial⟩
        | exact trivial

mutual

/-- Every `retVal` index in the construct is below `N` (validity against a
return-value table of length `N`). -/
def RetOkC (N : Nat) : Cx → Prop
  | .ifPathLen _ _ cs => RetOkL N cs
  | .ifSegLit _ _ cs => RetOkL N cs
  | .ifSegPat _ _ cs => RetOkL N cs
  | .ifConv _ _ cs => RetOkL N cs
  | .retVal i => i < N
  | _ => True

def RetOkL (N : Nat) : List Cx → Prop
  | [] => True
  | c :: cs => RetOkC N c ∧ RetOkL N cs

end

mutual

theorem retOkC_mono {N M : Nat} (h : N ≤ M) :
    ∀ c : Cx, RetOkC N c → RetOkC M c
  | .ifPathLen _ _ cs => fun hc => retOkL_mono h cs hc
  | .ifSegLit _ _ cs => fun hc => retOkL_mono h cs hc
  | .ifSegPat _ _ cs => fun hc => retOkL_mono h cs hc
  | .ifConv _ _ cs => fun hc => retOkL_mono h cs hc
  | .retVal i => fun hc => Nat.lt_of_lt_of_le hc h
  | .setFragField _ => fun _ => trivial
  | .setFragPath _ => fun _ => trivial
  | .setFragRemaining _ => fun _ => trivial
  | .varFromMatch _ => fun _ => trivial
  | .varFromPrefetched _ => fun _ => trivial
  | .prefetchGroups => fun _ => trivial
  | .retNone => fun _ => trivial
  | .setParamPath _ _ => fun _ => trivial
  | .setParamVal _ _ => fun _ => trivial
  | .setParamsDict _ _ => fun _ => trivial

theorem retOkL_mono {N M : Nat} (h : N ≤ M) :
    ∀ l : List Cx, RetOkL N l → RetOkL M l
  | [] => fun _ => trivial
  | c :: cs => fun hc =>
    ⟨retOkC_mono h c hc.1, retOkL_mono h cs hc.2⟩

end

lemma retOkL_append {N : Nat} {b : List Cx} (hb : RetOkL N b) :
    ∀ {a : List Cx}, RetOkL N a → RetOkL N (a ++ b) := by
  intro a
  induction a with
  | nil => intro _; exact hb
  | cons c tl ih => intro h; exact ⟨h.1, ih h.2⟩

lemma retOkC_of_assign {N : Nat} {c : Cx} (h : isAssign c = true) :
    RetOkC N c := by
  cases c <;> first | trivial | exact nomatch h

lemma retOkL_stack {N : Nat} {stack : List Cx} (h : StackAssign stack) :
    RetOkL N stack := by
  induction stack with
  | nil => trivial
  | cons c tl ih =>
    exact ⟨retOkC_of_assign (h c (by simp)),
      ih (fun d hd => h d (by simp [hd]))⟩

/-- The child generator only grows the return-value table and emits `retVal`
indices valid for the final table. -/
def HRecRet
    (rec : List RNode → GenState → List Cx → Nat → Bool →
      List Cx × GenState) : Prop :=
  ∀ nodes st stack level fast, StackAssign stack →
    st.returnValues.length ≤
      (rec nodes st stack level fast).2.returnValues.length ∧
    RetOkL ((rec nodes st stack level fast).2.returnValues.length)
      (rec nodes st stack level fast).1

/-- The converter unrolling never touches the return-value table. -/
lemma genConversion_rv (cm : ConvMap) :
    ∀ (vcm : List (List Char × List Char × Option (List Char)))
      (st : GenState) (stack : List Cx),
      (genConversion cm vcm st stack).2.1.returnValues = st.returnValues := by
  intro vcm
  induction vcm with
  | nil => intro st stack; rfl
  | cons fca rest ih =>
    rcases fca with ⟨f, c, a⟩
    intro st stack
    rw [genConversion_cons]
    dsimp only
    exact ih _ _

/-- The converter wrapper introduces no `retVal`. -/
lemma genConversion_retOk (cm : ConvMap) :
    ∀ (vcm : List (List Char × List Char × Option (List Char)))
      (st : GenState) (stack : List Cx) (N : Nat) (inner : List Cx),
      RetOkL N inner → RetOkL N ((genConversion cm vcm st stack).1 inner) := by
  intro vcm
  induction vcm with
  | nil => intro st stack N inner hi; exact hi
  | cons fca rest ih =>
    rcases fca with ⟨f, c, a⟩
    intro st stack N inner hi
    rw [genConversion_cons]
    dsimp only
    exact ⟨trivial, ih _ _ N inner hi, trivial⟩

/-- The trailing stage of `genNodeF` grows the table and emits valid
indices. -/
lemma stage2_ret
    {rec : List RNode → GenState → List Cx → Nat → Bool → List Cx × GenState}
    (hrec : HRecRet rec) (a : RNode)
    (wrap : List Cx → List Cx) (stack2 : List Cx) (cMulti : Bool)
    (stA : GenState) (level : Nat) (fast : Bool)
    (hwrap : ∀ (N : Nat) (body : List Cx), RetOkL N body →
      RetOkL N (wrap body))
    (hsg : StackAssign stack2) :
    stA.returnValues.length ≤
      ((let (retIdx, st2) : Option Nat × GenState :=
          match a.resource with
          | some _ => (some stA.returnValues.length,
                       { stA with returnValues := stA.returnValues ++ [a] })
          | none => (none, stA)
        let (childCs, st3) := rec a.children st2 stack2 (level + 1) fast
        let tailCs : List Cx :=
          match retIdx with
          | none => if fast then [Cx.retNone] else []
          | some i =>
            if cMulti then stack2 ++ [Cx.retVal i]
            else
              Cx.ifPathLen false (level + 1) (stack2 ++ [Cx.retVal i]) ::
                (if fast then [Cx.retNone] else [])
        (wrap (childCs ++ tailCs), st3) : List Cx × GenState)).2.returnValues.length ∧
    RetOkL
      ((let (retIdx, st2) : Option Nat × GenState :=
          match a.resource with
          | some _ => (some stA.returnValues.length,
                       { stA with returnValues := stA.returnValues ++ [a] })
          | none => (none, stA)
        let (childCs, st3) := rec a.children st2 stack2 (level + 1) fast
        let tailCs : List Cx :=
          match retIdx with
          | none => if fast then [Cx.retNone] else []
          | some i =>
            if cMulti then stack2 ++ [Cx.retVal i]
            else
              Cx.ifPathLen false (level + 1) (stack2 ++ [Cx.retVal i]) ::
                (if fast then [Cx.retNone] else [])
        (wrap (childCs ++ tailCs), st3) : List Cx × GenState)).2.returnValues.length
      ((let (retIdx, st2) : Option Nat × GenState :=
          match a.resource with
          | some _ => (some stA.returnValues.length,
                       { stA with returnValues := stA.returnValues ++ [a] })
          | none => (none, stA)
        let (childCs, st3) := rec a.children st2 stack2 (level + 1) fast
        let tailCs : List Cx :=
          match retIdx with
          | none => if fast then [Cx.retNone] else []
          | some i =>
            if cMulti then stack2 ++ [Cx.retVal i]
            else
              Cx.ifPathLen false (level + 1) (stack2 ++ [Cx.retVal i]) ::
                (if fast then [Cx.retNone] else [])
        (wrap (childCs ++ tailCs), st3) : List Cx × GenState)).1 := by
  cases hra : a.resource with
  | none =>
    dsimp only
    obtain ⟨hlen, hok⟩ := hrec a.children stA stack2 (level + 1) fast hsg
    refine ⟨hlen, hwrap _ _ (retOkL_append ?_ hok)⟩
    cases fast
    · exact trivial
    · exact ⟨trivial, trivial⟩
  | some ra =>
    dsimp only
    obtain ⟨hlen, hok⟩ := hrec a.children
      { stA with returnValues := stA.returnValues ++ [a] } stack2
      (level + 1) fast hsg
    have hlen2 : stA.returnValues.length + 1 ≤
        (rec a.children { stA with returnValues := stA.returnValues ++ [a] }
          stack2 (level + 1) fast).2.returnValues.length := by
      refine le_trans ?_ hlen
      simp
    have hiv : stA.returnValues.length <
        (rec a.children { stA with returnValues := stA.returnValues ++ [a] }
          stack2 (level + 1) fast).2.returnValues.length := hlen2
    have hbv : RetOkL
        ((rec a.children { stA with returnValues := stA.returnValues ++ [a] }
          stack2 (level + 1) fast).2.returnValues.length)
        [Cx.retVal stA.returnValues.length] := ⟨hiv, trivial⟩
    refine ⟨le_trans (Nat.le_succ _) hlen2, hwrap _ _ (retOkL_append ?_ hok)⟩
    cases cMulti
    · refine ⟨retOkL_append hbv (retOkL_stack hsg), ?_⟩
      cases fast
      · exact trivial
      · exact ⟨trivial, trivial⟩
    · exact retOkL_append hbv (retOkL_stack hsg)

/-- Every per-node program block has valid return indices. -/
lemma genNodeF_ret (cm : ConvMap)
    {rec : List RNode → GenState → List Cx → Nat → Bool → List Cx × GenState}
    (hrec : HRecRet rec) :
    ∀ (node : RNode) (st : GenState) (stack : List Cx) (level : Nat)
      (fast : Bool), StackAssign stack →
      st.returnValues.length ≤
        (genNodeF rec cm node st stack level fast).2.returnValues.length ∧
      RetOkL ((genNodeF rec cm node st stack level fast).2.returnValues.length)
        (genNodeF rec cm node st stack level fast).1 := by
  intro a st stack level fast hsg
  have hext : ∀ (c : Cx), isAssign c = true →
      StackAssign (stack ++ [c]) := by
    intro c hca d hd
    rcases List.mem_append.mp hd with hd2 | hd2
    · exact hsg d hd2
    · simp only [List.mem_cons, List.not_mem_nil, or_false] at hd2
      subst hd2
      exact hca
  unfold genNodeF
  by_cases hv : a.is_var = true
  · rw [if_pos hv]
    by_cases hcx : a.is_complex = true
    · rw [if_pos hcx]
      cases hvc : a.var_converter_map with
      | nil =>
        have hnil : ¬ (([] : List (List Char × List Char × Option (List Char)))
            ≠ []) := fun h => h rfl
        rw [if_neg hnil]
        dsimp only
        refine stage2_ret hrec a
          (fun inner => [Cx.ifSegPat level st.patterns.length
            (Cx.varFromMatch (stack.length + 1) :: inner)])
          (stack ++ [Cx.setParamsDict false (stack.length + 1)]) false
          ⟨st.returnValues, st.patterns ++ [a.var_pattern.getD []], st.convs⟩
          level fast ?_ (hext _ rfl)
        intro N body hb
        exact ⟨⟨trivial, hb⟩, trivial⟩
      | cons fca tl =>
        have hcne : (fca :: tl) ≠
            ([] : List (List Char × List Char × Option (List Char))) := by simp
        rw [if_pos hcne]
        have hWr := genConversion_retOk cm (fca :: tl)
          ⟨st.returnValues, st.patterns ++ [a.var_pattern.getD []], st.convs⟩
          stack
        obtain ⟨hS, hW⟩ := genConversion_safe cm (fca :: tl)
          ⟨st.returnValues, st.patterns ++ [a.var_pattern.getD []], st.convs⟩
          stack hsg
        have hrv0 := genConversion_rv cm (fca :: tl)
          ⟨st.returnValues, st.patterns ++ [a.var_pattern.getD []], st.convs⟩
          stack
        rcases hg : genConversion cm (fca :: tl)
          ⟨st.returnValues, st.patterns ++ [a.var_pattern.getD []], st.convs⟩
          stack with ⟨w2, stg2, stk2⟩
        rw [hg] at hS hWr hrv0
        dsimp only at hS hWr hrv0
        dsimp only
        rw [show st.returnValues = stg2.returnValues from hrv0.symm]
        refine stage2_ret hrec a
          (fun inner => [Cx.ifSegPat level st.patterns.length
            (Cx.prefetchGroups :: w2
              ((if a.num_fields > (fca :: tl).length then
                  ([Cx.varFromPrefetched (stk2.length + 1)],
                   stk2 ++ [Cx.setParamsDict true (stk2.length + 1)])
                else ([], stk2)).1 ++ inner))])
          ((if a.num_fields > (fca :: tl).length then
              ([Cx.varFromPrefetched (stk2.length + 1)],
               stk2 ++ [Cx.setParamsDict true (stk2.length + 1)])
            else ([], stk2)).2) false
          stg2 level fast ?_ ?_
        · intro N body hb
          refine ⟨⟨trivial, hWr N _ (retOkL_append hb ?_)⟩, trivial⟩
          split
          · exact ⟨trivial, trivial⟩
          · exact trivial
        · split
          · intro d hd
            rcases List.mem_append.mp hd with hd2 | hd2
            · exact hS d hd2
            · simp only [List.mem_cons, List.not_mem_nil, or_false] at hd2
              subst hd2
              rfl
          · exact hS
    · rw [if_neg hcx]
      cases hvc : a.var_converter_map with
      | nil =>
        dsimp only
        refine stage2_ret hrec a id
          (stack ++ [Cx.setParamPath (a.var_name.getD []) level]) false
          st level fast ?_ (hext _ rfl)
        intro N body hb
        exact hb
      | cons fca tl =>
        rcases fca with ⟨f0, cn, ar⟩
        dsimp only
        refine stage2_ret hrec a
          (fun inner => [if ((lookupA cm cn).getD defaultConvClass).multi = true
              then Cx.setFragRemaining level else Cx.setFragPath level,
            Cx.ifConv (stack.length + 1) st.convs.length inner])
          (stack ++ [Cx.setParamVal (a.var_name.getD []) (stack.length + 1)])
          ((lookupA cm cn).getD defaultConvClass).multi
          ⟨st.returnValues, st.patterns, st.convs ++
            [(((lookupA cm cn).getD defaultConvClass).instantiate ar).getD
              fun _ => Value.vNone]⟩
          level fast ?_ (hext _ rfl)
        intro N body hb
        refine ⟨?_, hb, trivial⟩
        split
        · exact trivial
        · exact trivial
  · rw [if_neg hv]
    dsimp only
    refine stage2_ret hrec a
      (fun inner => [Cx.ifSegLit level a.raw_segment inner]) stack false
      st level fast ?_ hsg
    intro N body hb
    exact ⟨hb, trivial⟩

/-- The sibling loop only grows the table and emits valid indices. -/
lemma genSeqF_ret (cm : ConvMap)
    {rec : List RNode → GenState → List Cx → Nat → Bool → List Cx × GenState}
    (hrec : HRecRet rec) :
    ∀ (l : List RNode) (st : GenState) (stack : List Cx) (level : Nat)
      (fast : Bool), StackAssign stack →
      st.returnValues.length ≤
        (genSeqF rec cm l st stack level fast).2.returnValues.length ∧
      RetOkL ((genSeqF rec cm l st stack level fast).2.returnValues.length)
        (genSeqF rec cm l st stack level fast).1 := by
  intro l
  induction l with
  | nil => intro st stack level fast _; exact ⟨le_refl _, trivial⟩
  | cons node tl ih =>
    intro st stack level fast hsg
    rw [genSeqF_cons]
    dsimp only
    obtain ⟨h1, h2⟩ := genNodeF_ret cm hrec node st stack level fast hsg
    obtain ⟨h3, h4⟩ := ih (genNodeF rec cm node st stack level fast).2
      stack level fast hsg
    exact ⟨le_trans h1 h3, retOkL_append h4 (retOkL_mono h3 _ h2)⟩

/-- `_generate_ast` only grows the table and emits valid indices. -/
lemma genNodes_ret (cm : ConvMap) :
    ∀ fuel : Nat, HRecRet (genNodes cm fuel) := by
  intro fuel
  induction fuel with
  | zero => intro nodes st stack level fast _; exact ⟨le_refl _, trivial⟩
  | succ fuel ih =>
    intro nodes st stack level fast hsg
    cases nodes with
    | nil => exact ⟨le_refl _, trivial⟩
    | cons node restN =>
      rw [genNodes_succ]
      obtain ⟨h1, h2⟩ := genSeqF_ret cm ih (sortNodes (node :: restN)) st
        stack level
        (if fast && (node :: restN).length > 1
          then !((node :: restN).any RNode.is_var) else fast) hsg
      refine ⟨h1, ?_, trivial⟩
      show RetOkL _ _
      refine retOkL_append ?_ h2
      split <;> split <;> first
        | exact ⟨trivial, trivial⟩
        | exact trivial

/-- A block with valid `retVal` indices can only return a valid index. -/
lemma execList_ret (ctx : Ctx) (fuel : Nat) (N : Nat)
    (hc : ∀ (c : Cx) (E : Env) (i : Nat), RetOkC N c →
      (execCx ctx fuel c E).2 = Res.ret (some i) → i < N) :
    ∀ (cs : List Cx) (E : Env) (i : Nat), RetOkL N cs →
      (execListF (execCx ctx fuel) cs E).2 = Res.ret (some i) → i < N := by
  intro cs
  induction cs with
  | nil => intro E i _ h; exact nomatch h
  | cons c tl ih =>
    intro E i hok h
    have h2 : (match execCx ctx fuel c E with
        | (E2, Res.fall) => execListF (execCx ctx fuel) tl E2
        | r => r).2 = Res.ret (some i) := h
    rcases hex : execCx ctx fuel c E with ⟨E2, r⟩
    rw [hex] at h2
    cases r with
    | fall =>
      dsimp only at h2
      exact ih E2 i hok.2 h2
    | ret v =>
      dsimp only at h2
      have h3 : (execCx ctx fuel c E).2 = Res.ret (some i) := by
        rw [hex]
        exact h2
      exact hc c E i hok.1 h3

/-- A construct with valid `retVal` indices can only return a valid index. -/
lemma execCx_ret (ctx : Ctx) (N : Nat) :
    ∀ (fuel : Nat) (c : Cx) (E : Env) (i : Nat), RetOkC N c →
      (execCx ctx fuel c E).2 = Res.ret (some i) → i < N := by
  intro fuel
  induction fuel with
  | zero => intro c E i _ h; exact nomatch h
  | succ fuel ih =>
    intro c E i hok h
    cases c with
    | ifPathLen gt n cs =>
      have hpl : RetOkL N cs := hok
      by_cases hcond : (if gt = true then n < ctx.path.length
          else ctx.path.length = n)
      · have hred : execCx ctx (fuel + 1) (Cx.ifPathLen gt n cs) E =
            execListF (execCx ctx fuel) cs E := by
          unfold execCx
          dsimp only
          rw [if_pos hcond]
        rw [hred] at h
        exact execList_ret ctx fuel N ih cs E i hpl h
      · have hred : execCx ctx (fuel + 1) (Cx.ifPathLen gt n cs) E =
            (E, Res.fall) := by
          unfold execCx
          dsimp only
          rw [if_neg hcond]
        rw [hred] at h
        exact nomatch h
    | ifSegLit idx lit cs =>
      have hpl : RetOkL N cs := hok
      by_cases hcond : (ctx.path.getD idx []) = lit
      · have hred : execCx ctx (fuel + 1) (Cx.ifSegLit idx lit cs) E =
            execListF (execCx ctx fuel) cs E := by
          unfold execCx
          dsimp only
          rw [if_pos hcond]
        rw [hred] at h
        exact execList_ret ctx fuel N ih cs E i hpl h
      · have hred : execCx ctx (fuel + 1) (Cx.ifSegLit idx lit cs) E =
            (E, Res.fall) := by
          unfold execCx
          dsimp only
          rw [if_neg hcond]
        rw [hred] at h
        exact nomatch h
    | ifSegPat idx pidx cs =>
      have hpl : RetOkL N cs := hok
      cases hm : patMatch (ctx.patterns.getD pidx []) (ctx.path.getD idx [])
        with
      | some gd =>
        have hred : execCx ctx (fuel + 1) (Cx.ifSegPat idx pidx cs) E =
            execListF (execCx ctx fuel) cs { E with matchd := some gd } := by
          unfold execCx
          dsimp only
          rw [hm]
        rw [hred] at h
        exact execList_ret ctx fuel N ih cs { E with matchd := some gd } i
          hpl h
      | none =>
        have hred : execCx ctx (fuel + 1) (Cx.ifSegPat idx pidx cs) E =
            ({ E with matchd := none }, Res.fall) := by
          unfold execCx
          dsimp only
          rw [hm]
        rw [hred] at h
        exact nomatch h
    | ifConv u k cs =>
      have hpl : RetOkL N cs := hok
      by_cases hcond : (ctx.convs.getD k fun _ => Value.vNone) E.fragment
          ≠ Value.vNone
      · have hred : execCx ctx (fuel + 1) (Cx.ifConv u k cs) E =
            execListF (execCx ctx fuel) cs
              { E with
                fieldVals :=
                  dictSet E.fieldVals u
                    ((ctx.convs.getD k fun _ => Value.vNone) E.fragment) } := by
          unfold execCx
          dsimp only
          rw [if_pos hcond]
        rw [hred] at h
        exact execList_ret ctx fuel N ih cs _ i hpl h
      · have hred : execCx ctx (fuel + 1) (Cx.ifConv u k cs) E =
            ({ E with
                fieldVals :=
                  dictSet E.fieldVals u
                    ((ctx.convs.getD k fun _ => Value.vNone) E.fragment) },
             Res.fall) := by
          unfold execCx
          dsimp only
          rw [if_neg hcond]
        rw [hred] at h
        exact nomatch h
    | setFragField name => exact nomatch h
    | setFragPath idx => exact nomatch h
    | setFragRemaining idx => exact nomatch h
    | varFromMatch u => exact nomatch h
    | varFromPrefetched u => exact nomatch h
    | prefetchGroups => exact nomatch h
    | retNone => exact nomatch h
    | retVal i0 =>
      have h1 : Res.ret (some i0) = Res.ret (some i) := h
      injection h1 with h2
      injection h2 with h3
      exact h3 ▸ hok
    | setParamPath name idx => exact nomatch h
    | setParamVal name u => exact nomatch h
    | setParamsDict fromGroups u => exact nomatch h

/-- C10: during matching, a field guarded by a converter enters its branch
iff the converter's result on the fragment is not `None`: a `None` result
falls through exactly like a rejection (leaving the params dict untouched),
and consequently no parameter in any record returned by `find` - in
particular none bound through a converter - ever has the value `None`. -/
theorem claim_C10 :
    (∀ (ctx : Ctx) (fuel u k : Nat) (cs : List Cx) (E : Env),
      (ctx.convs.getD k fun _ => Value.vNone) E.fragment = Value.vNone →
        execCx ctx (fuel + 1) (Cx.ifConv u k cs) E =
          ({ E with fieldVals := dictSet E.fieldVals u Value.vNone },
           Res.fall)) ∧
    (∀ (ctx : Ctx) (fuel u k : Nat) (cs : List Cx) (E : Env),
      ¬ (ctx.convs.getD k fun _ => Value.vNone) E.fragment = Value.vNone →
        execCx ctx (fuel + 1) (Cx.ifConv u k cs) E =
          execListF (execCx ctx fuel) cs
            { E with
              fieldVals :=
                dictSet E.fieldVals u
                  ((ctx.convs.getD k fun _ => Value.vNone) E.fragment) }) ∧
    (∀ (r : Router) (uri : List Char) (rec : MatchRecord) (f : List Char)
       (v : Value),
      findModel r uri = some rec → lookupA rec.params f = some v →
      ¬ v = Value.vNone) := by
  refine ⟨?_, ?_, ?_⟩
  · intro ctx fuel u k cs E h
    unfold execCx
    dsimp only
    rw [h, if_neg (fun hne : Value.vNone ≠ Value.vNone => hne rfl)]
  · intro ctx fuel u k cs E h
    unfold execCx
    dsimp only
    rw [if_pos h]
  · intro r uri rec f v hfind hlook
    exact findModel_pdict r uri rec hfind f v hlook

/-- Concrete instance of C10: an empty converter table yields `None` for the
guarded field, so the construct falls through; the `int` converter on the
fragment `'5'` yields `5 ≠ None`, so the branch is entered; and on the
router of `/\x7bn:int\x7d`, `find('/5')` binds `n` to the integer `5`,
which is not `None`. -/
theorem claim_C10_witness :
    (((⟨[], [], []⟩ : Ctx).convs.getD 0 fun _ => Value.vNone)
        Env.init.fragment = Value.vNone ∧
      execCx ⟨[], [], []⟩ 1 (Cx.ifConv 0 0 []) Env.init =
        ({ Env.init with
            fieldVals := dictSet Env.init.fieldVals 0 Value.vNone },
         Res.fall)) ∧
    (¬ ((⟨[], [], [instConv exampleCM "int".data none]⟩ : Ctx).convs.getD 0
          fun _ => Value.vNone)
        { Env.init with fragment := Value.vStr "5".data }.fragment
          = Value.vNone ∧
      execCx ⟨[], [], [instConv exampleCM "int".data none]⟩ 1
          (Cx.ifConv 0 0 [])
          { Env.init with fragment := Value.vStr "5".data } =
        execListF (execCx ⟨[], [], [instConv exampleCM "int".data none]⟩ 0)
          []
          { Env.init with
            fragment := Value.vStr "5".data,
            fieldVals :=
              dictSet Env.init.fieldVals 0
                (((⟨[], [], [instConv exampleCM "int".data none]⟩ :
                    Ctx).convs.getD 0 fun _ => Value.vNone)
                  (Value.vStr "5".data)) }) ∧
    (findModel
        (addRoute (⟨[], exampleCM⟩ : Router) "/\x7bn:int\x7d".data 0 0).1
        "/5".data =
      some ⟨some 0, 0, [("n".data, Value.vNat 5)],
        some "/\x7bn:int\x7d".data⟩ ∧
      lookupA [("n".data, Value.vNat 5)] "n".data = some (Value.vNat 5) ∧
      ¬ Value.vNat 5 = Value.vNone) :=
  ⟨⟨by decide, claim_C10.1 ⟨[], [], []⟩ 0 0 0 [] Env.init (by decide)⟩,
   ⟨by decide, claim_C10.2.1 ⟨[], [], [instConv exampleCM "int".data none]⟩
      0 0 0 [] { Env.init with fragment := Value.vStr "5".data } (by decide)⟩,
   by decide,
   by decide,
   claim_C10.2.2
     (addRoute (⟨[], exampleCM⟩ : Router) "/\x7bn:int\x7d".data 0 0).1
     "/5".data
     ⟨some 0, 0, [("n".data, Value.vNat 5)], some "/\x7bn:int\x7d".data⟩
     "n".data (Value.vNat 5) (by decide) (by decide)⟩

/-- C3: the params dict is written only on a branch that reaches a
`ReturnMatch`: if the generated program's execution does not return a match,
the params dict is exactly the one it started with; in particular a `find`
that returns `None` leaves the params dict empty. -/
theorem claim_C3 :
    ∀ (r : Router) (uri : List Char),
      (∀ (E0 E : Env) (res : Res),
        execProgram ⟨splitSlash (uri.dropWhile (· = '/')),
            (compileRouter r).2.patterns, (compileRouter r).2.convs⟩
          (compileRouter r).1 E0 = (E, res) →
        (∀ i, res ≠ Res.ret (some i)) → E.params = E0.params) ∧
      (findModel r uri = none →
        (execProgram ⟨splitSlash (uri.dropWhile (· = '/')),
            (compileRouter r).2.patterns, (compileRouter r).2.convs⟩
          (compileRouter r).1 Env.init).1.params = []) := by
  intro r uri
  have hsafe : PL (compileRouter r).1 :=
    genNodes_safe r.converterMap (sizeForest r.roots) r.roots ⟨[], [], []⟩
      [] 0 true (fun c hc => absurd hc (List.not_mem_nil c))
  have hpres : ∀ E0 : Env,
      (∀ i, (execProgram ⟨splitSlash (uri.dropWhile (· = '/')),
          (compileRouter r).2.patterns, (compileRouter r).2.convs⟩
        (compileRouter r).1 E0).2 ≠ Res.ret (some i)) →
      (execProgram ⟨splitSlash (uri.dropWhile (· = '/')),
          (compileRouter r).2.patterns, (compileRouter r).2.convs⟩
        (compileRouter r).1 E0).1.params = E0.params := by
    intro E0 hnr
    exact execList_safe
      ⟨splitSlash (uri.dropWhile (· = '/')), (compileRouter r).2.patterns,
        (compileRouter r).2.convs⟩
      (sizeProg (compileRouter r).1)
      (fun c E hpc hnr2 => execCx_safe _ _ c E hpc hnr2)
      (compileRouter r).1 E0 hsafe hnr
  constructor
  · intro E0 E res hep hnr
    have hnr2 : ∀ i, (execProgram ⟨splitSlash (uri.dropWhile (· = '/')),
        (compileRouter r).2.patterns, (compileRouter r).2.convs⟩
      (compileRouter r).1 E0).2 ≠ Res.ret (some i) := by
      intro i hri
      rw [hep] at hri
      exact hnr i hri
    have h2 := hpres E0 hnr2
    rw [hep] at h2
    exact h2
  · intro hnone
    have hret : ∀ i, (execProgram ⟨splitSlash (uri.dropWhile (· = '/')),
        (compileRouter r).2.patterns, (compileRouter r).2.convs⟩
      (compileRouter r).1 Env.init).2 ≠ Res.ret (some i) := by
      intro i hri
      obtain ⟨hlen, hok⟩ := genNodes_ret r.converterMap (sizeForest r.roots)
        r.roots ⟨[], [], []⟩ [] 0 true
        (fun c hc => absurd hc (List.not_mem_nil c))
      have hi : i < (compileRouter r).2.returnValues.length :=
        execList_ret
          ⟨splitSlash (uri.dropWhile (· = '/')), (compileRouter r).2.patterns,
            (compileRouter r).2.convs⟩
          (sizeProg (compileRouter r).1)
          ((compileRouter r).2.returnValues.length)
          (fun c E j hokc hrc => execCx_ret _ _ _ c E j hokc hrc)
          (compileRouter r).1 Env.init i hok hri
      rw [findModel_eq] at hnone
      rcases hep : execProgram ⟨splitSlash (uri.dropWhile (· = '/')),
          (compileRouter r).2.patterns, (compileRouter r).2.convs⟩
        (compileRouter r).1 Env.init with ⟨E, res⟩
      rw [hep] at hnone hri
      have hres : res = Res.ret (some i) := hri
      subst hres
      dsimp only at hnone
      rw [List.get?_eq_get hi] at hnone
      exact nomatch hnone
    exact hpres Env.init hret

/-- Concrete instance of C3: on the router of `/a`, a request for `/b` does
not match; the program execution falls through and the params dict stays
empty. -/
theorem claim_C3_witness :
    findModel (addRoute (⟨[], exampleCM⟩ : Router) "/a".data 0 0).1
        "/b".data = none ∧
    (execProgram ⟨splitSlash (("/b".data).dropWhile (· = '/')),
        (compileRouter
          (addRoute (⟨[], exampleCM⟩ : Router) "/a".data 0 0).1).2.patterns,
        (compileRouter
          (addRoute (⟨[], exampleCM⟩ : Router) "/a".data 0 0).1).2.convs⟩
      (compileRouter (addRoute (⟨[], exampleCM⟩ : Router) "/a".data 0 0).1).1
      Env.init).1.params = [] ∧
    (execProgram ⟨splitSlash (("/b".data).dropWhile (· = '/')),
        (compileRouter
          (addRoute (⟨[], exampleCM⟩ : Router) "/a".data 0 0).1).2.patterns,
        (compileRouter
          (addRoute (⟨[], exampleCM⟩ : Router) "/a".data 0 0).1).2.convs⟩
      (compileRouter (addRoute (⟨[], exampleCM⟩ : Router) "/a".data 0 0).1).1
      Env.init).1.params = Env.init.params :=
  ⟨by decide,
   (claim_C3 (addRoute (⟨[], exampleCM⟩ : Router) "/a".data 0 0).1
     "/b".data).2 (by decide),
   (claim_C3 (addRoute (⟨[], exampleCM⟩ : Router) "/a".data 0 0).1
     "/b".data).1 Env.init _ _ rfl (fun i h => nomatch h)⟩

/-! ## C1: the compiled matcher refines the reference linear search

The development below proves `findModel r uri = refFind r uri` for every
reachable router.  The execution of the generated program is related to the
reference search level by level; the parameter stack is given a denotational
reading (the list of key/value pairs its assignments would write), and the
generated slot indices are shown fresh so that sibling and child executions
never disturb the pairs already denoted. -/

lemma execListF_append (ex : Cx → Env → Env × Res) :
    ∀ (a b : List Cx) (E : Env),
      execListF ex (a ++ b) E =
        (match execListF ex a E with
         | (E2, Res.fall) => execListF ex b E2
         | r => r) := by
  intro a
  induction a with
  | nil => intro b E; rfl
  | cons c tl ih =>
    intro b E
    show (match ex c E with
      | (E2, Res.fall) => execListF ex (tl ++ b) E2
      | r => r) =
      (match (match ex c E with
        | (E2, Res.fall) => execListF ex tl E2
        | r => r) with
       | (E2, Res.fall) => execListF ex b E2
       | r => r)
    rcases hex : ex c E with ⟨E2, r⟩
    cases r with
    | fall =>
      dsimp only
      exact ih b E2
    | ret v => rfl

lemma sizeProg_append : ∀ a b : List Cx,
    sizeProg (a ++ b) = sizeProg a + sizeProg b := by
  intro a
  induction a with
  | nil => intro b; simp [sizeProg]
  | cons c tl ih =>
    intro b
    show Cx.size c + sizeProg (tl ++ b) = Cx.size c + sizeProg tl + sizeProg b
    rw [ih]
    omega

lemma sizeProg_mem {c : Cx} : ∀ {cs : List Cx}, c ∈ cs →
    Cx.size c ≤ sizeProg cs := by
  intro cs
  induction cs with
  | nil => intro h; exact absurd h (List.not_mem_nil c)
  | cons d tl ih =>
    intro h
    rcases List.mem_cons.mp h with rfl | h2
    · show Cx.size c ≤ Cx.size c + sizeProg tl
      omega
    · have := ih h2
      show Cx.size c ≤ Cx.size d + sizeProg tl
      omega

lemma prefix_get? {α : Type} {l1 l2 : List α} (h : l1 <+: l2) {i : Nat}
    (hi : i < l1.length) : l2.get? i = l1.get? i := by
  obtain ⟨t, rfl⟩ := h
  exact List.get?_append hi

lemma prefix_getD {α : Type} [Inhabited α] {l1 l2 : List α} (h : l1 <+: l2)
    {i : Nat} (hi : i < l1.length) : l2.getD i default = l1.getD i default := by
  rw [List.getD_eq_get?, List.getD_eq_get?, prefix_get? h hi]

/-- The key/value pairs an assignment construct writes to the params dict,
read against the current environment. -/
def denote (ctx : Ctx) (E : Env) : Cx → List (List Char × Value)
  | .setParamPath name idx => [(name, .vStr (ctx.path.getD idx []))]
  | .setParamVal name u => [(name, (lookupA E.fieldVals u).getD .vNone)]
  | .setParamsDict fromGroups u =>
    ((lookupA (if fromGroups then E.dictGroups else E.dictMatch) u).getD [] : List (List Char × List Char)).map
      fun kv => (kv.1, Value.vStr kv.2)
  | _ => []

def denoteL (ctx : Ctx) (E : Env) : List Cx → List (List Char × Value)
  | [] => []
  | c :: tl => denote ctx E c ++ denoteL ctx E tl

lemma denoteL_append (ctx : Ctx) (E : Env) :
    ∀ a b : List Cx, denoteL ctx E (a ++ b) = denoteL ctx E a ++ denoteL ctx E b := by
  intro a
  induction a with
  | nil => intro b; rfl
  | cons c tl ih =>
    intro b
    show denote ctx E c ++ denoteL ctx E (tl ++ b) = _
    rw [ih]
    simp [denoteL]

/-- Environments that agree on the read-state of assignments. -/
def DenEq (E E2 : Env) : Prop :=
  E2.fieldVals = E.fieldVals ∧ E2.dictMatch = E.dictMatch ∧
  E2.dictGroups = E.dictGroups

lemma denote_denEq {ctx : Ctx} {E E2 : Env} (h : DenEq E E2) (c : Cx) :
    denote ctx E2 c = denote ctx E c := by
  obtain ⟨h1, h2, h3⟩ := h
  cases c <;> simp [denote, h1, h2, h3]

lemma denoteL_denEq {ctx : Ctx} {E E2 : Env} (h : DenEq E E2) :
    ∀ cs : List Cx, denoteL ctx E2 cs = denoteL ctx E cs := by
  intro cs
  induction cs with
  | nil => rfl
  | cons c tl ih =>
    show denote ctx E2 c ++ denoteL ctx E2 tl = denote ctx E c ++ denoteL ctx E tl
    rw [ih, denote_denEq h]

/-- Fold a pair list into a dict (the effect of running the assignments). -/
def dictFold (p : List (List Char × Value)) (ps : List (List Char × Value)) :
    List (List Char × Value) :=
  ps.foldl (fun p kv => dictSet p kv.1 kv.2) p

lemma dictFold_append (p : List (List Char × Value))
    (a b : List (List Char × Value)) :
    dictFold p (a ++ b) = dictFold (dictFold p a) b := by
  simp [dictFold, List.foldl_append]

/-- Executing an all-assignment stack folds its denoted pairs into `params`
and changes nothing else. -/
lemma exec_flush (ctx : Ctx) (fuel : Nat) :
    ∀ (stack : List Cx) (E : Env), StackAssign stack →
      execListF (execCx ctx (fuel + 1)) stack E =
        ({ E with params := dictFold E.params (denoteL ctx E stack) },
         Res.fall) := by
  intro stack
  induction stack with
  | nil =>
    intro E _
    rfl
  | cons c tl ih =>
    intro E h
    have hc := h c (by simp)
    have htl : StackAssign tl := fun d hd => h d (by simp [hd])
    show (match execCx ctx (fuel + 1) c E with
      | (E2, Res.fall) => execListF (execCx ctx (fuel + 1)) tl E2
      | r => r) = _
    cases c with
    | setParamPath name idx =>
      have hde : DenEq E
          { E with
            params := dictSet E.params name (.vStr (ctx.path.getD idx [])) } :=
        ⟨rfl, rfl, rfl⟩
      have hstep : execCx ctx (fuel + 1) (Cx.setParamPath name idx) E =
          ({ E with
             params := dictSet E.params name (.vStr (ctx.path.getD idx [])) },
           Res.fall) := rfl
      rw [hstep]
      dsimp only
      rw [ih _ htl, denoteL_denEq hde]
      rfl
    | setParamVal name u =>
      have hde : DenEq E
          { E with
            params :=
              dictSet E.params name ((lookupA E.fieldVals u).getD .vNone) } :=
        ⟨rfl, rfl, rfl⟩
      have hstep : execCx ctx (fuel + 1) (Cx.setParamVal name u) E =
          ({ E with
             params :=
               dictSet E.params name ((lookupA E.fieldVals u).getD .vNone) },
           Res.fall) := rfl
      rw [hstep]
      dsimp only
      rw [ih _ htl, denoteL_denEq hde]
      rfl
    | setParamsDict fromGroups u =>
      have hde : DenEq E
          { E with
            params :=
              ((lookupA (if fromGroups then E.dictGroups else E.dictMatch)
                  u).getD [] : List (List Char × List Char)).foldl
                (fun p kv => dictSet p kv.1 (.vStr kv.2)) E.params } :=
        ⟨rfl, rfl, rfl⟩
      have hstep : execCx ctx (fuel + 1) (Cx.setParamsDict fromGroups u) E =
          ({ E with
             params :=
               ((lookupA (if fromGroups then E.dictGroups else E.dictMatch)
                   u).getD [] : List (List Char × List Char)).foldl
                 (fun p kv => dictSet p kv.1 (.vStr kv.2)) E.params },
           Res.fall) := rfl
      rw [hstep]
      dsimp only
      rw [ih _ htl, denoteL_denEq hde]
      show ({ E with
          params :=
            dictFold
              (((lookupA (if fromGroups then E.dictGroups else E.dictMatch)
                  u).getD [] : List (List Char × List Char)).foldl
                (fun (p : List (List Char × Value))
                    (kv : List Char × List Char) =>
                  dictSet p kv.1 (.vStr kv.2)) E.params)
              (denoteL ctx E tl) },
        Res.fall) = _
      rw [show denoteL ctx E (Cx.setParamsDict fromGroups u :: tl) =
        (((lookupA (if fromGroups then E.dictGroups else E.dictMatch) u).getD
          [] : List (List Char × List Char)).map fun kv => (kv.1, Value.vStr kv.2)) ++ denoteL ctx E tl
        from rfl]
      rw [dictFold_append]
      rw [show dictFold E.params
          (((lookupA (if fromGroups then E.dictGroups else E.dictMatch) u).getD
            [] : List (List Char × List Char)).map fun kv => (kv.1, Value.vStr kv.2)) =
        ((lookupA (if fromGroups then E.dictGroups else E.dictMatch) u).getD
          [] : List (List Char × List Char)).foldl (fun p kv => dictSet p kv.1 (.vStr kv.2)) E.params from by
        rw [dictFold, List.foldl_map]]
    | ifPathLen a b cs => exact nomatch hc
    | ifSegLit a b cs => exact nomatch hc
    | ifSegPat a b cs => exact nomatch hc
    | ifConv a b cs => exact nomatch hc
    | setFragField a => exact nomatch hc
    | setFragPath a => exact nomatch hc
    | setFragRemaining a => exact nomatch hc
    | varFromMatch a => exact nomatch hc
    | varFromPrefetched a => exact nomatch hc
    | prefetchGroups => exact nomatch hc
    | retNone => exact nomatch hc
    | retVal a => exact nomatch hc

/-- The two environments agree on all generated-local slots up to `b`. -/
def LowEq (b : Nat) (E E2 : Env) : Prop :=
  (∀ u, u ≤ b → lookupA E2.fieldVals u = lookupA E.fieldVals u) ∧
  (∀ u, u ≤ b → lookupA E2.dictMatch u = lookupA E.dictMatch u) ∧
  (∀ u, u ≤ b → lookupA E2.dictGroups u = lookupA E.dictGroups u)

lemma lowEq_refl (b : Nat) (E : Env) : LowEq b E E :=
  ⟨fun _ _ => rfl, fun _ _ => rfl, fun _ _ => rfl⟩

lemma lowEq_trans {b : Nat} {E1 E2 E3 : Env} (h1 : LowEq b E1 E2)
    (h2 : LowEq b E2 E3) : LowEq b E1 E3 :=
  ⟨fun u hu => (h2.1 u hu).trans (h1.1 u hu),
   fun u hu => (h2.2.1 u hu).trans (h1.2.1 u hu),
   fun u hu => (h2.2.2 u hu).trans (h1.2.2 u hu)⟩

lemma lowEq_of_eq {b : Nat} {E E2 : Env} (h1 : E2.fieldVals = E.fieldVals)
    (h2 : E2.dictMatch = E.dictMatch) (h3 : E2.dictGroups = E.dictGroups) :
    LowEq b E E2 :=
  ⟨fun u _ => by rw [h1], fun u _ => by rw [h2], fun u _ => by rw [h3]⟩

lemma lookupA_dictSet_high {β : Type} {d : List (Nat × β)} {u u2 : Nat}
    {v : β} (hu : u2 ≤ u) (hne : ¬ u = u2) :
    lookupA (dictSet d u2 v) u = lookupA d u := by
  rw [lookupA_dictSet, if_neg hne]

/-- Assignment-slot bound: the slots a construct reads for its params pairs. -/
def SlotLE (b : Nat) : Cx → Prop
  | .setParamVal _ u => u ≤ b
  | .setParamsDict _ u => u ≤ b
  | _ => True

def StackLE (b : Nat) (stack : List Cx) : Prop := ∀ c ∈ stack, SlotLE b c

lemma denote_lowEq {ctx : Ctx} {b : Nat} {E E2 : Env} (h : LowEq b E E2) :
    ∀ {c : Cx}, SlotLE b c → denote ctx E2 c = denote ctx E c := by
  intro c hs
  cases c with
  | setParamVal name u =>
    show [(name, (lookupA E2.fieldVals u).getD .vNone)] = _
    rw [h.1 u hs]
    rfl
  | setParamsDict fromGroups u =>
    cases fromGroups with
    | false =>
      show ((lookupA E2.dictMatch u).getD [] :
          List (List Char × List Char)).map _ = _
      rw [h.2.1 u hs]
      rfl
    | true =>
      show ((lookupA E2.dictGroups u).getD [] :
          List (List Char × List Char)).map _ = _
      rw [h.2.2 u hs]
      rfl
  | setParamPath name idx => rfl
  | ifPathLen a b2 cs => rfl
  | ifSegLit a b2 cs => rfl
  | ifSegPat a b2 cs => rfl
  | ifConv a b2 cs => rfl
  | setFragField a => rfl
  | setFragPath a => rfl
  | setFragRemaining a => rfl
  | varFromMatch a => rfl
  | varFromPrefetched a => rfl
  | prefetchGroups => rfl
  | retNone => rfl
  | retVal a => rfl

lemma denoteL_lowEq {ctx : Ctx} {b : Nat} {E E2 : Env} (h : LowEq b E E2) :
    ∀ {stack : List Cx}, StackLE b stack →
      denoteL ctx E2 stack = denoteL ctx E stack := by
  intro stack
  induction stack with
  | nil => intro _; rfl
  | cons c tl ih =>
    intro hs
    show denote ctx E2 c ++ denoteL ctx E2 tl = _
    rw [denote_lowEq h (hs c (by simp)), ih (fun d hd => hs d (by simp [hd]))]
    rfl

mutual

/-- Every slot the construct writes is above `b`. -/
def SlotsAboveC (b : Nat) : Cx → Prop
  | .ifPathLen _ _ cs => SlotsAboveL b cs
  | .ifSegLit _ _ cs => SlotsAboveL b cs
  | .ifSegPat _ _ cs => SlotsAboveL b cs
  | .ifConv u _ cs => b < u ∧ SlotsAboveL b cs
  | .varFromMatch u => b < u
  | .varFromPrefetched u => b < u
  | _ => True

def SlotsAboveL (b : Nat) : List Cx → Prop
  | [] => True
  | c :: cs => SlotsAboveC b c ∧ SlotsAboveL b cs

end

mutual

theorem slotsAboveC_mono {b b2 : Nat} (h : b2 ≤ b) :
    ∀ c : Cx, SlotsAboveC b c → SlotsAboveC b2 c
  | .ifPathLen _ _ cs => fun hc => slotsAboveL_mono h cs hc
  | .ifSegLit _ _ cs => fun hc => slotsAboveL_mono h cs hc
  | .ifSegPat _ _ cs => fun hc => slotsAboveL_mono h cs hc
  | .ifConv _ _ cs => fun hc =>
    ⟨Nat.lt_of_le_of_lt h hc.1, slotsAboveL_mono h cs hc.2⟩
  | .varFromMatch _ => fun hc => Nat.lt_of_le_of_lt h hc
  | .varFromPrefetched _ => fun hc => Nat.lt_of_le_of_lt h hc
  | .setFragField _ => fun _ => trivial
  | .setFragPath _ => fun _ => trivial
  | .setFragRemaining _ => fun _ => trivial
  | .prefetchGroups => fun _ => trivial
  | .retNone => fun _ => trivial
  | .retVal _ => fun _ => trivial
  | .setParamPath _ _ => fun _ => trivial
  | .setParamVal _ _ => fun _ => trivial
  | .setParamsDict _ _ => fun _ => trivial

theorem slotsAboveL_mono {b b2 : Nat} (h : b2 ≤ b) :
    ∀ l : List Cx, SlotsAboveL b l → SlotsAboveL b2 l
  | [] => fun _ => trivial
  | c :: cs => fun hc =>
    ⟨slotsAboveC_mono h c hc.1, slotsAboveL_mono h cs hc.2⟩

end

lemma slotsAboveL_append {b : Nat} {x : List Cx} (hx : SlotsAboveL b x) :
    ∀ {l : List Cx}, SlotsAboveL b l → SlotsAboveL b (l ++ x) := by
  intro l
  induction l with
  | nil => intro _; exact hx
  | cons c cs ih => intro h; exact ⟨h.1, ih h.2⟩

/-- A block whose writes are above `b` leaves all slots up to `b` alone. -/
lemma execList_lowEq (ctx : Ctx) (fuel : Nat) (b : Nat)
    (hc : ∀ (c : Cx) (E : Env), SlotsAboveC b c →
      LowEq b E (execCx ctx fuel c E).1) :
    ∀ (cs : List Cx) (E : Env), SlotsAboveL b cs →
      LowEq b E (execListF (execCx ctx fuel) cs E).1 := by
  intro cs
  induction cs with
  | nil => intro E _; exact lowEq_refl b E
  | cons c tl ih =>
    intro E h
    show LowEq b E (match execCx ctx fuel c E with
      | (E2, Res.fall) => execListF (execCx ctx fuel) tl E2
      | r => r).1
    rcases hex : execCx ctx fuel c E with ⟨E2, r⟩
    have h1 := hc c E h.1
    rw [hex] at h1
    cases r with
    | fall =>
      dsimp only
      exact lowEq_trans h1 (ih E2 h.2)
    | ret v =>
      dsimp only
      exact h1

lemma execCx_lowEq (ctx : Ctx) :
    ∀ (fuel : Nat) (c : Cx) (E : Env) (b : Nat), SlotsAboveC b c →
      LowEq b E (execCx ctx fuel c E).1 := by
  intro fuel
  induction fuel with
  | zero => intro c E b _; exact lowEq_refl b E
  | succ fuel ih =>
    intro c E b hs
    cases c with
    | ifPathLen gt n cs =>
      have hb : SlotsAboveL b cs := hs
      show LowEq b E (if (if gt = true then n < ctx.path.length
          else ctx.path.length = n) then execListF (execCx ctx fuel) cs E
        else (E, Res.fall)).1
      split <;> split <;> first
        | exact execList_lowEq ctx fuel b (fun c2 E2 h2 => ih c2 E2 b h2) cs E
            hb
        | exact lowEq_refl b E
    | ifSegLit idx lit cs =>
      have hb : SlotsAboveL b cs := hs
      show LowEq b E (if ctx.path.getD idx [] = lit
          then execListF (execCx ctx fuel) cs E else (E, Res.fall)).1
      split
      · exact execList_lowEq ctx fuel b (fun c2 E2 h2 => ih c2 E2 b h2) cs E hb
      · exact lowEq_refl b E
    | ifSegPat idx pidx cs =>
      have hb : SlotsAboveL b cs := hs
      cases hm : patMatch (ctx.patterns.getD pidx []) (ctx.path.getD idx [])
        with
      | some gd =>
        have hred : execCx ctx (fuel + 1) (Cx.ifSegPat idx pidx cs) E =
            execListF (execCx ctx fuel) cs { E with matchd := some gd } := by
          unfold execCx
          dsimp only
          rw [hm]
        rw [hred]
        refine lowEq_trans (lowEq_of_eq rfl rfl rfl) ?_
        exact execList_lowEq ctx fuel b (fun c2 E2 h2 => ih c2 E2 b h2) cs _ hb
      | none =>
        have hred : execCx ctx (fuel + 1) (Cx.ifSegPat idx pidx cs) E =
            ({ E with matchd := none }, Res.fall) := by
          unfold execCx
          dsimp only
          rw [hm]
        rw [hred]
        exact lowEq_of_eq rfl rfl rfl
    | ifConv u k cs =>
      obtain ⟨hu, hb⟩ := (hs : b < u ∧ SlotsAboveL b cs)
      have hE2 : LowEq b E
          { E with
            fieldVals :=
              dictSet E.fieldVals u
                ((ctx.convs.getD k fun _ => .vNone) E.fragment) } := by
        refine ⟨?_, fun u2 _ => rfl, fun u2 _ => rfl⟩
        intro u2 hu2
        show lookupA (dictSet E.fieldVals u _) u2 = _
        rw [lookupA_dictSet, if_neg (fun he : u2 = u => by omega)]
      show LowEq b E (if (ctx.convs.getD k fun _ => .vNone) E.fragment
            ≠ .vNone
          then execListF (execCx ctx fuel) cs
            { E with
              fieldVals :=
                dictSet E.fieldVals u
                  ((ctx.convs.getD k fun _ => .vNone) E.fragment) }
          else ({ E with
              fieldVals :=
                dictSet E.fieldVals u
                  ((ctx.convs.getD k fun _ => .vNone) E.fragment) },
            Res.fall)).1
      split
      · exact lowEq_trans hE2
          (execList_lowEq ctx fuel b (fun c2 E2 h2 => ih c2 E2 b h2) cs _ hb)
      · exact hE2
    | setFragField name =>
      exact lowEq_of_eq rfl rfl rfl
    | setFragPath idx => exact lowEq_of_eq rfl rfl rfl
    | setFragRemaining idx => exact lowEq_of_eq rfl rfl rfl
    | varFromMatch u =>
      have hu : b < u := hs
      refine ⟨fun u2 _ => rfl, ?_, fun u2 _ => rfl⟩
      intro u2 hu2
      show lookupA (dictSet E.dictMatch u _) u2 = _
      rw [lookupA_dictSet, if_neg (fun he : u2 = u => by omega)]
    | varFromPrefetched u =>
      have hu : b < u := hs
      refine ⟨fun u2 _ => rfl, fun u2 _ => rfl, ?_⟩
      intro u2 hu2
      show lookupA (dictSet E.dictGroups u _) u2 = _
      rw [lookupA_dictSet, if_neg (fun he : u2 = u => by omega)]
    | prefetchGroups => exact lowEq_of_eq rfl rfl rfl
    | retNone => exact lowEq_refl b E
    | retVal i => exact lowEq_refl b E
    | setParamPath name idx => exact lowEq_of_eq rfl rfl rfl
    | setParamVal name u => exact lowEq_of_eq rfl rfl rfl
    | setParamsDict fromGroups u => exact lowEq_of_eq rfl rfl rfl

/-- The child generator only appends to the three tables. -/
def HRecMono
    (rec : List RNode → GenState → List Cx → Nat → Bool →
      List Cx × GenState) : Prop :=
  ∀ nodes st stack level fast,
    st.patterns <+: (rec nodes st stack level fast).2.patterns ∧
    st.convs <+: (rec nodes st stack level fast).2.convs ∧
    st.returnValues <+: (rec nodes st stack level fast).2.returnValues

lemma genConversion_mono (cm : ConvMap) :
    ∀ (vcm : List (List Char × List Char × Option (List Char)))
      (st : GenState) (stack : List Cx),
      (genConversion cm vcm st stack).2.1.patterns = st.patterns ∧
      st.convs <+: (genConversion cm vcm st stack).2.1.convs := by
  intro vcm
  induction vcm with
  | nil => intro st stack; exact ⟨rfl, List.prefix_refl _⟩
  | cons fca rest ih =>
    rcases fca with ⟨f, c, a⟩
    intro st stack
    rw [genConversion_cons]
    dsimp only
    obtain ⟨h1, h2⟩ := ih { st with convs := st.convs ++ [instConv cm c a] }
      (stack ++ [Cx.setParamVal f (stack.length + 1)])
    exact ⟨h1, List.IsPrefix.trans (List.prefix_append _ _) h2⟩

lemma stage2_mono
    {rec : List RNode → GenState → List Cx → Nat → Bool → List Cx × GenState}
    (hrec : HRecMono rec) (a : RNode)
    (wrap : List Cx → List Cx) (stack2 : List Cx) (cMulti : Bool)
    (stA : GenState) (level : Nat) (fast : Bool) :
    stA.patterns <+:
      ((let (retIdx, st2) : Option Nat × GenState :=
          match a.resource with
          | some _ => (some stA.returnValues.length,
                       { stA with returnValues := stA.returnValues ++ [a] })
          | none => (none, stA)
        let (childCs, st3) := rec a.children st2 stack2 (level + 1) fast
        let tailCs : List Cx :=
          match retIdx with
          | none => if fast then [Cx.retNone] else []
          | some i =>
            if cMulti then stack2 ++ [Cx.retVal i]
            else
              Cx.ifPathLen false (level + 1) (stack2 ++ [Cx.retVal i]) ::
                (if fast then [Cx.retNone] else [])
        (wrap (childCs ++ tailCs), st3) : List Cx × GenState)).2.patterns ∧
    stA.convs <+:
      ((let (retIdx, st2) : Option Nat × GenState :=
          match a.resource with
          | some _ => (some stA.returnValues.length,
                       { stA with returnValues := stA.returnValues ++ [a] })
          | none => (none, stA)
        let (childCs, st3) := rec a.children st2 stack2 (level + 1) fast
        let tailCs : List Cx :=
          match retIdx with
          | none => if fast then [Cx.retNone] else []
          | some i =>
            if cMulti then stack2 ++ [Cx.retVal i]
            else
              Cx.ifPathLen false (level + 1) (stack2 ++ [Cx.retVal i]) ::
                (if fast then [Cx.retNone] else [])
        (wrap (childCs ++ tailCs), st3) : List Cx × GenState)).2.convs ∧
    stA.returnValues <+:
      ((let (retIdx, st2) : Option Nat × GenState :=
          match a.resource with
          | some _ => (some stA.returnValues.length,
                       { stA with returnValues := stA.returnValues ++ [a] })
          | none => (none, stA)
        let (childCs, st3) := rec a.children st2 stack2 (level + 1) fast
        let tailCs : List Cx :=
          match retIdx with
          | none => if fast then [Cx.retNone] else []
          | some i =>
            if cMulti then stack2 ++ [Cx.retVal i]
            else
              Cx.ifPathLen false (level + 1) (stack2 ++ [Cx.retVal i]) ::
                (if fast then [Cx.retNone] else [])
        (wrap (childCs ++ tailCs), st3) : List Cx ×
          GenState)).2.returnValues := by
  cases hra : a.resource with
  | none =>
    dsimp only
    exact hrec a.children stA stack2 (level + 1) fast
  | some ra =>
    dsimp only
    obtain ⟨h1, h2, h3⟩ := hrec a.children
      { stA with returnValues := stA.returnValues ++ [a] } stack2
      (level + 1) fast
    exact ⟨h1, h2, List.IsPrefix.trans (List.prefix_append _ _) h3⟩

/-- Every `genNodeF` call only appends to the three tables. -/
lemma genNodeF_mono (cm : ConvMap)
    {rec : List RNode → GenState → List Cx → Nat → Bool → List Cx × GenState}
    (hrec : HRecMono rec) :
    ∀ (node : RNode) (st : GenState) (stack : List Cx) (level : Nat)
      (fast : Bool),
      st.patterns <+: (genNodeF rec cm node st stack level fast).2.patterns ∧
      st.convs <+: (genNodeF rec cm node st stack level fast).2.convs ∧
      st.returnValues <+:
        (genNodeF rec cm node st stack level fast).2.returnValues := by
  intro a st stack level fast
  unfold genNodeF
  by_cases hv : a.is_var = true
  · rw [if_pos hv]
    by_cases hcx : a.is_complex = true
    · rw [if_pos hcx]
      cases hvc : a.var_converter_map with
      | nil =>
        have hnil : ¬ (([] : List (List Char × List Char × Option (List Char)))
            ≠ []) := fun h => h rfl
        rw [if_neg hnil]
        dsimp only
        obtain ⟨h1, h2, h3⟩ := stage2_mono hrec a
          (fun inner => [Cx.ifSegPat level st.patterns.length
            (Cx.varFromMatch (stack.length + 1) :: inner)])
          (stack ++ [Cx.setParamsDict false (stack.length + 1)]) false
          ⟨st.returnValues, st.patterns ++ [a.var_pattern.getD []], st.convs⟩
          level fast
        exact ⟨List.IsPrefix.trans (List.prefix_append _ _) h1, h2, h3⟩
      | cons fca tl =>
        have hcne : (fca :: tl) ≠
            ([] : List (List Char × List Char × Option (List Char))) := by simp
        rw [if_pos hcne]
        obtain ⟨hgp, hgc⟩ := genConversion_mono cm (fca :: tl)
          ⟨st.returnValues, st.patterns ++ [a.var_pattern.getD []], st.convs⟩
          stack
        have hgr := genConversion_rv cm (fca :: tl)
          ⟨st.returnValues, st.patterns ++ [a.var_pattern.getD []], st.convs⟩
          stack
        rcases hg : genConversion cm (fca :: tl)
          ⟨st.returnValues, st.patterns ++ [a.var_pattern.getD []], st.convs⟩
          stack with ⟨w2, stg2, stk2⟩
        rw [hg] at hgp hgc hgr
        dsimp only at hgp hgc hgr
        dsimp only
        obtain ⟨h1, h2, h3⟩ := stage2_mono hrec a
          (fun inner => [Cx.ifSegPat level st.patterns.length
            (Cx.prefetchGroups :: w2
              ((if a.num_fields > (fca :: tl).length then
                  ([Cx.varFromPrefetched (stk2.length + 1)],
                   stk2 ++ [Cx.setParamsDict true (stk2.length + 1)])
                else ([], stk2)).1 ++ inner))])
          ((if a.num_fields > (fca :: tl).length then
              ([Cx.varFromPrefetched (stk2.length + 1)],
               stk2 ++ [Cx.setParamsDict true (stk2.length + 1)])
            else ([], stk2)).2) false
          stg2 level fast
        refine ⟨List.IsPrefix.trans ?_ h1, List.IsPrefix.trans hgc h2,
          List.IsPrefix.trans ?_ h3⟩
        · rw [hgp]
          exact List.prefix_append _ _
        · rw [hgr]
    · rw [if_neg hcx]
      cases hvc : a.var_converter_map with
      | nil =>
        dsimp only
        exact stage2_mono hrec a id
          (stack ++ [Cx.setParamPath (a.var_name.getD []) level]) false
          st level fast
      | cons fca tl =>
        rcases fca with ⟨f0, cn, ar⟩
        dsimp only
        obtain ⟨h1, h2, h3⟩ := stage2_mono hrec a
          (fun inner => [if ((lookupA cm cn).getD defaultConvClass).multi = true
              then Cx.setFragRemaining level else Cx.setFragPath level,
            Cx.ifConv (stack.length + 1) st.convs.length inner])
          (stack ++ [Cx.setParamVal (a.var_name.getD []) (stack.length + 1)])
          ((lookupA cm cn).getD defaultConvClass).multi
          ⟨st.returnValues, st.patterns, st.convs ++
            [(((lookupA cm cn).getD defaultConvClass).instantiate ar).getD
              fun _ => Value.vNone]⟩
          level fast
        exact ⟨h1, List.IsPrefix.trans (List.prefix_append _ _) h2, h3⟩
  · rw [if_neg hv]
    dsimp only
    exact stage2_mono hrec a
      (fun inner => [Cx.ifSegLit level a.raw_segment inner]) stack false
      st level fast

/-- The sibling loop only appends to the three tables. -/
lemma genSeqF_mono (cm : ConvMap)
    {rec : List RNode → GenState → List Cx → Nat → Bool → List Cx × GenState}
    (hrec : HRecMono rec) :
    ∀ (l : List RNode) (st : GenState) (stack : List Cx) (level : Nat)
      (fast : Bool),
      st.patterns <+: (genSeqF rec cm l st stack level fast).2.patterns ∧
      st.convs <+: (genSeqF rec cm l st stack level fast).2.convs ∧
      st.returnValues <+:
        (genSeqF rec cm l st stack level fast).2.returnValues := by
  intro l
  induction l with
  | nil =>
    intro st stack level fast
    exact ⟨List.prefix_refl _, List.prefix_refl _, List.prefix_refl _⟩
  | cons node tl ih =>
    intro st stack level fast
    rw [genSeqF_cons]
    dsimp only
    obtain ⟨h1, h2, h3⟩ := genNodeF_mono cm hrec node st stack level fast
    obtain ⟨h4, h5, h6⟩ := ih (genNodeF rec cm node st stack level fast).2
      stack level fast
    exact ⟨h1.trans h4, h2.trans h5, h3.trans h6⟩

/-- `_generate_ast` only appends to the three tables. -/
lemma genNodes_mono (cm : ConvMap) :
    ∀ fuel : Nat, HRecMono (genNodes cm fuel) := by
  intro fuel
  induction fuel with
  | zero =>
    intro nodes st stack level fast
    exact ⟨List.prefix_refl _, List.prefix_refl _, List.prefix_refl _⟩
  | succ fuel ih =>
    intro nodes st stack level fast
    cases nodes with
    | nil => exact ⟨List.prefix_refl _, List.prefix_refl _, List.prefix_refl _⟩
    | cons node restN =>
      rw [genNodes_succ]
      exact genSeqF_mono cm ih (sortNodes (node :: restN)) st stack level _

lemma slotsAboveC_of_assign {b : Nat} {c : Cx} (h : isAssign c = true) :
    SlotsAboveC b c := by
  cases c <;> first | trivial | exact nomatch h

lemma slotsAboveL_of_assign {b : Nat} {stack : List Cx}
    (h : StackAssign stack) : SlotsAboveL b stack := by
  induction stack with
  | nil => trivial
  | cons c tl ih =>
    exact ⟨slotsAboveC_of_assign (h c (by simp)),
      ih (fun d hd => h d (by simp [hd]))⟩

/-- The child generator writes only slots above its base stack length. -/
def HRecSlots
    (rec : List RNode → GenState → List Cx → Nat → Bool →
      List Cx × GenState) : Prop :=
  ∀ nodes st stack level fast, StackAssign stack →
    SlotsAboveL stack.length (rec nodes st stack level fast).1

/-- Stack facts of the converter unrolling: the stack grows, stays
all-assignment with self-bounded slots, and the wrapper writes only slots
above the original base. -/
lemma genConversion_slots (cm : ConvMap) :
    ∀ (vcm : List (List Char × List Char × Option (List Char)))
      (st : GenState) (stack : List Cx),
      stack.length ≤ (genConversion cm vcm st stack).2.2.length ∧
      (StackLE stack.length stack →
        StackLE ((genConversion cm vcm st stack).2.2.length)
          (genConversion cm vcm st stack).2.2) ∧
      (∀ b, b ≤ stack.length → ∀ inner, SlotsAboveL b inner →
        SlotsAboveL b ((genConversion cm vcm st stack).1 inner)) := by
  intro vcm
  induction vcm with
  | nil =>
    intro st stack
    exact ⟨le_refl _, fun h => h, fun b _ inner hi => hi⟩
  | cons fca rest ih =>
    rcases fca with ⟨f, c, a⟩
    intro st stack
    rw [genConversion_cons]
    dsimp only
    obtain ⟨h1, h2, h3⟩ := ih { st with convs := st.convs ++ [instConv cm c a] }
      (stack ++ [Cx.setParamVal f (stack.length + 1)])
    have hlen : stack.length ≤
        (stack ++ [Cx.setParamVal f (stack.length + 1)]).length := by
      simp
    refine ⟨le_trans hlen h1, ?_, ?_⟩
    · intro hle
      refine h2 ?_
      intro d hd
      rcases List.mem_append.mp hd with hd2 | hd2
      · have := hle d hd2
        cases d <;> first
          | trivial
          | exact le_trans this (by simp)
      · simp only [List.mem_cons, List.not_mem_nil, or_false] at hd2
        subst hd2
        show stack.length + 1 ≤ (stack ++ [Cx.setParamVal f
          (stack.length + 1)]).length
        simp
    · intro b hb inner hi
      refine ⟨trivial, ⟨?_, ?_⟩, trivial⟩
      · exact Nat.lt_of_le_of_lt hb (Nat.lt_succ_self _)
      · exact h3 b (le_trans hb (by simp)) inner hi

/-- The trailing stage writes only slots above `b` when the wrapper and the
stack do. -/
lemma stage2_slots
    {rec : List RNode → GenState → List Cx → Nat → Bool → List Cx × GenState}
    (hrec : HRecSlots rec) (a : RNode)
    (wrap : List Cx → List Cx) (stack2 : List Cx) (cMulti : Bool)
    (stA : GenState) (level : Nat) (fast : Bool) (b : Nat)
    (hwrap : ∀ body, SlotsAboveL b body → SlotsAboveL b (wrap body))
    (hb : b ≤ stack2.length) (hsa : StackAssign stack2) :
    SlotsAboveL b
      ((let (retIdx, st2) : Option Nat × GenState :=
          match a.resource with
          | some _ => (some stA.returnValues.length,
                       { stA with returnValues := stA.returnValues ++ [a] })
          | none => (none, stA)
        let (childCs, st3) := rec a.children st2 stack2 (level + 1) fast
        let tailCs : List Cx :=
          match retIdx with
          | none => if fast then [Cx.retNone] else []
          | some i =>
            if cMulti then stack2 ++ [Cx.retVal i]
            else
              Cx.ifPathLen false (level + 1) (stack2 ++ [Cx.retVal i]) ::
                (if fast then [Cx.retNone] else [])
        (wrap (childCs ++ tailCs), st3) : List Cx × GenState)).1 := by
  have hchild : ∀ st2 : GenState, SlotsAboveL b
      (rec a.children st2 stack2 (level + 1) fast).1 :=
    fun st2 => slotsAboveL_mono hb _ (hrec a.children st2 stack2 (level + 1)
      fast hsa)
  have hflush : ∀ i : Nat, SlotsAboveL b (stack2 ++ [Cx.retVal i]) := by
    intro i
    have hrv : SlotsAboveL b [Cx.retVal i] := ⟨trivial, trivial⟩
    exact slotsAboveL_append hrv (slotsAboveL_of_assign hsa)
  cases hra : a.resource with
  | none =>
    dsimp only
    refine hwrap _ (slotsAboveL_append ?_ (hchild _))
    cases fast
    · exact trivial
    · exact ⟨trivial, trivial⟩
  | some ra =>
    dsimp only
    refine hwrap _ (slotsAboveL_append ?_ (hchild _))
    cases cMulti
    · refine ⟨?_, ?_⟩
      · show SlotsAboveL b (stack2 ++ [Cx.retVal stA.returnValues.length])
        exact hflush _
      · cases fast
        · exact trivial
        · exact ⟨trivial, trivial⟩
    · exact hflush _

/-- Every per-node block writes only slots above the base stack length. -/
lemma genNodeF_slots (cm : ConvMap)
    {rec : List RNode → GenState → List Cx → Nat → Bool → List Cx × GenState}
    (hrec : HRecSlots rec) :
    ∀ (node : RNode) (st : GenState) (stack : List Cx) (level : Nat)
      (fast : Bool), StackAssign stack →
      SlotsAboveL stack.length (genNodeF rec cm node st stack level fast).1 := by
  intro a st stack level fast hsg
  have hext : ∀ (c : Cx), isAssign c = true →
      StackAssign (stack ++ [c]) := by
    intro c hca d hd
    rcases List.mem_append.mp hd with hd2 | hd2
    · exact hsg d hd2
    · simp only [List.mem_cons, List.not_mem_nil, or_false] at hd2
      subst hd2
      exact hca
  unfold genNodeF
  by_cases hv : a.is_var = true
  · rw [if_pos hv]
    by_cases hcx : a.is_complex = true
    · rw [if_pos hcx]
      cases hvc : a.var_converter_map with
      | nil =>
        have hnil : ¬ (([] : List (List Char × List Char × Option (List Char)))
            ≠ []) := fun h => h rfl
        rw [if_neg hnil]
        dsimp only
        refine stage2_slots hrec a
          (fun inner => [Cx.ifSegPat level st.patterns.length
            (Cx.varFromMatch (stack.length + 1) :: inner)])
          (stack ++ [Cx.setParamsDict false (stack.length + 1)]) false
          ⟨st.returnValues, st.patterns ++ [a.var_pattern.getD []], st.convs⟩
          level fast stack.length ?_ (by simp) (hext _ rfl)
        intro body hb
        exact ⟨⟨Nat.lt_succ_self _, hb⟩, trivial⟩
      | cons fca tl =>
        have hcne : (fca :: tl) ≠
            ([] : List (List Char × List Char × Option (List Char))) := by simp
        rw [if_pos hcne]
        obtain ⟨hL, hLE, hWr⟩ := genConversion_slots cm (fca :: tl)
          ⟨st.returnValues, st.patterns ++ [a.var_pattern.getD []], st.convs⟩
          stack
        obtain ⟨hS, hW⟩ := genConversion_safe cm (fca :: tl)
          ⟨st.returnValues, st.patterns ++ [a.var_pattern.getD []], st.convs⟩
          stack hsg
        rcases hg : genConversion cm (fca :: tl)
          ⟨st.returnValues, st.patterns ++ [a.var_pattern.getD []], st.convs⟩
          stack with ⟨w2, stg2, stk2⟩
        rw [hg] at hL hLE hWr hS
        dsimp only at hL hLE hWr hS
        dsimp only
        refine stage2_slots hrec a
          (fun inner => [Cx.ifSegPat level st.patterns.length
            (Cx.prefetchGroups :: w2
              ((if a.num_fields > (fca :: tl).length then
                  ([Cx.varFromPrefetched (stk2.length + 1)],
                   stk2 ++ [Cx.setParamsDict true (stk2.length + 1)])
                else ([], stk2)).1 ++ inner))])
          ((if a.num_fields > (fca :: tl).length then
              ([Cx.varFromPrefetched (stk2.length + 1)],
               stk2 ++ [Cx.setParamsDict true (stk2.length + 1)])
            else ([], stk2)).2) false
          stg2 level fast stack.length ?_ ?_ ?_
        · intro body hb
          refine ⟨⟨trivial, hWr stack.length (le_refl _) _
            (slotsAboveL_append hb ?_)⟩, trivial⟩
          split
          · exact ⟨Nat.lt_of_le_of_lt hL (Nat.lt_succ_self _), trivial⟩
          · exact trivial
        · split
          · simp only [List.length_append, List.length_cons, List.length_nil]
            omega
          · exact hL
        · split
          · intro d hd
            rcases List.mem_append.mp hd with hd2 | hd2
            · exact hS d hd2
            · simp only [List.mem_cons, List.not_mem_nil, or_false] at hd2
              subst hd2
              rfl
          · exact hS
    · rw [if_neg hcx]
      cases hvc : a.var_converter_map with
      | nil =>
        dsimp only
        refine stage2_slots hrec a id
          (stack ++ [Cx.setParamPath (a.var_name.getD []) level]) false
          st level fast stack.length ?_ (by simp) (hext _ rfl)
        intro body hb
        exact hb
      | cons fca tl =>
        rcases fca with ⟨f0, cn, ar⟩
        dsimp only
        refine stage2_slots hrec a
          (fun inner => [if ((lookupA cm cn).getD defaultConvClass).multi = true
              then Cx.setFragRemaining level else Cx.setFragPath level,
            Cx.ifConv (stack.length + 1) st.convs.length inner])
          (stack ++ [Cx.setParamVal (a.var_name.getD []) (stack.length + 1)])
          ((lookupA cm cn).getD defaultConvClass).multi
          ⟨st.returnValues, st.patterns, st.convs ++
            [(((lookupA cm cn).getD defaultConvClass).instantiate ar).getD
              fun _ => Value.vNone]⟩
          level fast stack.length ?_ (by simp) (hext _ rfl)
        intro body hb
        refine ⟨?_, ⟨Nat.lt_succ_self _, hb⟩, trivial⟩
        split
        · exact trivial
        · exact trivial
  · rw [if_neg hv]
    dsimp only
    refine stage2_slots hrec a
      (fun inner => [Cx.ifSegLit level a.raw_segment inner]) stack false
      st level fast stack.length ?_ (le_refl _) hsg
    intro body hb
    exact ⟨hb, trivial⟩

/-- The sibling loop writes only slots above the base stack length. -/
lemma genSeqF_slots (cm : ConvMap)
    {rec : List RNode → GenState → List Cx → Nat → Bool → List Cx × GenState}
    (hrec : HRecSlots rec) :
    ∀ (l : List RNode) (st : GenState) (stack : List Cx) (level : Nat)
      (fast : Bool), StackAssign stack →
      SlotsAboveL stack.length (genSeqF rec cm l st stack level fast).1 := by
  intro l
  induction l with
  | nil => intro st stack level fast _; trivial
  | cons node tl ih =>
    intro st stack level fast hsg
    rw [genSeqF_cons]
    exact slotsAboveL_append (ih _ stack level fast hsg)
      (genNodeF_slots cm hrec node st stack level fast hsg)

/-- `_generate_ast` writes only slots above the base stack length. -/
lemma genNodes_slots (cm : ConvMap) :
    ∀ fuel : Nat, HRecSlots (genNodes cm fuel) := by
  intro fuel
  induction fuel with
  | zero => intro nodes st stack level fast _; trivial
  | succ fuel ih =>
    intro nodes st stack level fast hsg
    cases nodes with
    | nil => trivial
    | cons node restN =>
      rw [genNodes_succ]
      refine ⟨?_, trivial⟩
      show SlotsAboveL _ _
      refine slotsAboveL_append ?_
        (genSeqF_slots cm ih (sortNodes (node :: restN)) st stack level _ hsg)
      split <;> split <;> first
        | exact ⟨trivial, trivial⟩
        | exact trivial

lemma sortNodes_perm (nodes : List RNode) : (sortNodes nodes).Perm nodes := by
  unfold sortNodes
  have h2 : List.Perm
      ((nodes.filter fun n => n.is_var).filter (fun n => n.is_complex) ++
        (nodes.filter fun n => n.is_var).filter (fun n => !n.is_complex))
      (nodes.filter fun n => n.is_var) :=
    List.filter_append_perm _ _
  have h3 : (nodes.filter fun n => n.is_var).filter (fun n => n.is_complex) =
      nodes.filter fun n => n.is_var && n.is_complex := by
    rw [List.filter_filter]
    refine List.filter_congr ?_
    intro n _
    cases n.is_var <;> cases n.is_complex <;> rfl
  have h4 : (nodes.filter fun n => n.is_var).filter (fun n => !n.is_complex) =
      nodes.filter fun n => n.is_var && !n.is_complex := by
    rw [List.filter_filter]
    refine List.filter_congr ?_
    intro n _
    cases n.is_var <;> cases n.is_complex <;> rfl
  rw [h3, h4] at h2
  have h1 : List.Perm
      (nodes.filter (fun n => !n.is_var) ++ nodes.filter (fun n => n.is_var))
      nodes := by
    have := List.filter_append_perm (fun n => !n.is_var) nodes
    refine List.Perm.trans ?_ this
    refine List.Perm.append_left _ (List.Perm.of_eq ?_)
    refine List.filter_congr ?_
    intro n _
    cases n.is_var <;> rfl
  rw [List.append_assoc]
  exact List.Perm.trans (List.Perm.append_left _ h2) h1

lemma sortNodes_mem {nodes : List RNode} {n : RNode} :
    n ∈ sortNodes nodes ↔ n ∈ nodes :=
  (sortNodes_perm nodes).mem_iff

lemma sortNodes_raw_nodup {nodes : List RNode}
    (h : (nodes.map RNode.raw_segment).Nodup) :
    ((sortNodes nodes).map RNode.raw_segment).Nodup :=
  (((sortNodes_perm nodes).map RNode.raw_segment).nodup_iff).mpr h

lemma sortNodes_length (nodes : List RNode) :
    (sortNodes nodes).length = nodes.length :=
  (sortNodes_perm nodes).length_eq

lemma findSome?_cons {α β : Type} (f : α → Option β) (a : α) (l : List α) :
    (a :: l).findSome? f =
      (match f a with
       | some b => some b
       | none => l.findSome? f) := rfl

lemma drop_cons_getD {l : List (List Char)} {i : Nat} (h : i < l.length) :
    l.drop i = l.getD i [] :: l.drop (i + 1) := by
  induction l generalizing i with
  | nil => simp at h
  | cons x tl ih =>
    cases i with
    | zero => rfl
    | succ j =>
      have hj : j < tl.length := by simpa using h
      show tl.drop j = _
      rw [ih hj]
      rfl

lemma drop_nil_of_le {l : List (List Char)} {i : Nat} (h : l.length ≤ i) :
    l.drop i = [] :=
  List.drop_eq_nil_of_le h

lemma drop_isEmpty_iff {l : List (List Char)} {i : Nat} :
    (l.drop i).isEmpty = true ↔ l.length ≤ i := by
  rw [List.isEmpty_iff, List.drop_eq_nil_iff_le]

/-- Executing a flushed stack followed by `retVal` returns the value with the
stack's pairs folded into params. -/
lemma exec_flushRet (ctx : Ctx) (fuel : Nat) (stack : List Cx) (E : Env)
    (h : StackAssign stack) (i : Nat) :
    execListF (execCx ctx (fuel + 1)) (stack ++ [Cx.retVal i]) E =
      ({ E with params := dictFold E.params (denoteL ctx E stack) },
       Res.ret (some i)) := by
  rw [execListF_append, exec_flush ctx fuel stack E h]
  rfl

/-- The per-segment residue of template validation needed by the matcher
correspondence: field names pass the identifier check and are distinct
within the segment. -/
def SegOk (raw : List Char) : Prop :=
  (∀ m ∈ fieldMatches raw, identPatternOk m.fname = true) ∧
  ((fieldMatches raw).map FieldMatch.fname).Nodup

lemma validatePath_segOk (cm : ConvMap) :
    ∀ (segs : List (List Char)) (used used2 : List (List Char)),
      validatePath cm segs used = .ok used2 →
      ∀ seg ∈ segs, SegOk seg := by
  intro segs
  induction segs with
  | nil => intro used used2 _ seg hs; exact absurd hs (List.not_mem_nil seg)
  | cons seg segs ih =>
    intro used used2 h s hs
    simp only [validatePath] at h
    cases hv : validateFields cm (fieldMatches seg) used with
    | error e => rw [hv] at h; cases h
    | ok used1 =>
      rw [hv] at h
      rcases List.mem_cons.mp hs with rfl | hs2
      · obtain ⟨h1, h2, _, _⟩ := validateFields_ok cm _ _ _ hv
        exact ⟨fun m hm => (h1 m hm).1, h2⟩
      · exact ih used1 used2 h s hs2

mutual

/-- Every raw segment in the tree passed validation. -/
def SegOkN : RNode → Prop
  | .mk raw _ _ _ _ _ _ _ _ _ ch => SegOk raw ∧ SegOkF ch

def SegOkF : List RNode → Prop
  | [] => True
  | n :: tl => SegOkN n ∧ SegOkF tl

end

lemma segOkN_eq (n : RNode) :
    SegOkN n = (SegOk n.raw_segment ∧ SegOkF n.children) := by
  cases n
  rfl

lemma segOkF_mem : ∀ {l : List RNode} {n : RNode}, SegOkF l → n ∈ l →
    SegOkN n := by
  intro l
  induction l with
  | nil => intro n _ hn; exact absurd hn (List.not_mem_nil n)
  | cons m tl ih =>
    intro n h hn
    rcases List.mem_cons.mp hn with rfl | hn2
    · exact h.1
    · exact ih h.2 hn2

lemma segOkF_of_forall : ∀ {l : List RNode}, (∀ n ∈ l, SegOkN n) →
    SegOkF l := by
  intro l
  induction l with
  | nil => intro _; trivial
  | cons m tl ih =>
    intro h
    exact ⟨h m (by simp), ih (fun n hn => h n (by simp [hn]))⟩

lemma segOkF_append {a b : List RNode} (ha : SegOkF a) (hb : SegOkF b) :
    SegOkF (a ++ b) := by
  refine segOkF_of_forall ?_
  intro n hn
  rcases List.mem_append.mp hn with h | h
  · exact segOkF_mem ha h
  · exact segOkF_mem hb h

lemma segOkN_withChildren {n : RNode} (h : SegOk n.raw_segment)
    {ch : List RNode} (hch : SegOkF ch) : SegOkN (n.withChildren ch) := by
  rw [segOkN_eq, withChildren_raw, withChildren_children]
  exact ⟨h, hch⟩

lemma segOkN_bindTerminal {n : RNode} (h : SegOkN n) (mm res : Nat)
    (t : List Char) : SegOkN (n.bindTerminal mm res t) := by
  rw [segOkN_eq, bindTerminal_raw, bindTerminal_children]
  rw [segOkN_eq] at h
  exact h

lemma segOkF_set {l : List RNode} {i : Nat} {n : RNode} (hl : SegOkF l)
    (hn : SegOkN n) : SegOkF (l.set i n) := by
  refine segOkF_of_forall ?_
  intro m hm
  rcases List.mem_or_eq_of_mem_set hm with h | rfl
  · exact segOkF_mem hl h
  · exact hn

/-- Insertion preserves the validated-segments invariant when the inserted
path segments are validated. -/
lemma insertR_segok (cm : ConvMap) (mm res : Nat) (tmpl : List Char) :
    ∀ (rest : List (List Char)) (seg : List Char) (nodes : List RNode),
      SegOk seg → (∀ s ∈ rest, SegOk s) → SegOkF nodes →
      SegOkF (insertR cm mm res tmpl seg rest nodes).1 := by
  intro rest
  induction rest with
  | nil =>
    intro seg nodes hseg _ hok
    unfold insertR
    cases hfh : firstHit nodes seg with
    | none =>
      dsimp only
      split
      · exact hok
      · refine segOkF_append hok ⟨?_, trivial⟩
        refine segOkN_bindTerminal ?_ mm res tmpl
        rw [segOkN_eq, mkRNode_raw, mkRNode_children]
        exact ⟨hseg, trivial⟩
    | some p =>
      rcases p with ⟨i, b⟩
      cases b with
      | true =>
        dsimp only
        refine segOkF_set hok ?_
        by_cases hi : i < nodes.length
        · exact segOkN_bindTerminal (segOkF_mem hok (getD_mem hi)) mm res tmpl
        · rw [List.getD_eq_default _ _ (by omega)]
          refine segOkN_bindTerminal ?_ mm res tmpl
          show SegOkN (.mk [] none none none false false 0 none none [] [])
          refine ⟨⟨?_, ?_⟩, trivial⟩ <;> simp [fieldMatches, fieldSplit,
            fieldSplitAux]
      | false => exact hok
  | cons seg2 rest2 ih =>
    intro seg nodes hseg hrest hok
    unfold insertR
    cases hfh : firstHit nodes seg with
    | none =>
      dsimp only
      split
      · exact hok
      · split
        · exact hok
        · rcases hins : insertR cm mm res tmpl seg2 rest2 [] with ⟨ch, e⟩
          dsimp only
          have hch : SegOkF ch := by
            have := ih seg2 [] (hrest seg2 (by simp))
              (fun s hs => hrest s (by simp [hs])) trivial
            rw [hins] at this
            exact this
          refine segOkF_append hok ⟨?_, trivial⟩
          refine segOkN_withChildren ?_ hch
          rw [mkRNode_raw]
          exact hseg
    | some p =>
      rcases p with ⟨i, b⟩
      cases b with
      | true =>
        dsimp only
        split
        · exact hok
        · rcases hins : insertR cm mm res tmpl seg2 rest2
              (nodes.getD i default).children with ⟨ch, e⟩
          dsimp only
          by_cases hi : i < nodes.length
          · have hni := segOkF_mem hok (getD_mem hi)
            rw [segOkN_eq] at hni
            have hch : SegOkF ch := by
              have := ih seg2 (nodes.getD i default).children
                (hrest seg2 (by simp)) (fun s hs => hrest s (by simp [hs]))
                hni.2
              rw [hins] at this
              exact this
            exact segOkF_set hok (segOkN_withChildren hni.1 hch)
          · rw [List.getD_eq_default _ _ (by omega)] at hins ⊢
            have hch : SegOkF ch := by
              have := ih seg2 (default : RNode).children
                (hrest seg2 (by simp)) (fun s hs => hrest s (by simp [hs]))
                (by show SegOkF []; trivial)
              rw [hins] at this
              exact this
            refine segOkF_set hok (segOkN_withChildren ?_ hch)
            show SegOk ([] : List Char)
            refine ⟨?_, ?_⟩ <;> simp [fieldMatches, fieldSplit, fieldSplitAux]
      | false => exact hok

/-- Every reachable tree has only validated segments. -/
lemma reachable_segok {cm : ConvMap} {roots : List RNode}
    (h : Reachable cm roots) : SegOkF roots := by
  induction h with
  | nil => trivial
  | step tmpl res mm hre hok ih =>
    rename_i roots2
    unfold addRoute
    split
    · exact ih
    · dsimp only
      cases hval : validatePath cm (splitSlash (tmpl.dropWhile (· = '/'))) []
        with
      | error e => exact ih
      | ok u =>
        cases hpath : splitSlash (tmpl.dropWhile (· = '/')) with
        | nil => exact ih
        | cons seg rest =>
          dsimp only
          have hsv := validatePath_segOk cm _ _ _ hval
          rw [hpath] at hsv
          exact insertR_segok cm mm res tmpl rest seg roots2
            (hsv seg (by simp)) (fun s hs => hsv s (by simp [hs])) ih

lemma spanP_spec (p : Char → Bool) :
    ∀ s : List Char, (∀ c ∈ (spanP p s).1, p c = true) ∧
      (match (spanP p s).2 with
       | [] => True
       | c :: _ => p c = false) := by
  intro s
  induction s with
  | nil => exact ⟨fun c hc => absurd hc (List.not_mem_nil c), trivial⟩
  | cons c cs ih =>
    by_cases h : p c
    · refine ⟨?_, ?_⟩
      · intro d hd
        have : (spanP p (c :: cs)).1 = c :: (spanP p cs).1 := by
          simp [spanP, h]
        rw [this] at hd
        rcases List.mem_cons.mp hd with rfl | hd2
        · exact h
        · exact ih.1 d hd2
      · have : (spanP p (c :: cs)).2 = (spanP p cs).2 := by
          simp [spanP, h]
        rw [this]
        exact ih.2
    · have h1 : (spanP p (c :: cs)).1 = [] := by simp [spanP, h]
      have h2 : (spanP p (c :: cs)).2 = c :: cs := by simp [spanP, h]
      refine ⟨?_, ?_⟩
      · intro d hd
        rw [h1] at hd
        exact absurd hd (List.not_mem_nil d)
      · rw [h2]
        simpa using h

lemma escapeSeg_of_nonmeta {n : List Char} (h : ∀ c ∈ n, c ∉ escapedMeta) :
    escapeSeg n = n := by
  induction n with
  | nil => rfl
  | cons c cs ih =>
    simp only [escapeSeg, List.flatMap_cons, if_neg (h c (by simp))]
    have := ih fun d hd => h d (by simp [hd])
    simp only [escapeSeg] at this
    simp [this]

lemma escapeSeg_cons_nonmeta {c : Char} (h : c ∉ escapedMeta) (s : List Char) :
    escapeSeg (c :: s) = c :: escapeSeg s := by
  simp [escapeSeg, h]

lemma escapeSeg_cons_meta {c : Char} (h : c ∈ escapedMeta) (s : List Char) :
    escapeSeg (c :: s) = '\\' :: c :: escapeSeg s := by
  simp [escapeSeg, h]

lemma escapeSeg_mem_not_brace {s : List Char} (hs : ∀ c ∈ s, c ≠ '}') :
    ∀ c ∈ escapeSeg s, c ≠ '}' := by
  intro c hc
  rcases mem_escapeSeg hc with rfl | h2
  · decide
  · exact hs c h2

lemma identPatternOk_chars {n : List Char} (h : identPatternOk n = true) :
    ∀ c ∈ n, isIdentCont c = true ∨ c = '\n' := by
  unfold identPatternOk at h
  rcases Bool.or_eq_true_iff.mp h with h1 | h1
  · intro c hc
    exact Or.inl (isIdentCore_all_cont h1 c hc)
  · rcases Bool.and_eq_true_iff.mp h1 with ⟨h2, h3⟩
    intro c hc
    have hne : n ≠ [] := by
      intro he
      rw [he] at h2
      cases h2
    have hd : n = n.dropLast ++ [n.getLast hne] := (List.dropLast_append_getLast hne).symm
    rw [hd] at hc
    rcases List.mem_append.mp hc with hc2 | hc2
    · exact Or.inl (isIdentCore_all_cont h3 c hc2)
    · simp only [List.mem_cons, List.not_mem_nil, or_false] at hc2
      subst hc2
      right
      have := List.getLast?_eq_getLast n hne
      rw [this] at h2
      simpa using h2

lemma identPatternOk_notmeta {n : List Char} (h : identPatternOk n = true) :
    ∀ c ∈ n, c ∉ escapedMeta := by
  intro c hc
  rcases identPatternOk_chars h c hc with h2 | rfl
  · exact identCont_not_meta h2
  · decide

lemma identPatternOk_special {n : List Char} (h : identPatternOk n = true) :
    ∀ c ∈ n, c ≠ '>' ∧ c ≠ '\\' ∧ c ≠ '(' ∧ c ≠ '}' ∧ c ≠ ':' := by
  intro c hc
  rcases identPatternOk_chars h c hc with h2 | rfl
  · refine ⟨?_, ?_, ?_, ?_, ?_⟩ <;> rintro rfl <;> exact absurd h2 (by decide)
  · refine ⟨?_, ?_, ?_, ?_, ?_⟩ <;> decide

lemma escapeSeg_getLast {s : List Char} {c : Char}
    (h : s.getLast? = some c) : (escapeSeg s).getLast? = some c := by
  have hne : s ≠ [] := by
    intro he
    rw [he] at h
    cases h
  have hd : s = s.dropLast ++ [s.getLast hne] :=
    (List.dropLast_append_getLast hne).symm
  have hlast : s.getLast hne = c := by
    have := List.getLast?_eq_getLast s hne
    rw [this] at h
    exact (Option.some.injEq _ _).mp h
  rw [hd, escapeSeg_append, hlast]
  by_cases hm : c ∈ escapedMeta
  · rw [show escapeSeg [c] = ['\\', c] from by simp [escapeSeg, hm]]
    rw [List.getLast?_append]
    rfl
  · rw [show escapeSeg [c] = [c] from by simp [escapeSeg, hm]]
    rw [List.getLast?_append]
    rfl

/-- Escaping preserves a successful field scan up to the field name (which
must be metacharacter-free) and escapes the remainder. -/
lemma scanField_esc {s r : List Char} {m : FieldMatch}
    (h : scanField s = some (m, r))
    (hf : ∀ c ∈ m.fname, c ∉ escapedMeta) :
    ∃ m2 : FieldMatch, m2.fname = m.fname ∧
      scanField (escapeSeg s) = some (m2, escapeSeg r) := by
  have e1 := spanP_append (fun c => c ≠ '}' && c ≠ ':') s
  have s1 := spanP_spec (fun c => c ≠ '}' && c ≠ ':') s
  unfold scanField at h
  rcases hp1 : spanP (fun c => c ≠ '}' && c ≠ ':') s with ⟨A, b1⟩
  rw [hp1] at h e1 s1
  dsimp only at h e1 s1
  cases b1 with
  | nil => cases h
  | cons c1 r1 =>
    dsimp only at h s1
    by_cases hc1 : c1 = '}'
    · subst hc1
      rw [if_pos rfl] at h
      cases h
      have hA : ∀ c ∈ A, ((c ≠ '}' && c ≠ ':') : Bool) = true := s1.1
      have hAesc : escapeSeg A = A := escapeSeg_of_nonmeta hf
      have hesc : escapeSeg s = A ++ '}' :: escapeSeg r := by
        rw [← e1, escapeSeg_append, hAesc,
          escapeSeg_cons_nonmeta (by decide) r]
      rw [hesc]
      refine ⟨⟨A, none, none⟩, rfl, ?_⟩
      unfold scanField
      rw [spanP_eq_append _ A ('}' :: escapeSeg r) hA (by simp)]
      dsimp only
      rw [if_pos rfl]
    · rw [if_neg hc1] at h
      have hc1v : c1 = ':' := by
        have := s1.2
        simp only [Bool.and_eq_true, decide_eq_true_eq, Bool.and_eq_false_iff,
          decide_eq_false_iff_not, not_not] at this
        rcases this with h2 | h2
        · exact absurd h2 hc1
        · exact h2
      subst hc1v
      have e2 := spanP_append (fun c => c ≠ '}' && c ≠ '(') r1
      have s2 := spanP_spec (fun c => c ≠ '}' && c ≠ '(') r1
      rcases hp2 : spanP (fun c => c ≠ '}' && c ≠ '(') r1 with ⟨B, b2⟩
      rw [hp2] at h e2 s2
      dsimp only at h e2 s2
      cases b2 with
      | nil => cases h
      | cons c2 r2 =>
        dsimp only at h s2
        have hA : ∀ c ∈ A, ((c ≠ '}' && c ≠ ':') : Bool) = true := s1.1
        have hB : ∀ c ∈ B, ((c ≠ '}' && c ≠ '(') : Bool) = true := s2.1
        have hBesc : ∀ c ∈ escapeSeg B, ((c ≠ '}' && c ≠ '(') : Bool)
            = true := by
          intro c hc
          rcases mem_escapeSeg hc with rfl | hc2
          · decide
          · exact hB c hc2
        by_cases hc2 : c2 = '}'
        · subst hc2
          rw [if_pos rfl] at h
          cases h
          have hAesc : escapeSeg A = A := escapeSeg_of_nonmeta hf
          have hesc : escapeSeg s = A ++ ':' ::
              (escapeSeg B ++ '}' :: escapeSeg r) := by
            rw [← e1, escapeSeg_append, hAesc,
              escapeSeg_cons_nonmeta (by decide) r1, ← e2,
              escapeSeg_append, escapeSeg_cons_nonmeta (by decide) r]
          rw [hesc]
          refine ⟨⟨A, some (escapeSeg B), none⟩, rfl, ?_⟩
          unfold scanField
          rw [spanP_eq_append _ A (':' :: (escapeSeg B ++ '}' :: escapeSeg r))
            hA (by simp)]
          dsimp only
          rw [if_neg (by decide : ¬(':' : Char) = '}')]
          rw [spanP_eq_append _ (escapeSeg B) ('}' :: escapeSeg r) hBesc
            (by simp)]
          dsimp only
          rw [if_pos rfl]
        · rw [if_neg hc2] at h
          have hc2v : c2 = '(' := by
            have := s2.2
            simp only [Bool.and_eq_true, decide_eq_true_eq,
              Bool.and_eq_false_iff, decide_eq_false_iff_not, not_not] at this
            rcases this with h2 | h2
            · exact absurd h2 hc2
            · exact h2
          subst hc2v
          rw [if_pos rfl] at h
          have e3 := spanP_append (fun c => c ≠ '}') r2
          have s3 := spanP_spec (fun c => c ≠ '}') r2
          rcases hp3 : spanP (fun c => c ≠ '}') r2 with ⟨C, b3⟩
          rw [hp3] at h e3 s3
          dsimp only at h e3 s3
          cases b3 with
          | nil => cases h
          | cons c3 r3 =>
            dsimp only at h s3
            cases hlast : C.getLast? with
            | none => rw [hlast] at h; cases h
            | some cl =>
              rw [hlast] at h
              dsimp only at h
              by_cases hcl : cl = ')'
              · subst hcl
                rw [if_pos rfl] at h
                cases h
                have hC : ∀ c ∈ C, ((c ≠ '}') : Bool) = true := s3.1
                have hc3 : c3 = '}' := by
                  have := s3.2
                  simpa using this
                subst hc3
                have hCesc : ∀ c ∈ escapeSeg C, ((c ≠ '}') : Bool) = true := by
                  intro c hc
                  rcases mem_escapeSeg hc with rfl | hc2
                  · decide
                  · exact hC c hc2
                have hAesc : escapeSeg A = A := escapeSeg_of_nonmeta hf
                have hesc : escapeSeg s = A ++ ':' ::
                    ((escapeSeg B ++ ['\\']) ++ '(' ::
                      (escapeSeg C ++ '}' :: escapeSeg r)) := by
                  rw [← e1, escapeSeg_append, hAesc,
                    escapeSeg_cons_nonmeta (by decide) r1, ← e2,
                    escapeSeg_append, escapeSeg_cons_meta (by decide) r2,
                    ← e3, escapeSeg_append,
                    escapeSeg_cons_nonmeta (by decide) r]
                  simp
                rw [hesc]
                refine ⟨⟨A, some (escapeSeg B ++ ['\\']),
                  some (escapeSeg C).dropLast⟩, rfl, ?_⟩
                unfold scanField
                rw [spanP_eq_append _ A _ hA (by simp)]
                dsimp only
                rw [if_neg (by decide : ¬(':' : Char) = '}')]
                rw [spanP_eq_append _ (escapeSeg B ++ ['\\'])
                  ('(' :: (escapeSeg C ++ '}' :: escapeSeg r)) ?_ (by simp)]
                · dsimp only
                  rw [if_neg (by decide : ¬('(' : Char) = '}'),
                    if_pos rfl]
                  rw [spanP_eq_append _ (escapeSeg C)
                    ('}' :: escapeSeg r) hCesc (by simp)]
                  dsimp only
                  rw [escapeSeg_getLast hlast]
                  dsimp only
                  rw [if_pos rfl]
                · intro c hc
                  rcases List.mem_append.mp hc with hc2 | hc2
                  · exact hBesc c hc2
                  · simp only [List.mem_cons, List.not_mem_nil, or_false]
                      at hc2
                    subst hc2
                    decide
              · rw [if_neg hcl] at h
                cases h

/-- Escaping preserves a failed field scan. -/
lemma scanField_esc_none {s : List Char} (h : scanField s = none) :
    scanField (escapeSeg s) = none := by
  have e1 := spanP_append (fun c => c ≠ '}' && c ≠ ':') s
  have s1 := spanP_spec (fun c => c ≠ '}' && c ≠ ':') s
  unfold scanField at h
  rcases hp1 : spanP (fun c => c ≠ '}' && c ≠ ':') s with ⟨A, b1⟩
  rw [hp1] at h e1 s1
  dsimp only at h e1 s1
  cases b1 with
  | nil =>
    have hA : ∀ c ∈ A, ((c ≠ '}' && c ≠ ':') : Bool) = true := s1.1
    have hAesc : ∀ c ∈ escapeSeg A, ((c ≠ '}' && c ≠ ':') : Bool) = true := by
      intro c hc
      rcases mem_escapeSeg hc with rfl | hc2
      · decide
      · exact hA c hc2
    have hs : escapeSeg s = escapeSeg A := by
      rw [← e1, List.append_nil]
    rw [hs]
    unfold scanField
    have hsp := spanP_eq_append _ (escapeSeg A) [] hAesc trivial
    rw [List.append_nil] at hsp
    rw [hsp]
  | cons c1 r1 =>
    dsimp only at h s1
    by_cases hc1 : c1 = '}'
    · subst hc1
      rw [if_pos rfl] at h
      cases h
    · rw [if_neg hc1] at h
      have hc1v : c1 = ':' := by
        have := s1.2
        simp only [Bool.and_eq_true, decide_eq_true_eq, Bool.and_eq_false_iff,
          decide_eq_false_iff_not, not_not] at this
        rcases this with h2 | h2
        · exact absurd h2 hc1
        · exact h2
      subst hc1v
      have hA : ∀ c ∈ A, ((c ≠ '}' && c ≠ ':') : Bool) = true := s1.1
      have hAesc : ∀ c ∈ escapeSeg A, ((c ≠ '}' && c ≠ ':') : Bool)
          = true := by
        intro c hc
        rcases mem_escapeSeg hc with rfl | hc2
        · decide
        · exact hA c hc2
      have e2 := spanP_append (fun c => c ≠ '}' && c ≠ '(') r1
      have s2 := spanP_spec (fun c => c ≠ '}' && c ≠ '(') r1
      rcases hp2 : spanP (fun c => c ≠ '}' && c ≠ '(') r1 with ⟨B, b2⟩
      rw [hp2] at h e2 s2
      dsimp only at h e2 s2
      cases b2 with
      | nil =>
        have hB : ∀ c ∈ B, ((c ≠ '}' && c ≠ '(') : Bool) = true := s2.1
        have hBesc : ∀ c ∈ escapeSeg B, ((c ≠ '}' && c ≠ '(') : Bool)
            = true := by
          intro c hc
          rcases mem_escapeSeg hc with rfl | hc2
          · decide
          · exact hB c hc2
        have hs : escapeSeg s = escapeSeg A ++ ':' :: escapeSeg B := by
          rw [← e1, escapeSeg_append, escapeSeg_cons_nonmeta (by decide) r1,
            ← e2, List.append_nil]
        rw [hs]
        unfold scanField
        rw [spanP_eq_append _ (escapeSeg A) (':' :: escapeSeg B) hAesc
          (by simp)]
        dsimp only
        rw [if_neg (by decide : ¬(':' : Char) = '}')]
        have hsp := spanP_eq_append _ (escapeSeg B) [] hBesc trivial
        rw [List.append_nil] at hsp
        rw [hsp]
      | cons c2 r2 =>
        dsimp only at h s2
        have hB : ∀ c ∈ B, ((c ≠ '}' && c ≠ '(') : Bool) = true := s2.1
        have hBesc : ∀ c ∈ escapeSeg B, ((c ≠ '}' && c ≠ '(') : Bool)
            = true := by
          intro c hc
          rcases mem_escapeSeg hc with rfl | hc2
          · decide
          · exact hB c hc2
        by_cases hc2 : c2 = '}'
        · subst hc2
          rw [if_pos rfl] at h
          cases h
        · rw [if_neg hc2] at h
          have hc2v : c2 = '(' := by
            have := s2.2
            simp only [Bool.and_eq_true, decide_eq_true_eq,
              Bool.and_eq_false_iff, decide_eq_false_iff_not, not_not] at this
            rcases this with h2 | h2
            · exact absurd h2 hc2
            · exact h2
          subst hc2v
          rw [if_pos rfl] at h
          have e3 := spanP_append (fun c => c ≠ '}') r2
          have s3 := spanP_spec (fun c => c ≠ '}') r2
          rcases hp3 : spanP (fun c => c ≠ '}') r2 with ⟨C, b3⟩
          rw [hp3] at h e3 s3
          dsimp only at h e3 s3
          have hC : ∀ c ∈ C, ((c ≠ '}') : Bool) = true := s3.1
          have hCesc : ∀ c ∈ escapeSeg C, ((c ≠ '}') : Bool) = true := by
            intro c hc
            rcases mem_escapeSeg hc with rfl | hc2
            · decide
            · exact hC c hc2
          have hBE : ∀ c ∈ escapeSeg B ++ ['\\'],
              ((c ≠ '}' && c ≠ '(') : Bool) = true := by
            intro c hc
            rcases List.mem_append.mp hc with hc2 | hc2
            · exact hBesc c hc2
            · simp only [List.mem_cons, List.not_mem_nil, or_false] at hc2
              subst hc2
              decide
          cases b3 with
          | nil =>
            have hs : escapeSeg s = escapeSeg A ++ ':' ::
                ((escapeSeg B ++ ['\\']) ++ '(' :: escapeSeg C) := by
              rw [← e1, escapeSeg_append, escapeSeg_cons_nonmeta (by decide) r1,
                ← e2, escapeSeg_append, escapeSeg_cons_meta (by decide) r2,
                ← e3, List.append_nil]
              simp
            rw [hs]
            unfold scanField
            rw [spanP_eq_append _ (escapeSeg A) _ hAesc (by simp)]
            dsimp only
            rw [if_neg (by decide : ¬(':' : Char) = '}')]
            rw [spanP_eq_append _ (escapeSeg B ++ ['\\'])
              ('(' :: escapeSeg C) hBE (by simp)]
            dsimp only
            rw [if_neg (by decide : ¬('(' : Char) = '}'), if_pos rfl]
            have hsp := spanP_eq_append (fun c => (c ≠ '}' : Bool))
              (escapeSeg C) [] hCesc trivial
            rw [List.append_nil] at hsp
            rw [hsp]
          | cons c3 r3 =>
            dsimp only at h s3
            have hc3 : c3 = '}' := by
              have := s3.2
              simpa using this
            subst hc3
            have hs : escapeSeg s = escapeSeg A ++ ':' ::
                ((escapeSeg B ++ ['\\']) ++ '(' ::
                  (escapeSeg C ++ '}' :: escapeSeg r3)) := by
              rw [← e1, escapeSeg_append, escapeSeg_cons_nonmeta (by decide) r1,
                ← e2, escapeSeg_append, escapeSeg_cons_meta (by decide) r2,
                ← e3, escapeSeg_append, escapeSeg_cons_nonmeta (by decide) r3]
              simp
            rw [hs]
            unfold scanField
            rw [spanP_eq_append _ (escapeSeg A) _ hAesc (by simp)]
            dsimp only
            rw [if_neg (by decide : ¬(':' : Char) = '}')]
            rw [spanP_eq_append _ (escapeSeg B ++ ['\\'])
              ('(' :: (escapeSeg C ++ '}' :: escapeSeg r3)) hBE (by simp)]
            dsimp only
            rw [if_neg (by decide : ¬('(' : Char) = '}'), if_pos rfl]
            rw [spanP_eq_append (fun c => (c ≠ '}' : Bool)) (escapeSeg C)
              ('}' :: escapeSeg r3) hCesc (by simp)]
            dsimp only
            cases hlast : C.getLast? with
            | none =>
              have hCnil : C = [] := by
                cases C with
                | nil => rfl
                | cons x xs =>
                  rw [List.getLast?_eq_getLast _ (by simp)] at hlast
                  cases hlast
              subst hCnil
              rfl
            | some cl =>
              rw [hlast] at h
              dsimp only at h
              by_cases hcl : cl = ')'
              · subst hcl
                rw [if_pos rfl] at h
                cases h
              · rw [escapeSeg_getLast hlast]
                dsimp only
                rw [if_neg hcl]

end Falcon
